import Mathlib

/-!
Verification of the blogsareback/proxy-vercel proxy.

This file shallowly embeds the TypeScript sources (src/lib/ssrf.ts,
src/lib/sanitize.ts, src/lib/auth.ts, src/api/discover.ts) as executable
Lean definitions and proves/refutes the frozen claims about them.

Modelling conventions:
* JavaScript strings are modelled as Lean `String`; the JS string methods
  used by the sources (`startsWith`, `includes`, `endsWith`, `trim`,
  `toLowerCase`, `split`, `length`) are modelled by the `js*`/`list*`
  helpers below, operating on the underlying `List Char`.  `toLowerCase`
  is modelled on the ASCII range, which covers every string the sources
  compare against.
* JS `||` on strings (falsy empty string) is `jsOr`.
* Platform collaborators (the WHATWG URL constructor, the DOM parser, the
  HTTP client, the rss feed parser) are modelled as explicit functions or
  oracle parameters; each carries a doc comment describing what part of
  the platform behaviour is covered.
-/

namespace Proxy

/-- Model of JS `String.prototype.startsWith` on the char-list level. -/
def listPre : List Char → List Char → Bool
  | [], _ => true
  | _ :: _, [] => false
  | p :: ps, c :: cs => p == c && listPre ps cs

/-- Model of JS `String.prototype.startsWith`. -/
def jsStartsWith (s p : String) : Bool := listPre p.data s.data

/-- Does `sub` occur contiguously inside `l`?  Model of JS `includes`. -/
def listInfix (sub : List Char) : List Char → Bool
  | [] => listPre sub []
  | c :: cs => listPre sub (c :: cs) || listInfix sub cs

/-- Model of JS `String.prototype.includes`. -/
def jsIncludes (s sub : String) : Bool := listInfix sub.data s.data

/-- Model of JS `String.prototype.endsWith` (used for the `/…$/` host
patterns in ssrf.ts): `p` is a suffix of `s`. -/
def jsEndsWith (s p : String) : Bool := listPre p.data.reverse s.data.reverse

/-- ASCII lower-casing of one character; models JS `toLowerCase` on the
ASCII range (the only range the sources compare against). -/
def asciiLower (c : Char) : Char :=
  if 'A' ≤ c ∧ c ≤ 'Z' then Char.ofNat (c.toNat + 32) else c

/-- Model of JS `String.prototype.toLowerCase` (ASCII range). -/
def jsToLower (s : String) : String := ⟨s.data.map asciiLower⟩

/-- JS whitespace for `String.prototype.trim` (ASCII subset: space, tab,
line feed, carriage return, vertical tab, form feed). -/
def isJsWs (c : Char) : Bool :=
  c == ' ' || c == '\t' || c == '\n' || c == '\r' ||
  c == Char.ofNat 0x0b || c == Char.ofNat 0x0c

/-- Model of JS `String.prototype.trim`. -/
def jsTrim (s : String) : String :=
  ⟨((s.data.dropWhile isJsWs).reverse.dropWhile isJsWs).reverse⟩

/-- JS `a || b` for strings: the empty string is falsy. -/
def jsOr (a b : String) : String := if a = "" then b else a

/-- JS `s.length` (the sources only take lengths of ordinary text). -/
def jsLen (s : String) : Nat := s.data.length

-- ============================================================
-- WHATWG URL model (platform collaborator)
-- ============================================================

/-- URL Standard, basic parser step: is `c` an ASCII tab or newline
(removed everywhere from the input)? -/
def isTabNL (c : Char) : Bool := c == '\t' || c == '\n' || c == '\r'

/-- URL Standard, basic parser step: is `c` a C0 control or space
(trimmed from both ends of the input)? -/
def isC0Space (c : Char) : Bool := c.toNat ≤ 0x20

/-- Preprocessing the WHATWG URL parser applies to its input: remove
leading and trailing C0 controls/spaces, then remove all ASCII tabs and
newlines. -/
def urlPre (l : List Char) : List Char :=
  (((l.dropWhile isC0Space).reverse.dropWhile isC0Space).reverse).filter
    (fun c => !isTabNL c)

def isAsciiAlpha (c : Char) : Bool :=
  ('a' ≤ c && c ≤ 'z') || ('A' ≤ c && c ≤ 'Z')

def isAsciiDigit (c : Char) : Bool := '0' ≤ c && c ≤ '9'

/-- After the first (alpha) character, a URL scheme consists of
alphanumerics, `+`, `-`, `.`, terminated by `:`. -/
def schemeRest : List Char → Bool
  | [] => false
  | c :: cs =>
    if c = ':' then true
    else (isAsciiAlpha c || isAsciiDigit c || c == '+' || c == '-' || c == '.') &&
      schemeRest cs

/-- Does the (preprocessed) input start with a URL scheme?  If so the
WHATWG parser treats it as an absolute URL. -/
def hasScheme : List Char → Bool
  | [] => false
  | c :: cs => isAsciiAlpha c && schemeRest cs

/-- Lower-case the characters before the first `:` (the WHATWG parser
lower-cases the scheme). -/
def lowerUntilColon : List Char → List Char
  | [] => []
  | c :: cs => if c = ':' then c :: cs else asciiLower c :: lowerUntilColon cs

/-- Split off a leading URL scheme: returns `(scheme, rest-after-colon)`
when the list starts with a valid scheme. -/
def splitScheme : List Char → Option (List Char × List Char)
  | [] => none
  | c :: cs =>
    if isAsciiAlpha c then
      match go cs with
      | some (sch, rest) => some (c :: sch, rest)
      | none => none
    else none
where
  go : List Char → Option (List Char × List Char)
    | [] => none
    | c :: cs =>
      if c = ':' then some ([], cs)
      else if isAsciiAlpha c || isAsciiDigit c || c == '+' || c == '-' || c == '.' then
        match go cs with
        | some (sch, rest) => some (c :: sch, rest)
        | none => none
      else none

/-- Take characters until (excluding) the first `/`; used to isolate the
authority of a `scheme://authority/path` URL. -/
def takeUntilSlash (l : List Char) : List Char := l.takeWhile (fun c => c ≠ '/')

def dropUntilSlash (l : List Char) : List Char := l.dropWhile (fun c => c ≠ '/')

/-- Keep everything up to and including the last `/` of a path (the
"directory" a relative reference is resolved against). -/
def dirOf (l : List Char) : List Char :=
  (l.reverse.dropWhile (fun c => c ≠ '/')).reverse

/-- The upper-case hexadecimal digit for `k < 16`, as percent-encoding
per the URL Standard renders it. -/
def hexDigit (k : Nat) : Char :=
  if k < 10 then Char.ofNat (48 + k) else Char.ofNat (55 + k)

/-- URL Standard percent-encoding applied to the path/query/fragment
part of a parsed URL, restricted to the characters it always encodes
that matter here: C0 controls and space (all of `c.toNat ≤ 0x20`; the
path, query and fragment percent-encode sets each contain them). -/
def pctEncC0 (l : List Char) : List Char :=
  l.flatMap (fun c =>
    if c.toNat ≤ 0x20 then ['%', hexDigit (c.toNat / 16), hexDigit (c.toNat % 16)]
    else [c])

/-- Modelled platform collaborator: parsing a base URL string into
`(scheme, authority, path)` for resolution, per the WHATWG URL parser.
Covers absolute `scheme://authority/path` URLs (the only bases the
sources resolve against): input preprocessing (tab/newline stripping,
C0/space trimming), scheme validation and lower-casing, the
non-empty-authority requirement, rejection of authorities containing
controls or spaces (forbidden host code points make `new URL` throw),
and percent-encoding of controls and spaces in the rest.  Userinfo,
ports-vs-host splitting, further percent-encoding and path
normalisation are not distinguished; the authority is kept as one
opaque chunk, which is all the resolution below needs. -/
def parseBaseModel (base : String) : Option (List Char × List Char × List Char) :=
  let l := urlPre base.data
  match splitScheme l with
  | none => none
  | some (sch, rest) =>
    match rest with
    | '/' :: '/' :: rest2 =>
      let auth := takeUntilSlash rest2
      let path := dropUntilSlash rest2
      if auth = [] then none
      else if auth.any (fun c => c.toNat ≤ 0x20) then none
      else some (sch.map asciiLower, auth,
        if path = [] then ['/'] else pctEncC0 path)
    | _ => none

/-- Modelled platform collaborator: `new URL(input, base).href`, per the
WHATWG URL Standard.  Faithfully modelled: input preprocessing (remove
leading/trailing C0 controls and spaces, remove all ASCII tabs and
newlines — URL Standard "basic URL parser" steps 2 and 3), scheme
detection (an input with a scheme is absolute and is returned with its
scheme lower-cased), and resolution of scheme-relative, absolute-path,
fragment, query and relative-path references against an absolute base.
Not modelled: host canonicalisation and `..`/`.` path normalisation of
the output (they never matter to the claims below, which only inspect
scheme prefixes of resolved values). -/
def urlResolve (input base : String) : Option String :=
  let s := urlPre input.data
  if hasScheme s then
    some ⟨lowerUntilColon s⟩
  else
    match parseBaseModel base with
    | none => none
    | some (sch, auth, path) =>
      match s with
      | '/' :: '/' :: rest => some ⟨sch ++ ':' :: '/' :: '/' :: rest⟩
      | '/' :: rest => some ⟨sch ++ ':' :: '/' :: '/' :: auth ++ '/' :: rest⟩
      | '#' :: rest => some ⟨sch ++ ':' :: '/' :: '/' :: auth ++ path ++ '#' :: rest⟩
      | '?' :: rest => some ⟨sch ++ ':' :: '/' :: '/' :: auth ++ path ++ '?' :: rest⟩
      | other => some ⟨sch ++ ':' :: '/' :: '/' :: auth ++ dirOf path ++ other⟩

-- ============================================================
-- src/lib/ssrf.ts
-- ============================================================

/-- A parsed URL as the handlers see it after `new URL(...)`: the pieces
of the platform `URL` object that src uses (`protocol`, `hostname`,
`pathname`, `origin`).  `hostname` is as the platform reports it:
lower-cased, and bracketed for IPv6 literals. -/
structure URLRec where
  protocol : String
  hostname : String
  pathname : String
  origin : String
deriving DecidableEq, Repr

/-- The decimal digit character for `k ≤ 9`. -/
def decDigit (k : Nat) : Char := Char.ofNat (48 + k)

/-- Canonical decimal rendering of an IPv4 octet (no leading zeros), as
the platform URL parser reports literal-IPv4 hostnames. -/
def octStr (n : Nat) : String :=
  if n < 10 then ⟨[decDigit n]⟩
  else if n < 100 then ⟨[decDigit (n / 10), decDigit (n % 10)]⟩
  else ⟨[decDigit (n / 100), decDigit (n / 10 % 10), decDigit (n % 10)]⟩

/-- ssrf.ts `PRIVATE_IPV4_RANGES`: each regex `/^p/` is an anchored
prefix test; the `172` alternation `(1[6-9]|2[0-9]|3[0-1])` denotes the
sixteen two-digit strings 16–31, so that pattern is the disjunction of
the sixteen prefixes `172.16.` … `172.31.` (enumerated here as
`"172." ++ octStr (16+i) ++ "."` for `i < 16`, which are exactly those
sixteen strings). -/
def prange172 : List String :=
  (List.range 16).map (fun i => "172." ++ octStr (16 + i) ++ ".")

/-- ssrf.ts `isPrivateIPv4`: does the hostname match one of the six
anchored-prefix range patterns? -/
def isPrivateIPv4 (ip : String) : Bool :=
  jsStartsWith ip "10." ||
  (prange172.any (fun p => jsStartsWith ip p)) ||
  jsStartsWith ip "192.168." ||
  jsStartsWith ip "127." ||
  jsStartsWith ip "169.254." ||
  jsStartsWith ip "0."

/-- ssrf.ts `isPrivateIPv6`. -/
def isPrivateIPv6 (ip : String) : Bool :=
  let normalized := jsToLower ip
  normalized == "::1" || normalized == "[::1]" ||
  jsStartsWith normalized "fc" || jsStartsWith normalized "fd" ||
  jsStartsWith normalized "fe80"

/-- ssrf.ts `BLOCKED_HOSTNAMES`. -/
def BLOCKED_HOSTNAMES : List String :=
  ["localhost", "metadata.google.internal", "169.254.169.254",
   "metadata.azure.com", "[::1]"]

/-- ssrf.ts `isBlockedHostname`: direct blocklist match, or one of the
case-insensitive suffix patterns `.local`, `.internal`, `.localhost`
(the input is lower-cased first, so the suffix test is on the lowered
string). -/
def isBlockedHostname (hostname : String) : Bool :=
  let lower := jsToLower hostname
  BLOCKED_HOSTNAMES.contains lower ||
  jsEndsWith lower ".local" || jsEndsWith lower ".internal" ||
  jsEndsWith lower ".localhost"

/-- Split a character list at every `.` (so `n` dots give `n + 1`
components, possibly empty). -/
def splitDots : List Char → List (List Char)
  | [] => [[]]
  | c :: cs =>
    if c = '.' then [] :: splitDots cs
    else
      match splitDots cs with
      | [] => [[c]]
      | h :: t => (c :: h) :: t

/-- A run of one to three ASCII digits (`\d{1,3}`). -/
def octetShaped (t : List Char) : Bool :=
  decide (1 ≤ t.length) && decide (t.length ≤ 3) && t.all isAsciiDigit

/-- The regex `/^\d{1,3}\.\d{1,3}\.\d{1,3}\.\d{1,3}$/` from ssrf.ts
`looksLikeIP`: exactly four dot-separated runs of one to three ASCII
digits. -/
def ipv4Shape (s : String) : Bool :=
  match splitDots s.data with
  | [a, b, c, d] => octetShaped a && octetShaped b && octetShaped c && octetShaped d
  | _ => false

/-- ssrf.ts `looksLikeIP`. -/
def looksLikeIP (hostname : String) : Bool :=
  ipv4Shape hostname || jsIncludes hostname ":" || jsStartsWith hostname "["

/-- ssrf.ts error codes (src/lib/config.ts `ErrorCodes`). -/
def INVALID_URL : String := "INVALID_URL"
def BLOCKED_URL : String := "BLOCKED_URL"
def FETCH_FAILED : String := "FETCH_FAILED"
def TIMEOUT_CODE : String := "TIMEOUT"
def CONTENT_TOO_LARGE : String := "CONTENT_TOO_LARGE"
def DISCOVERY_FAILED : String := "DISCOVERY_FAILED"

/-- ssrf.ts `UrlValidationResult`. -/
structure UrlValidationResult where
  valid : Bool
  errorCode : Option String
  errorMessage : Option String
  url : Option URLRec
deriving DecidableEq, Repr

def vrInvalid (code msg : String) : UrlValidationResult :=
  ⟨false, some code, some msg, none⟩

/-- The `/^\[|\]$/g` replacement of ssrf.ts line 116: strip one leading
`[` and one trailing `]`. -/
def stripBrackets (s : String) : String :=
  let l := if s.data.head? = some '[' then s.data.tail else s.data
  ⟨if l.getLast? = some ']' then l.dropLast else l⟩

/-- ssrf.ts `validateUrl`, lines 90–139: everything after the platform
`new URL` parse (protocol check, blocked-hostname check, literal-IP
checks). -/
def validateUrlParsed (url : URLRec) : UrlValidationResult :=
  if url.protocol ≠ "http:" ∧ url.protocol ≠ "https:" then
    vrInvalid INVALID_URL "URL must use HTTP or HTTPS protocol"
  else
    if isBlockedHostname (jsToLower url.hostname) then
      vrInvalid BLOCKED_URL "URL points to a blocked host"
    else if looksLikeIP (jsToLower url.hostname) then
      if isPrivateIPv4 (stripBrackets (jsToLower url.hostname)) then
        vrInvalid BLOCKED_URL "URL points to a private IP address"
      else if isPrivateIPv6 (stripBrackets (jsToLower url.hostname)) then
        vrInvalid BLOCKED_URL "URL points to a private IPv6 address"
      else ⟨true, none, none, some url⟩
    else ⟨true, none, none, some url⟩

-- ============================================================
-- src/lib/sanitize.ts
-- ============================================================

mutual
/-- A DOM node as produced by the platform HTML parser (collaborator):
an element with tag name, attributes (name/value pairs; unique names in
parser output) and children, or a text node.  A dedicated forest type is
used instead of `List HNode` so that all functions below are structurally
recursive. -/
inductive HNode where
  | elem (tag : String) (attrs : List (String × String)) (children : HForest)
  | text (s : String)

/-- A sequence of sibling DOM nodes. -/
inductive HForest where
  | nil
  | cons (n : HNode) (f : HForest)
end

/-- Concatenation of sibling sequences (used when an element is unwrapped
and its children are spliced into its parent's child list). -/
def HForest.append : HForest → HForest → HForest
  | .nil, g => g
  | .cons n f, g => .cons n (f.append g)

/-- sanitize.ts `ALLOWED_TAGS`. -/
def ALLOWED_TAGS : List String :=
  ["h1", "h2", "h3", "h4", "h5", "h6", "p", "br", "ul", "ol", "li",
   "blockquote", "pre", "code", "em", "strong", "b", "i", "u", "s",
   "mark", "a", "img", "figure", "figcaption", "table", "thead", "tbody",
   "tr", "th", "td", "hr", "sup", "sub", "details", "summary", "div",
   "span", "article", "section", "aside", "header", "footer", "main",
   "time", "abbr", "cite", "dfn", "kbd", "samp", "var", "small", "dl",
   "dt", "dd", "caption", "col", "colgroup", "picture", "source",
   "video", "audio"]

/-- sanitize.ts `DANGEROUS_TAGS`. -/
def DANGEROUS_TAGS : List String :=
  ["script", "style", "link", "meta", "iframe", "embed", "object",
   "form", "input", "button", "select", "textarea", "noscript",
   "template", "svg"]

/-- sanitize.ts `ALLOWED_ATTRS` (per-tag attribute allow-list; tags not
listed allow no attributes). -/
def ALLOWED_ATTRS (tag : String) : List String :=
  if tag = "a" then ["href"]
  else if tag = "img" then ["src", "alt", "title"]
  else if tag = "source" then ["src", "srcset", "type", "media"]
  else if tag = "video" then ["src", "poster", "width", "height"]
  else if tag = "audio" then ["src"]
  else if tag = "time" then ["datetime"]
  else if tag = "abbr" then ["title"]
  else if tag = "dfn" then ["title"]
  else if tag = "td" then ["colspan", "rowspan"]
  else if tag = "th" then ["colspan", "rowspan", "scope"]
  else if tag = "col" then ["span"]
  else if tag = "colgroup" then ["span"]
  else []

/-- JS `String.prototype.split` on a single-character separator (or,
filtered of empty chunks, on a character-class regex): the chunks
between separator occurrences, empty chunks included. -/
def splitP (p : Char → Bool) : List Char → List (List Char)
  | [] => [[]]
  | c :: cs =>
    if p c then [] :: splitP p cs
    else
      match splitP p cs with
      | [] => [[c]]
      | h :: t => (c :: h) :: t

/-- JS `Array.prototype.join` with separator `sep`. -/
def joinWith (sep : List Char) : List (List Char) → List Char
  | [] => []
  | [e] => e
  | e :: f :: es => e ++ sep ++ joinWith sep (f :: es)

/-- sanitize.ts `resolveSrcset`, the per-entry URL token: rewritten
against the base unless it is empty, already absolute, or a data URI
(case-sensitive checks, as in the source). -/
def srcsetUrl (baseUrl : String) (url : List Char) : List Char :=
  if url ≠ [] ∧ ¬ listPre "http://".data url = true ∧
      ¬ listPre "https://".data url = true ∧ ¬ listPre "data:".data url = true then
    match urlResolve ⟨url⟩ baseUrl with
    | some abs => abs.data
    | none => url
  else url

/-- sanitize.ts `resolveSrcset`, one comma-separated entry:
`entry.trim().split(/\s+/)`, rewrite the leading URL token, rejoin with
single spaces.  A whitespace-only entry yields `parts = [""]` in JS, the
`url &&` guard keeps the empty token, and the rejoin gives `""` — the
empty token list here. -/
def srcsetEntry (baseUrl : String) (e : List Char) : List Char :=
  match (splitP isJsWs (jsTrim ⟨e⟩).data).filter (fun t => t ≠ []) with
  | [] => []
  | url :: descs => joinWith [' '] (srcsetUrl baseUrl url :: descs)

/-- sanitize.ts `resolveSrcset`: split on commas, and in each entry
rewrite the leading URL token (whitespace-split) unless it is already
absolute or a data URI; descriptor tokens are preserved; entries are
rejoined with `', '`. -/
def resolveSrcset (srcset baseUrl : String) : String :=
  ⟨joinWith [',', ' ']
    (((splitP (fun c => c = ',') srcset.data).map (srcsetEntry baseUrl)))⟩

/-- The `javascript:`/`data:`/`vbscript:` scheme test sanitize.ts applies
to anchor `href` values (on the lower-cased, trimmed value). -/
def isForbiddenHref (href : String) : Bool :=
  let hrefLower := jsTrim (jsToLower href)
  jsStartsWith hrefLower "javascript:" || jsStartsWith hrefLower "data:" ||
  jsStartsWith hrefLower "vbscript:"

/-- sanitize.ts lines 239–265: the anchor `href` treatment.  Returns
`none` when the attribute is removed.  The empty string is falsy in JS,
so an empty `href` is left untouched. -/
def fixHref (baseUrl href : String) : Option String :=
  if href = "" then some href
  else if isForbiddenHref href then none
  else if jsStartsWith href "http://" || jsStartsWith href "https://" ||
      jsStartsWith href "mailto:" || jsStartsWith href "#" then
    some href
  else
    match urlResolve href baseUrl with
    | some abs => some abs
    | none => some href

/-- sanitize.ts lines 267–287: the `img src` treatment (data URIs are
recognised case-insensitively and preserved). -/
def fixImgSrc (baseUrl src : String) : String :=
  if src = "" then src
  else
    let srcLower := jsTrim (jsToLower src)
    if jsStartsWith srcLower "data:" then src
    else if jsStartsWith src "http://" || jsStartsWith src "https://" then src
    else
      match urlResolve src baseUrl with
      | some abs => abs
      | none => src

/-- sanitize.ts lines 289–304 and 314–330: the `source src` and `video
poster` treatment (case-sensitive `data:`/`http`(`s`) checks on the raw
value). -/
def fixPlainUrl (baseUrl v : String) : String :=
  if v ≠ "" ∧ ¬ jsStartsWith v "http://" = true ∧
      ¬ jsStartsWith v "https://" = true ∧ ¬ jsStartsWith v "data:" = true then
    match urlResolve v baseUrl with
    | some abs => abs
    | none => v
  else v

/-- The per-attribute rewriting sanitize.ts performs on an element whose
tag survived, applied to an attribute that passed the per-tag allow-list
(`none` = attribute removed). -/
def fixAttr (baseUrl tag name value : String) : Option (String × String) :=
  if tag = "a" ∧ name = "href" then
    match fixHref baseUrl value with
    | some v => some (name, v)
    | none => none
  else if tag = "img" ∧ name = "src" then
    some (name, fixImgSrc baseUrl value)
  else if tag = "source" ∧ name = "src" then
    some (name, fixPlainUrl baseUrl value)
  else if tag = "source" ∧ name = "srcset" then
    some (name, if value = "" then value else resolveSrcset value baseUrl)
  else if tag = "video" ∧ name = "poster" then
    some (name, fixPlainUrl baseUrl value)
  else
    some (name, value)

/-- sanitize.ts lines 228–331 restricted to one element's attribute list:
drop attributes outside the tag's allow-list, then apply the per-tag URL
fix-ups.  (In parser output attribute names are unique, so the per-entry
formulation coincides with the source's `getAttribute`/`setAttribute`
sequence.) -/
def fixAttrs (baseUrl tag : String) (attrs : List (String × String)) :
    List (String × String) :=
  (attrs.filter (fun a => (ALLOWED_ATTRS tag).contains a.1)).filterMap
    (fun a => fixAttr baseUrl tag a.1 a.2)

mutual
/-- sanitize.ts `sanitizeHtml`, as a transformation of the parsed DOM
forest: dangerous elements are removed with their entire subtree;
elements outside the tag allow-list are replaced by their (sanitized)
children; surviving elements keep only allow-listed, fixed-up
attributes.  This single recursion is the composition of the source's
two passes (remove all `DANGEROUS_TAGS` matches, then walk the snapshot
of remaining elements in document order unwrapping/filtering), which
agree because both passes make per-node decisions and removal/unwrapping
preserve document order of the remaining nodes. -/
def sanitizeNode (baseUrl : String) : HNode → HForest
  | .text s => .cons (.text s) .nil
  | .elem tag attrs children =>
    let kids := sanitizeForest baseUrl children
    if DANGEROUS_TAGS.contains tag then .nil
    else if ¬ ALLOWED_TAGS.contains tag then kids
    else .cons (.elem tag (fixAttrs baseUrl tag attrs) kids) .nil

/-- `sanitizeNode` over a sibling sequence. -/
def sanitizeForest (baseUrl : String) : HForest → HForest
  | .nil => .nil
  | .cons n f => (sanitizeNode baseUrl n).append (sanitizeForest baseUrl f)
end

-- ============================================================
-- src/lib/auth.ts
-- ============================================================

/-- auth.ts `constantTimeCompare`: with equal lengths, OR together the
XORs of the corresponding char codes and compare with 0; with unequal
lengths the loop result is discarded and `false` is returned.  (JS
`charCodeAt` yields UTF-16 code units; `Char.toNat` coincides with it on
the basic plane, which covers any realistic key.) -/
def constantTimeCompare (a b : String) : Bool :=
  if a.data.length ≠ b.data.length then false
  else
    ((a.data.zip b.data).foldl
      (fun r p => r ||| (p.1.toNat ^^^ p.2.toNat)) 0) == 0

/-- auth.ts `AuthResult`. -/
structure AuthResult where
  authenticated : Bool
  error : Option String
deriving DecidableEq, Repr

/-- auth.ts `validateAuth`.  `apiKey` models `process.env.BAB_API_KEY`
(`none` = unset); `!API_KEY` is true for an unset or empty key.
`provided` models `req.headers['x-api-key']` (Node delivers at most one
string for this header); `!providedKey` is true for a missing or empty
header. -/
def validateAuth (apiKey : Option String) (provided : Option String) : AuthResult :=
  match apiKey with
  | none => ⟨true, none⟩
  | some key =>
    if key = "" then ⟨true, none⟩
    else
      match provided with
      | none => ⟨false, some "Invalid or missing API key"⟩
      | some p =>
        if p = "" then ⟨false, some "Invalid or missing API key"⟩
        else if constantTimeCompare p key then ⟨true, none⟩
        else ⟨false, some "Invalid or missing API key"⟩

-- ============================================================
-- src/api/discover.ts — helpers
-- ============================================================

/-- discover.ts `FeedInfo` (`title : Option String` models
`string | null`). -/
structure FeedInfo where
  url : String
  title : Option String
  type : String
deriving DecidableEq, Repr

/-- discover.ts `isUsernameInput`: the regex `^@?[a-zA-Z0-9_-]+$` (an
optional leading `@` followed by one or more word characters) and no
dot. -/
def isUsernameBody (l : List Char) : Bool :=
  l ≠ [] && l.all (fun c => isAsciiAlpha c || isAsciiDigit c || c == '_' || c == '-')

def isUsernameInput (input : String) : Bool :=
  (match input.data with
   | '@' :: rest => isUsernameBody rest
   | other => isUsernameBody other) &&
  !jsIncludes input "."

/-- discover.ts `normalizeUrl`. -/
def normalizeUrl (input : String) : String :=
  let trimmed := jsTrim input
  if jsStartsWith trimmed "http://" || jsStartsWith trimmed "https://" then trimmed
  else "https://" ++ trimmed

/-- The regex `/\/\d{4}\//` of discover.ts line 139: somewhere in the
path, a `/`, four digits, `/`. -/
def hasDateSeg : List Char → Bool
  | [] => false
  | '/' :: d1 :: d2 :: d3 :: d4 :: '/' :: rest =>
    (isAsciiDigit d1 && isAsciiDigit d2 && isAsciiDigit d3 && isAsciiDigit d4) ||
      hasDateSeg (d1 :: d2 :: d3 :: d4 :: '/' :: rest)
  | _ :: rest => hasDateSeg rest

/-- discover.ts `detectInputType` (on the parsed URL's `pathname`).
`path.split('/').length` is the number of `/` occurrences plus one. -/
def detectInputType (url : URLRec) : String :=
  let path := jsToLower url.pathname
  if jsEndsWith path ".xml" || jsEndsWith path ".rss" || jsEndsWith path ".atom" ||
      jsIncludes path "/feed" || jsIncludes path "/rss" || jsIncludes path "/atom" then
    "feed"
  else if hasDateSeg path.data || jsIncludes path "/post/" || jsIncludes path "/posts/" ||
      jsIncludes path "/article/" || jsIncludes path "/articles/" ||
      (jsIncludes path "/blog/" &&
        decide ((path.data.count '/') + 1 > 3)) then
    "article"
  else "homepage"

/-- The lazy-prefix article patterns of discover.ts `extractHomepageUrl`:
tail matcher for `\/\d{4}\/\d{2}\/.*` (a slash, four digits, a slash,
two digits, a slash, anything). -/
def tailP1 : List Char → Bool
  | '/' :: d1 :: d2 :: d3 :: d4 :: '/' :: e1 :: e2 :: '/' :: _ =>
    isAsciiDigit d1 && isAsciiDigit d2 && isAsciiDigit d3 && isAsciiDigit d4 &&
    isAsciiDigit e1 && isAsciiDigit e2
  | _ => false

/-- Tail matcher for `\/\d{4}\/.*`. -/
def tailP2 : List Char → Bool
  | '/' :: d1 :: d2 :: d3 :: d4 :: '/' :: _ =>
    isAsciiDigit d1 && isAsciiDigit d2 && isAsciiDigit d3 && isAsciiDigit d4
  | _ => false

/-- Tail matcher for `\/posts?\/.*`. -/
def tailP3 (l : List Char) : Bool :=
  listPre "/posts/".data l || listPre "/post/".data l

/-- Tail matcher for `\/articles?\/.*`. -/
def tailP4 (l : List Char) : Bool :=
  listPre "/articles/".data l || listPre "/article/".data l

/-- Tail matcher for `\/blog\/[^/]+$` (anchored at the end: one non-empty
slash-free segment). -/
def tailP5 (l : List Char) : Bool :=
  listPre "/blog/".data l &&
    (let seg := l.drop 6
     seg ≠ [] && seg.all (fun c => c ≠ '/'))

/-- An anchored regex `^(.*?)tail$`: the lazy group takes the shortest
prefix whose remainder matches the tail; returns that prefix. -/
def scanSplit (p : List Char → Bool) : List Char → Option (List Char)
  | [] => if p [] then some [] else none
  | c :: cs =>
    if p (c :: cs) then some []
    else (scanSplit p cs).map (fun g => c :: g)

/-- discover.ts `extractHomepageUrl`: try the five article patterns in
order; the first match determines the kept prefix (`match[1]`); an empty
prefix (or no match at all, via `url.origin` at line 176) falls back as
in the source: `${url.origin}${basePath || '/'}`. -/
def extractHomepageUrl (url : URLRec) : String :=
  let path := url.pathname.data
  let hit :=
    match scanSplit tailP1 path with
    | some g => some g
    | none =>
      match scanSplit tailP2 path with
      | some g => some g
      | none =>
        match scanSplit tailP3 path with
        | some g => some g
        | none =>
          match scanSplit tailP4 path with
          | some g => some g
          | none => scanSplit tailP5 path
  match hit with
  | some g => url.origin ++ (if g = [] then "/" else (⟨g⟩ : String))
  | none => url.origin

/-- Modelled platform collaborator: `new URL(s)` for the absolute
`scheme://authority/path` URLs the discover handler parses (every
normalized input starts with `http://` or `https://`).  Produces the
`URL` fields the handler reads: `protocol`, lower-cased `hostname`
(bracketed for IPv6 literals), `pathname`, `origin` (scheme plus
lower-cased authority; default-port elision is not modelled, no handler
input carries a port).  Userinfo and percent-encoding are not
modelled. -/
def parseUrlModel (s : String) : Option URLRec :=
  let l := urlPre s.data
  match splitScheme l with
  | none => none
  | some (sch, rest) =>
    match rest with
    | '/' :: '/' :: rest2 =>
      let scheme : String := ⟨sch.map asciiLower⟩
      let auth := rest2.takeWhile (fun c => c ≠ '/' ∧ c ≠ '?' ∧ c ≠ '#')
      let rem := rest2.dropWhile (fun c => c ≠ '/' ∧ c ≠ '?' ∧ c ≠ '#')
      if auth = [] then none
      else
        let hostname : List Char :=
          match auth with
          | '[' :: _ =>
            (auth.takeWhile (fun c => c ≠ ']')) ++ [']']
          | _ => auth.takeWhile (fun c => c ≠ ':')
        if auth.head? = some '[' ∧ ¬ auth.contains ']' then none
        else
          let pathname : List Char :=
            match rem with
            | '/' :: _ => rem.takeWhile (fun c => c ≠ '?' ∧ c ≠ '#')
            | _ => ['/']
          some { protocol := scheme ++ ":",
                 hostname := ⟨hostname.map asciiLower⟩,
                 pathname := ⟨pathname⟩,
                 origin := scheme ++ "://" ++ (⟨auth.map asciiLower⟩ : String) }
    | _ => none

/-- ssrf.ts `validateUrl` on a raw URL string: the platform parse
followed by `validateUrlParsed`. -/
def validateUrl (s : String) : UrlValidationResult :=
  match parseUrlModel s with
  | none => vrInvalid INVALID_URL "URL is malformed"
  | some u => validateUrlParsed u

/-- sanitize.ts `resolveUrl` (exported helper also used by
discover.ts). -/
def resolveUrl (url baseUrl : String) : String :=
  if url = "" then url
  else if jsStartsWith url "http://" || jsStartsWith url "https://" then url
  else if jsStartsWith url "data:" then url
  else
    match urlResolve url baseUrl with
    | some abs => abs
    | none => url

/-- One `<link rel="alternate">` element of the fetched homepage, as the
DOM collaborator reports it (`getAttribute` returns `null` or the
attribute text). -/
structure LinkTag where
  type : Option String
  href : Option String
  title : Option String
deriving DecidableEq, Repr

/-- `s || null` for an optional JS string attribute. -/
def jsOrNull (s : String) : Option String := if s = "" then none else some s

/-- discover.ts `discoverFeedsFromHtml`, given the document's
`link[rel="alternate"]` elements in document order: keep only links with
a truthy `href` whose `type` contains `rss` or `atom` (a missing type or
any other type is skipped via the `continue` at line 224), resolving the
href against the page base. -/
def discoverFeedsFromHtml (links : List LinkTag) (baseUrl : String) : List FeedInfo :=
  links.filterMap (fun lk =>
    match lk.href with
    | none => none
    | some href =>
      if href = "" then none
      else
        let isRss := match lk.type with
          | some t => jsIncludes (jsToLower t) "rss"
          | none => false
        let isAtom := match lk.type with
          | some t => jsIncludes (jsToLower t) "atom"
          | none => false
        let title := match lk.title with
          | some t => jsOrNull t
          | none => none
        if isRss then some ⟨resolveUrl href baseUrl, title, "rss"⟩
        else if isAtom then some ⟨resolveUrl href baseUrl, title, "atom"⟩
        else none)

/-- src/lib/config.ts `COMMON_FEED_PATHS`. -/
def COMMON_FEED_PATHS : List String :=
  ["/feed", "/rss", "/atom.xml", "/feed.xml", "/rss.xml", "/index.xml",
   "/feeds/posts/default", "/blog/feed", "/feed/rss", "/feed/atom"]

/-- The `slice(i, i + 3)` batching of discover.ts `probeFeedPaths`
(`batchSize = 3`). -/
def chunks3 {α : Type} : List α → List (List α)
  | [] => []
  | [a] => [[a]]
  | [a, b] => [[a, b]]
  | a :: b :: c :: rest => [a, b, c] :: chunks3 rest

/-- WHATWG `Response.ok`: status in the range 200–299. -/
def respOk (st : Nat) : Bool := 200 ≤ st && st ≤ 299

/-- The content-type test of discover.ts lines 321–326. -/
def ctMatch (ct : String) : Bool :=
  jsIncludes ct "xml" || jsIncludes ct "rss" || jsIncludes ct "atom"

/-- One probe of discover.ts `probeFeedPaths` lines 304–338.  The HEAD
request is an oracle `po : url → none (network error / timeout) or
some (status, content-type header or "")`.  Returns (candidate, fetched
urls, urls that passed `validateUrl`); an unsafe URL is skipped before
any fetch. -/
def probePath (po : String → Option (Nat × String)) (origin path : String) :
    Option FeedInfo × List String × List String :=
  if (validateUrl (origin ++ path)).valid then
    (match po (origin ++ path) with
     | some (st, ct) =>
       if respOk st && ctMatch ct then
         some ⟨origin ++ path, none, if jsIncludes ct "atom" then "atom" else "rss"⟩
       else none
     | none => none,
     [origin ++ path], [origin ++ path])
  else (none, [], [])

/-- One batch of three (or fewer) concurrent probes, awaited together
(`Promise.allSettled`); fulfilled non-null values are collected in batch
order. -/
def probeBatch (po : String → Option (Nat × String)) (origin : String)
    (batch : List String) : List FeedInfo × List String × List String :=
  batch.foldr
    (fun p acc =>
      ((probePath po origin p).1.toList ++ acc.1,
       (probePath po origin p).2.1 ++ acc.2.1,
       (probePath po origin p).2.2 ++ acc.2.2))
    ([], [], [])

/-- The batch loop of `probeFeedPaths`: process batches in order,
stopping as soon as the accumulated feed list is non-empty (the `break`
at line 348). -/
def probeLoop (po : String → Option (Nat × String)) (origin : String) :
    List (List String) → List FeedInfo × List String × List String
  | [] => ([], [], [])
  | b :: bs =>
    if (probeBatch po origin b).1 ≠ [] then probeBatch po origin b
    else
      ((probeLoop po origin bs).1,
       (probeBatch po origin b).2.1 ++ (probeLoop po origin bs).2.1,
       (probeBatch po origin b).2.2 ++ (probeLoop po origin bs).2.2)

/-- discover.ts `probeFeedPaths`. -/
def probeFeedPaths (po : String → Option (Nat × String)) (origin : String) :
    List FeedInfo × List String × List String :=
  probeLoop po origin (chunks3 COMMON_FEED_PATHS)

/-- Outcome of a GET `fetchWithTimeout` call (HTTP-client collaborator):
a response with status and body bytes (byte length modelled as the body
string length), an abort (timeout), or a network error. -/
inductive FetchOutcome where
  | resp (status : Nat) (body : String)
  | timeout
  | netErr (msg : String)

/-- The feed sniff of discover.ts `validateFeedUrl` line 457. -/
def feedSniff (body : String) : Bool :=
  jsIncludes body "<rss" || jsIncludes body "<feed" || jsIncludes body "<channel"

/-- discover.ts `validateFeedUrl` applied to the fetch outcome: errors
and non-2xx responses report `false`. -/
def validateFeedUrlModel : FetchOutcome → Bool
  | .resp st body => respOk st && feedSniff body
  | _ => false

/-- One item of the parsed feed, as the rss-parser collaborator delivers
it.  Absent fields are the empty string (both `undefined` and `''` are
falsy under the `||` fallbacks the source applies). -/
structure FeedItem where
  title : String := ""
  link : String := ""
  pubDate : String := ""
  isoDate : String := ""
  content : String := ""
  contentEncoded : String := ""
  contentSnippet : String := ""
  summary : String := ""
deriving DecidableEq, Repr

/-- The parsed feed object of the rss-parser collaborator. -/
structure ParsedFeed where
  title : String := ""
  description : String := ""
  link : String := ""
  language : String := ""
  lastBuildDate : String := ""
  items : List FeedItem := []
deriving DecidableEq, Repr

/-- discover.ts `FeedMetadata`. -/
structure FeedMetadata where
  title : String
  description : Option String
  link : String
  language : Option String
  last_build_date : Option String
deriving DecidableEq, Repr

/-- discover.ts `RecentPost`. -/
structure RecentPost where
  title : String
  link : String
  pub_date : Option String
deriving DecidableEq, Repr

/-- discover.ts `ContentAnalysis`. -/
structure ContentAnalysis where
  has_full_content : Bool
  average_content_length : Nat
  sample_size : Nat
deriving DecidableEq, Repr

/-- discover.ts `analyzeFullContent`.  The float comparisons are modelled
exactly on naturals: `contentLength > descriptionLength * 1.5` is
`3 * descriptionLength < 2 * contentLength` (IEEE doubles represent both
sides of the original comparison exactly for string lengths), and
`fullContentCount / sample.length >= 0.6` is
`3 * sample.length ≤ 5 * fullContentCount` (exact for the sample sizes
1–5 that can occur; both sides of the original float comparison round to
values that order identically).  `Math.round(total / len)` is
`(2 * total + len) / (2 * len)` on naturals. -/
def analyzeFullContent (items : List FeedItem) (sampleSize : Nat := 5) :
    ContentAnalysis :=
  let sample := items.take sampleSize
  let counts := sample.foldl
    (fun (acc : Nat × Nat) item =>
      let contentEncoded := item.contentEncoded
      let contentLength := jsLen (jsOr item.content (jsOr contentEncoded ""))
      let descriptionLength := jsLen (jsOr item.contentSnippet (jsOr item.summary ""))
      let hasSubstantialContent := decide (500 < contentLength)
      let contentLongerThanDesc := decide (3 * descriptionLength < 2 * contentLength)
      (acc.1 + (if hasSubstantialContent && contentLongerThanDesc then 1 else 0),
       acc.2 + contentLength))
    (0, 0)
  { has_full_content :=
      if 0 < sample.length then decide (3 * sample.length ≤ 5 * counts.1) else false,
    average_content_length :=
      if 0 < sample.length then (2 * counts.2 + sample.length) / (2 * sample.length)
      else 0,
    sample_size := sample.length }

/-- discover.ts `parseFeed` lines 376–395, applied to the collaborator's
parse result (`none` models a parseURL exception, turned into a `null`
return). -/
def parseFeedModel (feedUrl : String) (p : Option ParsedFeed) :
    Option (FeedMetadata × List RecentPost × ContentAnalysis) :=
  p.map (fun f =>
    ({ title := jsOr f.title "Untitled",
       description := jsOrNull f.description,
       link := jsOr f.link feedUrl,
       language := jsOrNull f.language,
       last_build_date := jsOrNull f.lastBuildDate },
     (f.items.take 3).map (fun item =>
       { title := jsOr item.title "Untitled",
         link := item.link,
         pub_date := jsOrNull (jsOr item.pubDate item.isoDate) }),
     analyzeFullContent f.items))

/-- discover.ts `Images`. -/
structure Images where
  site_icon : Option String
  og_image : Option String
deriving DecidableEq, Repr

/-- discover.ts `PlatformSuggestion`. -/
structure PlatformSuggestion where
  platform : String
  url : String
  label : String
deriving DecidableEq, Repr

/-- The environment of one discover request: the outcomes the external
collaborators would produce for each URL/document.  `linkAlts html` is
what `document.querySelectorAll('link[rel="alternate"]')` yields on the
fetched page; `images html base` lumps `extractFavicon`/`extractOgImage`
(pure DOM queries, no fetch, no claim depends on their internals);
`maxHtmlSize` is config.ts `MAX_HTML_SIZE`. -/
structure Env where
  fetchOut : String → FetchOutcome
  probeOut : String → Option (Nat × String)
  feedParse : String → Option ParsedFeed
  linkAlts : String → List LinkTag
  images : String → String → Images
  maxHtmlSize : Nat

/-- The request body after JSON parsing and the `url` field check. -/
inductive BodyState where
  | malformed
  | missingUrl
  | url (s : String)

/-- One incoming request, at the granularity the handler inspects. -/
structure Req where
  method : String
  apiKeyHeader : Option String
  body : BodyState

/-- The JSON response of the discover handler, with the HTTP status it
was sent with. -/
structure HandlerResponse where
  status : Nat
  success : Bool
  errorCode : Option String := none
  errorMessage : Option String := none
  platformHint : Bool := false
  input : Option String := none
  suggestions : List PlatformSuggestion := []
  inputType : Option String := none
  normalizedUrl : Option String := none
  feeds : List FeedInfo := []
  recommendedFeed : Option String := none
  metadata : Option FeedMetadata := none
  images : Images := ⟨none, none⟩
  contentAnalysis : Option ContentAnalysis := none
  recentPosts : Option (List RecentPost) := none
  message : Option String := none

/-- A full handler run: the response, the list of URLs an outbound fetch
was issued to (homepage fetch, feed-validation fetch, feed-parse fetch,
probe fetch, image-discovery fetch — in order), and the list of URLs
that were passed through `validateUrl` and found valid before any use. -/
structure HandlerRun where
  res : HandlerResponse
  trace : List String
  validated : List String

def mkErrResp (status : Nat) (code msg : String) : HandlerResponse :=
  { status := status, success := false, errorCode := some code,
    errorMessage := some msg }

/-- `input.replace(/^@/, '')`. -/
def stripAt (s : String) : String :=
  match s.data with
  | '@' :: rest => ⟨rest⟩
  | _ => s

/-- discover.ts lines 537–565: the username platform-hint response. -/
def usernameResponse (input : String) : HandlerResponse :=
  let username := stripAt input
  { status := 200, success := true, platformHint := true, input := some username,
    suggestions :=
      [⟨"substack", "https://" ++ username ++ ".substack.com", "Substack"⟩,
       ⟨"medium", "https://medium.com/@" ++ username, "Medium"⟩,
       ⟨"ghost", "https://" ++ username ++ ".ghost.io", "Ghost"⟩] }

/-- discover.ts lines 739–777: parse the first discovered feed (if any)
and assemble the success response.  `feeds = []` adds the informational
message; otherwise the first feed is fetched by the rss-parser
(`parseFeed`), and its title is copied onto the candidate when the
candidate's title is falsy (line 749). -/
def finishDiscovery (env : Env) (inputType homepageUrl : String)
    (feeds : List FeedInfo) (images : Images) (trace validated : List String) :
    HandlerRun :=
  match feeds with
  | [] =>
    ⟨{ status := 200, success := true, inputType := some inputType,
       normalizedUrl := some homepageUrl, feeds := [], recommendedFeed := none,
       images := images, message := some "No RSS or Atom feeds found for this URL" },
     trace, validated⟩
  | f0 :: rest =>
    let trace' := trace ++ [f0.url]
    match parseFeedModel f0.url (env.feedParse f0.url) with
    | some (md, posts, ca) =>
      let f0' := if f0.title = none ∨ f0.title = some "" then
          { f0 with title := some md.title } else f0
      ⟨{ status := 200, success := true, inputType := some inputType,
         normalizedUrl := some homepageUrl, feeds := f0' :: rest,
         recommendedFeed := some f0.url, metadata := some md, images := images,
         contentAnalysis := some ca, recentPosts := some posts },
       trace', validated⟩
    | none =>
      ⟨{ status := 200, success := true, inputType := some inputType,
         normalizedUrl := some homepageUrl, feeds := f0 :: rest,
         recommendedFeed := some f0.url, images := images },
       trace', validated⟩

/-- discover.ts lines 719–777 (after the homepage HTML arrived): extract
images, scan the document's alternate links, fall back to path probing
when the scan finds nothing (`new URL(homepageUrl).origin` failing to
parse lands in the outer catch as `DISCOVERY_FAILED`), then finish. -/
def homepageScan (env : Env) (inputType homepageUrl html : String)
    (trace1 validated0 : List String) : HandlerRun :=
  if discoverFeedsFromHtml (env.linkAlts html) homepageUrl = [] then
    match parseUrlModel homepageUrl with
    | none =>
      ⟨mkErrResp 200 DISCOVERY_FAILED "Could not complete feed discovery",
       trace1, validated0⟩
    | some hu =>
      finishDiscovery env inputType homepageUrl
        (probeFeedPaths env.probeOut hu.origin).1
        (env.images html homepageUrl)
        (trace1 ++ (probeFeedPaths env.probeOut hu.origin).2.1)
        (validated0 ++ (probeFeedPaths env.probeOut hu.origin).2.2)
  else
    finishDiscovery env inputType homepageUrl
      (discoverFeedsFromHtml (env.linkAlts html) homepageUrl)
      (env.images html homepageUrl) trace1 validated0

/-- discover.ts lines 666–718: fetch the homepage HTML with the error
triage of lines 677–717 (timeout, network error, non-2xx, oversized
HTML), then hand the body to `homepageScan`. -/
def homepageFlow (env : Env) (inputType homepageUrl : String)
    (trace0 validated0 : List String) : HandlerRun :=
  match env.fetchOut homepageUrl with
  | .timeout =>
    ⟨mkErrResp 200 TIMEOUT_CODE "Request timed out",
     trace0 ++ [homepageUrl], validated0⟩
  | .netErr msg =>
    ⟨mkErrResp 200 FETCH_FAILED msg, trace0 ++ [homepageUrl], validated0⟩
  | .resp st body =>
    if ¬ respOk st then
      ⟨mkErrResp 200 FETCH_FAILED ("HTTP " ++ toString st),
       trace0 ++ [homepageUrl], validated0⟩
    else if env.maxHtmlSize < jsLen body then
      ⟨mkErrResp 200 CONTENT_TOO_LARGE "HTML exceeds maximum size",
       trace0 ++ [homepageUrl], validated0⟩
    else homepageScan env inputType homepageUrl body (trace0 ++ [homepageUrl]) validated0

/-- discover.ts lines 599–664: the feed-direct path.  `validateFeedUrl`
issues a GET on the normalized URL; failure falls back to the homepage
flow at the URL's origin.  Success parses the feed (a second fetch by
the rss-parser) and — when the parsed metadata has a truthy `link` —
issues the image-discovery fetch on `metadata.link` (lines 625–646),
whose errors are swallowed. -/
def feedDirect (env : Env) (url : URLRec) (normalized : String)
    (validated0 : List String) : HandlerRun :=
  let trace1 := [normalized]
  if validateFeedUrlModel (env.fetchOut normalized) then
    let trace2 := trace1 ++ [normalized]
    match parseFeedModel normalized (env.feedParse normalized) with
    | some (md, posts, ca) =>
      let feeds := [(⟨normalized, some md.title, "unknown"⟩ : FeedInfo)]
      if md.link ≠ "" then
        let trace3 := trace2 ++ [md.link]
        let images :=
          match env.fetchOut md.link with
          | .resp st body => if respOk st then env.images body md.link else ⟨none, none⟩
          | _ => ⟨none, none⟩
        ⟨{ status := 200, success := true, inputType := some "feed",
           normalizedUrl := some normalized, feeds := feeds,
           recommendedFeed := some normalized, metadata := some md,
           images := images, contentAnalysis := some ca,
           recentPosts := some posts },
         trace3, validated0⟩
      else
        ⟨{ status := 200, success := true, inputType := some "feed",
           normalizedUrl := some normalized, feeds := feeds,
           recommendedFeed := some normalized, metadata := some md,
           contentAnalysis := some ca, recentPosts := some posts },
         trace2, validated0⟩
    | none =>
      ⟨{ status := 200, success := true, inputType := some "feed",
         normalizedUrl := some normalized,
         feeds := [(⟨normalized, none, "unknown"⟩ : FeedInfo)],
         recommendedFeed := some normalized },
       trace2, validated0⟩
  else homepageFlow env "homepage" url.origin trace1 validated0

/-- discover.ts lines 528–788 (after method/auth/body gating): trim the
input, short-circuit usernames, normalize and SSRF-validate the URL,
classify it, and run the feed-direct or homepage flow. -/
def discoverPost (env : Env) (rawUrl : String) : HandlerRun :=
  if isUsernameInput (jsTrim rawUrl) then
    ⟨usernameResponse (jsTrim rawUrl), [], []⟩
  else
    if ¬ (validateUrl (normalizeUrl (jsTrim rawUrl))).valid then
      ⟨{ status := 200, success := false,
         errorCode := (validateUrl (normalizeUrl (jsTrim rawUrl))).errorCode,
         errorMessage := (validateUrl (normalizeUrl (jsTrim rawUrl))).errorMessage },
       [], []⟩
    else
      match (validateUrl (normalizeUrl (jsTrim rawUrl))).url with
      | none =>
        ⟨mkErrResp 200 DISCOVERY_FAILED "Could not complete feed discovery", [], []⟩
      | some url =>
        if detectInputType url = "feed" then
          feedDirect env url (normalizeUrl (jsTrim rawUrl)) [normalizeUrl (jsTrim rawUrl)]
        else
          homepageFlow env (detectInputType url)
            (if detectInputType url = "article" then extractHomepageUrl url
             else normalizeUrl (jsTrim rawUrl))
            [] [normalizeUrl (jsTrim rawUrl)]

/-- discover.ts `handler`: CORS preflight, method gate, auth gate, body
parse gate, `url` field gate (a missing, non-string or empty `url` is
falsy at line 517), then the discover flow. -/
def discoverHandler (apiKey : Option String) (env : Env) (req : Req) : HandlerRun :=
  if req.method = "OPTIONS" then ⟨{ status := 204, success := true }, [], []⟩
  else if req.method ≠ "POST" then
    ⟨mkErrResp 405 "METHOD_NOT_ALLOWED" "Method not allowed", [], []⟩
  else if ¬ (validateAuth apiKey req.apiKeyHeader).authenticated then
    ⟨{ status := 401, success := false,
       errorMessage := (validateAuth apiKey req.apiKeyHeader).error }, [], []⟩
  else
    match req.body with
    | .malformed => ⟨mkErrResp 400 INVALID_URL "Invalid request body", [], []⟩
    | .missingUrl => ⟨mkErrResp 400 INVALID_URL "Missing required field: url", [], []⟩
    | .url s =>
      if s = "" then ⟨mkErrResp 400 INVALID_URL "Missing required field: url", [], []⟩
      else discoverPost env s

-- ============================================================
-- Specification-side definitions used by the theorems
-- ============================================================

/-- Canonical dotted-quad rendering of a literal IPv4 address. -/
def ipv4Canon (a b c d : Nat) : String :=
  octStr a ++ "." ++ octStr b ++ "." ++ octStr c ++ "." ++ octStr d

/-- Membership of the quad `a.b.c.d` in the six reserved ranges of the
claim (10.0.0.0/8, 172.16.0.0/12, 192.168.0.0/16, 127.0.0.0/8,
169.254.0.0/16, 0.0.0.0/8); only the first two octets matter. -/
def privateQuad (a b : Nat) : Bool :=
  decide (a = 10) || (decide (a = 172) && decide (16 ≤ b) && decide (b ≤ 31)) ||
  (decide (a = 192) && decide (b = 168)) || decide (a = 127) ||
  (decide (a = 169) && decide (b = 254)) || decide (a = 0)

mutual
/-- All attribute lists of a forest, in document order (used to observe
sanitizer outputs). -/
def attrsOfN : HNode → List (String × String)
  | .text _ => []
  | .elem _ attrs kids => attrs ++ attrsOfF kids

def attrsOfF : HForest → List (String × String)
  | .nil => []
  | .cons n f => attrsOfN n ++ attrsOfF f
end

mutual
/-- No anchor element in the tree carries an `href` whose value the
sanitizer's scheme test would reject (`javascript:`/`data:`/`vbscript:`
after lower-casing and trimming). -/
def badHrefFreeN : HNode → Bool
  | .text _ => true
  | .elem tag attrs kids =>
    (tag ≠ "a" || attrs.all (fun a => a.1 ≠ "href" || !isForbiddenHref a.2)) &&
    badHrefFreeF kids

def badHrefFreeF : HForest → Bool
  | .nil => true
  | .cons n f => badHrefFreeN n && badHrefFreeF f
end

/-- The string contains no comma. -/
def commaFree (s : String) : Bool := s.data.all (fun c => c ≠ ',')

mutual
/-- Every element of the tree carries an allow-listed tag. -/
def allowedTagsN : HNode → Bool
  | .text _ => true
  | .elem tag _ kids => ALLOWED_TAGS.contains tag && allowedTagsF kids

def allowedTagsF : HForest → Bool
  | .nil => true
  | .cons n f => allowedTagsN n && allowedTagsF f
end

mutual
/-- Every element of the tree carries only attributes in its tag's
allow-list. -/
def attrsAllowedN : HNode → Bool
  | .text _ => true
  | .elem tag attrs kids =>
    attrs.all (fun a => (ALLOWED_ATTRS tag).contains a.1) && attrsAllowedF kids

def attrsAllowedF : HForest → Bool
  | .nil => true
  | .cons n f => attrsAllowedN n && attrsAllowedF f
end

/-- A character valid after the first position of a URL scheme. -/
def schemeChar (c : Char) : Bool :=
  isAsciiAlpha c || isAsciiDigit c || c == '+' || c == '-' || c == '.'

/-- The first character, if any, is not a C0 control or space. -/
def headNotC0 : List Char → Bool
  | [] => true
  | c :: _ => !isC0Space c

/-- The last character, if any, is not a C0 control or space. -/
def lastNotC0 (l : List Char) : Bool := headNotC0 l.reverse

/-- A string the WHATWG preprocessing leaves unchanged: no tabs or
newlines anywhere, no C0 control or space at either end. -/
def urlReady (l : List Char) : Bool :=
  l.all (fun c => !isTabNL c) && headNotC0 l && lastNotC0 l

/-- The first character, if any, is not JS whitespace. -/
def headNotWs : List Char → Bool
  | [] => true
  | c :: _ => !isJsWs c

/-- A string JS `trim` leaves unchanged: no whitespace at either end. -/
def trimReady (l : List Char) : Bool := headNotWs l && headNotWs l.reverse

/-- Content length of one feed item under the source's fallback chain
(`item.content || item['content:encoded'] || ''`). -/
def itemContentLength (item : FeedItem) : Nat :=
  jsLen (jsOr item.content (jsOr item.contentEncoded ""))

/-- Summary length of one feed item under the source's fallback chain
(`item.contentSnippet || item.summary || ''`). -/
def itemSummaryLength (item : FeedItem) : Nat :=
  jsLen (jsOr item.contentSnippet (jsOr item.summary ""))

/-- The claim's "full content" item test: content length exceeds both
500 and 1.5 × the summary length (the latter as the exact integer
comparison `3 * summary < 2 * content`). -/
def isFullContentItem (item : FeedItem) : Bool :=
  decide (500 < itemContentLength item) &&
  decide (3 * itemSummaryLength item < 2 * itemContentLength item)


/-- A trivial environment (every fetch times out) for closed instances. -/
def envDemo : Env :=
  { fetchOut := fun _ => .timeout,
    probeOut := fun _ => none,
    feedParse := fun _ => none,
    linkAlts := fun _ => [],
    images := fun _ _ => ⟨none, none⟩,
    maxHtmlSize := 5 * 1024 * 1024 }

/-- The environment of the C1 scenario: `https://example.com/feed.xml`
serves a well-formed RSS document whose parsed `link` field points at
the cloud metadata service; every other fetch fails. -/
def envFeedSsrf : Env :=
  { fetchOut := fun u =>
      if u = "https://example.com/feed.xml" then
        .resp 200 "<rss version=\"2.0\"><channel></channel></rss>"
      else .resp 500 "",
    probeOut := fun _ => none,
    feedParse := fun u =>
      if u = "https://example.com/feed.xml" then
        some { title := "Example feed",
               link := "http://169.254.169.254/latest/meta-data/" }
      else none,
    linkAlts := fun _ => [],
    images := fun _ _ => ⟨none, none⟩,
    maxHtmlSize := 5 * 1024 * 1024 }

/-- The response shape C9 asserts for the post-gate phase: HTTP 200, and
an error code present whenever `success` is false. -/
def ok200 (r : HandlerRun) : Prop :=
  r.res.status = 200 ∧ (r.res.success = false → r.res.errorCode.isSome = true)

-- ============================================================
-- Theorems
-- ============================================================

theorem foldl_analyze_spec (l : List FeedItem) (acc : Nat × Nat) :
    l.foldl
      (fun (acc : Nat × Nat) item =>
        let contentEncoded := item.contentEncoded
        let contentLength := jsLen (jsOr item.content (jsOr contentEncoded ""))
        let descriptionLength := jsLen (jsOr item.contentSnippet (jsOr item.summary ""))
        let hasSubstantialContent := decide (500 < contentLength)
        let contentLongerThanDesc := decide (3 * descriptionLength < 2 * contentLength)
        (acc.1 + (if hasSubstantialContent && contentLongerThanDesc then 1 else 0),
         acc.2 + contentLength))
      acc =
    (acc.1 + l.countP isFullContentItem, acc.2 + (l.map itemContentLength).sum) := by
  induction l generalizing acc with
  | nil => simp
  | cons x xs ih =>
    simp only [List.foldl_cons, List.countP_cons, List.map_cons, List.sum_cons, ih]
    have hfix : (decide (500 < jsLen (jsOr x.content (jsOr x.contentEncoded ""))) &&
        decide (3 * jsLen (jsOr x.contentSnippet (jsOr x.summary "")) <
          2 * jsLen (jsOr x.content (jsOr x.contentEncoded "")))) =
        isFullContentItem x := rfl
    rw [Prod.mk.injEq]
    refine ⟨?_, ?_⟩
    · show _ + _ + _ = _
      rw [hfix]
      cases hc : isFullContentItem x
      · simp
      · simp
        omega
    · show _ + _ + _ = _
      simp only [itemContentLength]
      omega

theorem analyzeFullContent_eq (items : List FeedItem) :
    analyzeFullContent items =
    { has_full_content := if 0 < (items.take 5).length then
        decide (3 * (items.take 5).length ≤
          5 * (items.take 5).countP isFullContentItem) else false,
      average_content_length := if 0 < (items.take 5).length then
        (2 * ((items.take 5).map itemContentLength).sum + (items.take 5).length) /
          (2 * (items.take 5).length) else 0,
      sample_size := (items.take 5).length } := by
  unfold analyzeFullContent
  simp only [foldl_analyze_spec, Nat.zero_add]

set_option maxRecDepth 100000 in
/-- C7: the content-depth analysis samples the first 5 items; an item is
"full content" exactly when its content length exceeds both 500 and
1.5 × its summary length; `has_full_content` is true exactly when at
least 60 % of the sample qualifies and is false on an empty sample; on
4 items of content length 600 / summary length 100 plus one of content
length 50 it reports `has_full_content = true` with `sample_size = 5`. -/
theorem claim_C7_content_analysis :
    (∀ items : List FeedItem,
      (analyzeFullContent items).sample_size = (items.take 5).length ∧
      (analyzeFullContent items).has_full_content =
        (decide (0 < (items.take 5).length) &&
         decide (3 * (items.take 5).length ≤
           5 * (items.take 5).countP isFullContentItem))) ∧
    analyzeFullContent
      (List.replicate 4
        ({ content := ⟨List.replicate 600 'a'⟩,
           summary := ⟨List.replicate 100 's'⟩ } : FeedItem) ++
       [{ content := ⟨List.replicate 50 'a'⟩ }]) =
      { has_full_content := true, average_content_length := 490, sample_size := 5 } := by
  constructor
  · intro items
    rw [analyzeFullContent_eq]
    refine ⟨rfl, ?_⟩
    show (if 0 < (items.take 5).length then _ else false) = _
    by_cases h : 0 < (items.take 5).length
    · rw [if_pos h, decide_eq_true h, Bool.true_and]
    · rw [if_neg h, decide_eq_false h, Bool.false_and]
  · decide


theorem nat_or_eq_zero (a b : Nat) : a ||| b = 0 ↔ a = 0 ∧ b = 0 := by
  constructor
  · intro h
    constructor
    · refine Nat.eq_of_testBit_eq fun i => ?_
      have := congrArg (fun n => n.testBit i) h
      simp only [Nat.testBit_or, Nat.zero_testBit, Bool.or_eq_false_iff] at this
      simpa using this.1
    · refine Nat.eq_of_testBit_eq fun i => ?_
      have := congrArg (fun n => n.testBit i) h
      simp only [Nat.testBit_or, Nat.zero_testBit, Bool.or_eq_false_iff] at this
      simpa using this.2
  · rintro ⟨rfl, rfl⟩; rfl

theorem foldl_or_xor_eq_zero : ∀ (l : List (Char × Char)) (acc : Nat),
    (l.foldl (fun r p => r ||| (p.1.toNat ^^^ p.2.toNat)) acc = 0) ↔
      (acc = 0 ∧ ∀ p ∈ l, p.1 = p.2)
  | [], acc => by simp
  | x :: xs, acc => by
    rw [List.foldl_cons, foldl_or_xor_eq_zero xs, nat_or_eq_zero]
    constructor
    · rintro ⟨⟨h1, h2⟩, hall⟩
      refine ⟨h1, fun p hp => ?_⟩
      rcases List.mem_cons.mp hp with he | hm
      · exact he ▸ Char.ext (UInt32.toNat.inj (Nat.xor_eq_zero.mp h2))
      · exact hall p hm
    · rintro ⟨rfl, hall⟩
      have hx := hall x (List.mem_cons_self x xs)
      refine ⟨⟨rfl, ?_⟩, fun p hp => hall p (List.mem_cons_of_mem _ hp)⟩
      rw [hx, Nat.xor_self]

theorem zip_eq_of_forall {a b : List Char} (hlen : a.length = b.length)
    (h : ∀ p ∈ a.zip b, p.1 = p.2) : a = b := by
  induction a generalizing b with
  | nil =>
    cases b with
    | nil => rfl
    | cons y ys => simp at hlen
  | cons x xs ih =>
    cases b with
    | nil => simp at hlen
    | cons y ys =>
      have hx : x = y := h (x, y) (by simp)
      have hrest : xs = ys := by
        refine ih (by simpa using hlen) fun p hp => h p ?_
        simp [List.zip_cons_cons, hp]
      rw [hx, hrest]

theorem mem_zip_self {α : Type} {l : List α} {p : α × α} (h : p ∈ l.zip l) :
    p.1 = p.2 := by
  induction l with
  | nil => simp at h
  | cons x xs ih =>
    rw [List.zip_cons_cons, List.mem_cons] at h
    rcases h with h | h
    · rw [h]
    · exact ih h

theorem constantTimeCompare_iff (a b : String) :
    constantTimeCompare a b = true ↔ a = b := by
  unfold constantTimeCompare
  by_cases hlen : a.data.length = b.data.length
  · rw [if_neg (show ¬ a.data.length ≠ b.data.length from fun hne => hne hlen)]
    rw [beq_iff_eq, foldl_or_xor_eq_zero]
    constructor
    · rintro ⟨-, h⟩
      have hd : a.data = b.data := zip_eq_of_forall hlen h
      cases a; cases b
      exact congrArg String.mk hd
    · rintro rfl
      exact ⟨rfl, fun p hp => mem_zip_self hp⟩
  · rw [if_pos hlen]
    constructor
    · intro h; cases h
    · rintro rfl; exact absurd rfl hlen

/-- C10: with no configured secret (`BAB_API_KEY` unset or empty)
`validateAuth` authenticates every request; with a non-empty secret a
request authenticates exactly when its `x-api-key` header equals the
secret. -/
theorem claim_C10_auth :
    (∀ provided : Option String, (validateAuth none provided).authenticated = true) ∧
    (∀ provided : Option String, (validateAuth (some "") provided).authenticated = true) ∧
    (∀ (key : String) (provided : Option String), key ≠ "" →
      ((validateAuth (some key) provided).authenticated = true ↔ provided = some key)) := by
  refine ⟨fun _ => rfl, fun _ => rfl, fun key provided hkey => ?_⟩
  cases provided with
  | none =>
    simp only [validateAuth, if_neg hkey]
    constructor
    · intro h; cases h
    · intro h; cases h
  | some p =>
    simp only [validateAuth, if_neg hkey]
    by_cases hp : p = ""
    · subst hp
      rw [if_pos rfl]
      constructor
      · intro h; cases h
      · intro h
        have hk : key = "" := by cases h; rfl
        exact absurd hk hkey
    · rw [if_neg hp]
      by_cases hc : constantTimeCompare p key = true
      · rw [if_pos hc]
        have hpk := (constantTimeCompare_iff p key).mp hc
        subst hpk
        simp
      · rw [if_neg hc]
        constructor
        · intro h; cases h
        · intro h
          have hpk : p = key := by cases h; rfl
          exact absurd ((constantTimeCompare_iff p key).mpr hpk) hc

/-- Closed instance of `claim_C10_auth`: the open-proxy default and an
exact-match configured key. -/
theorem claim_C10_auth_witness :
    (validateAuth none (some "anything")).authenticated = true ∧
    ((validateAuth (some "secret") (some "secret")).authenticated = true ↔
      (some "secret" : Option String) = some "secret") := by
  exact ⟨claim_C10_auth.1 (some "anything"),
    claim_C10_auth.2.2 "secret" (some "secret") (by decide)⟩

/-- C8, as stated, is false at its own example: on the article URL
parsed from `example.com/2024/01/my-post` the first article pattern
matches with an empty kept prefix, and the source returns
`url.origin + '/'` (line 172), i.e. `https://example.com/` — not the
claimed exact string `https://example.com`. -/
theorem claim_C8_counterexample :
    (parseUrlModel (normalizeUrl "example.com/2024/01/my-post")).map extractHomepageUrl ≠
      some "https://example.com" := by
  decide

/-- C8 (amended): `classify("jdoe")` is a username (kept as `jdoe`);
`example.com/2024/01/my-post` classifies as an article, and
`extractHomepageUrl` on it returns exactly `https://example.com/`
(origin plus `/`, since the first matching pattern — `/YYYY/MM/` —
leaves an empty prefix); a URL matching no article pattern yields the
bare origin. -/
theorem claim_C8_classification :
    isUsernameInput "jdoe" = true ∧
    stripAt "jdoe" = "jdoe" ∧
    isUsernameInput "example.com/2024/01/my-post" = false ∧
    (parseUrlModel (normalizeUrl "example.com/2024/01/my-post")).map detectInputType =
      some "article" ∧
    (parseUrlModel (normalizeUrl "example.com/2024/01/my-post")).map extractHomepageUrl =
      some "https://example.com/" ∧
    (parseUrlModel "https://x.y/about").map extractHomepageUrl = some "https://x.y" := by
  refine ⟨rfl, rfl, by decide, by decide, by decide, by decide⟩

/-- C4: the claim is right and the code is wrong: ssrf.ts's own comment
announces `fe80::/10 (link-local)` but the check is the string prefix
`fe80`, which only covers `fe80::/16`.  The address `fe81::1` lies in
`fe80::/10` (its first group `0xfe81` is in `[0xfe80, 0xfec0)`), yet
`validateUrl` accepts it; the loopback, unique-local and `fe80`-prefixed
link-local literals of the claim are rejected as `BLOCKED_URL`. -/
theorem claim_C4_ipv6 :
    (validateUrl "http://[fe81::1]/").valid = true ∧
    (0xfe80 ≤ 0xfe81 ∧ 0xfe81 < 0xfec0) ∧
    (validateUrl "http://[fe80::1]/").errorCode = some BLOCKED_URL ∧
    (validateUrl "http://[::1]/").errorCode = some BLOCKED_URL ∧
    (validateUrl "http://[fc00::1]/").errorCode = some BLOCKED_URL ∧
    (validateUrl "http://[fd12:3456::1]/").errorCode = some BLOCKED_URL := by
  refine ⟨by decide, by decide, by decide, by decide, by decide, by decide⟩


/-- C3, as stated, is false for non-HTTP(S) URLs: `ftp://10.0.0.1/` has
a literal 10.0.0.0/8 hostname, but the protocol gate fires first and
`validateUrl` reports `INVALID_URL`, not the claimed `BlockedUrl`. -/
theorem claim_C3_counterexample :
    (validateUrl "ftp://10.0.0.1/").errorCode ≠ some BLOCKED_URL ∧
    (validateUrl "ftp://10.0.0.1/").valid = false := by
  refine ⟨by decide, by decide⟩


theorem dotSplitPre : ∀ (p x : List Char) (q r : List Char),
    (∀ c ∈ p, c ≠ '.') → (∀ c ∈ x, c ≠ '.') →
    (listPre (p ++ '.' :: q) (x ++ '.' :: r) = true ↔ p = x ∧ listPre q r = true)
  | [], [], q, r, _, _ => by
    simp only [List.nil_append, listPre, beq_self_eq_true, Bool.true_and, true_and]
  | [], y :: ys, q, r, _, hx => by
    have hy : y ≠ '.' := hx y (by simp)
    simp only [List.nil_append, List.cons_append, listPre]
    constructor
    · intro h
      have : ('.' == y) = true := by
        cases heq : ('.' == y) with
        | true => rfl
        | false => rw [heq] at h; simp at h
      exact absurd (beq_iff_eq.mp this).symm hy
    · rintro ⟨h, -⟩; cases h
  | p :: ps, [], q, r, hp, _ => by
    have hpne : p ≠ '.' := hp p (by simp)
    simp only [List.cons_append, List.nil_append, listPre]
    constructor
    · intro h
      have : (p == '.') = true := by
        cases heq : (p == '.') with
        | true => rfl
        | false => rw [heq] at h; simp at h
      exact absurd (beq_iff_eq.mp this) hpne
    · rintro ⟨h, -⟩; cases h
  | p :: ps, y :: ys, q, r, hp, hx => by
    have ih := dotSplitPre ps ys q r (fun c hc => hp c (by simp [hc]))
      (fun c hc => hx c (by simp [hc]))
    simp only [List.cons_append, listPre, Bool.and_eq_true, beq_iff_eq, List.append_eq,
      ih, List.cons.injEq]
    tauto

theorem dotSplitEq : ∀ (p x : List Char) (q r : List Char),
    (∀ c ∈ p, c ≠ '.') → (∀ c ∈ x, c ≠ '.') →
    (p ++ '.' :: q = x ++ '.' :: r ↔ p = x ∧ q = r)
  | [], [], q, r, _, _ => by simp
  | [], y :: ys, q, r, _, hx => by
    have hy : y ≠ '.' := hx y (by simp)
    simp only [List.nil_append, List.cons_append, List.cons.injEq]
    constructor
    · rintro ⟨h, -⟩; exact absurd h.symm hy
    · rintro ⟨h, -⟩; cases h
  | p :: ps, [], q, r, hp, _ => by
    have hpne : p ≠ '.' := hp p (by simp)
    simp only [List.cons_append, List.nil_append, List.cons.injEq]
    constructor
    · rintro ⟨h, -⟩; exact absurd h hpne
    · rintro ⟨h, -⟩; cases h
  | p :: ps, y :: ys, q, r, hp, hx => by
    have ih := dotSplitEq ps ys q r (fun c hc => hp c (by simp [hc]))
      (fun c hc => hx c (by simp [hc]))
    simp only [List.cons_append, List.cons.injEq, List.append_eq, ih]
    tauto

theorem listPre_head_ne {c p : Char} {l ps : List Char} (hl : l.head? = some c)
    (hne : p ≠ c) : listPre (p :: ps) l = false := by
  cases l with
  | nil => cases hl
  | cons x xs =>
    have : x = c := by simpa using hl
    subst this
    simp [listPre, beq_eq_false_iff_ne, hne]

theorem splitDots_append : ∀ (x r : List Char), (∀ c ∈ x, c ≠ '.') →
    splitDots (x ++ '.' :: r) = x :: splitDots r
  | [], r, _ => by simp [splitDots]
  | c :: cs, r, hx => by
    have hc : c ≠ '.' := hx c (by simp)
    have ih := splitDots_append cs r (fun a ha => hx a (by simp [ha]))
    simp only [List.cons_append, splitDots, List.append_eq, if_neg hc, ih]

theorem splitDots_dotfree : ∀ (x : List Char), (∀ c ∈ x, c ≠ '.') →
    splitDots x = [x]
  | [], _ => rfl
  | c :: cs, hx => by
    have hc : c ≠ '.' := hx c (by simp)
    have ih := splitDots_dotfree cs (fun a ha => hx a (by simp [ha]))
    simp only [splitDots, if_neg hc, ih]

set_option maxRecDepth 10000 in
theorem octStr_dotfree : ∀ n : Fin 256, (octStr n.val).data.all (fun c => c ≠ '.') = true := by
  decide

theorem octStr_dotfree' (n : Fin 256) : ∀ c ∈ (octStr n.val).data, c ≠ '.' := by
  have := octStr_dotfree n
  rw [List.all_eq_true] at this
  intro c hc
  simpa using this c hc

set_option maxRecDepth 10000 in
theorem octStr_ne_nil : ∀ n : Fin 256, (octStr n.val).data ≠ [] := by decide

set_option maxRecDepth 10000 in
theorem octStr_head_digit : ∀ n : Fin 256,
    (octStr n.val).data.head?.all isAsciiDigit = true := by decide

set_option maxRecDepth 10000 in
theorem octStr_last_digit : ∀ n : Fin 256,
    (octStr n.val).data.getLast?.all isAsciiDigit = true := by decide

set_option maxRecDepth 10000 in
theorem octStr_lower : ∀ n : Fin 256,
    (octStr n.val).data.map asciiLower = (octStr n.val).data := by decide

set_option maxRecDepth 10000 in
theorem octStr_shape : ∀ n : Fin 256, octetShaped (octStr n.val).data = true := by decide

set_option maxRecDepth 10000 in
theorem octStr_val_eq : ∀ n : Fin 256,
    (((octStr n.val).data = ['1','0']) ↔ n.val = 10) ∧
    (((octStr n.val).data = ['1','2','7']) ↔ n.val = 127) ∧
    (((octStr n.val).data = ['1','9','2']) ↔ n.val = 192) ∧
    (((octStr n.val).data = ['1','6','8']) ↔ n.val = 168) ∧
    (((octStr n.val).data = ['1','6','9']) ↔ n.val = 169) ∧
    (((octStr n.val).data = ['2','5','4']) ↔ n.val = 254) ∧
    (((octStr n.val).data = ['0']) ↔ n.val = 0) ∧
    (((octStr n.val).data = ['1','7','2']) ↔ n.val = 172) := by decide

set_option maxRecDepth 10000 in
theorem octStr_range172 : ∀ n : Fin 256,
    ((octStr n.val).data = ['1','6'] ∨ (octStr n.val).data = ['1','7'] ∨
     (octStr n.val).data = ['1','8'] ∨ (octStr n.val).data = ['1','9'] ∨
     (octStr n.val).data = ['2','0'] ∨ (octStr n.val).data = ['2','1'] ∨
     (octStr n.val).data = ['2','2'] ∨ (octStr n.val).data = ['2','3'] ∨
     (octStr n.val).data = ['2','4'] ∨ (octStr n.val).data = ['2','5'] ∨
     (octStr n.val).data = ['2','6'] ∨ (octStr n.val).data = ['2','7'] ∨
     (octStr n.val).data = ['2','8'] ∨ (octStr n.val).data = ['2','9'] ∨
     (octStr n.val).data = ['3','0'] ∨ (octStr n.val).data = ['3','1']) ↔
    (16 ≤ n.val ∧ n.val ≤ 31) := by decide

theorem string_data_append (a b : String) : (a ++ b).data = a.data ++ b.data := rfl

theorem ipv4Canon_data (a b c d : Nat) :
    (ipv4Canon a b c d).data =
      (octStr a).data ++ '.' :: ((octStr b).data ++ '.' :: ((octStr c).data ++ '.' ::
        (octStr d).data)) := by
  unfold ipv4Canon
  simp only [string_data_append, List.append_assoc]
  rfl


theorem ipv4Canon_lower (a b c d : Fin 256) :
    jsToLower (ipv4Canon a.val b.val c.val d.val) = ipv4Canon a.val b.val c.val d.val := by
  show String.mk _ = _
  have hdot : asciiLower '.' = '.' := by decide
  conv_rhs => rw [show ipv4Canon a.val b.val c.val d.val =
    String.mk (ipv4Canon a.val b.val c.val d.val).data from rfl]
  congr 1
  rw [ipv4Canon_data, List.map_append, List.map_cons, List.map_append, List.map_cons,
    List.map_append, List.map_cons, octStr_lower a, octStr_lower b, octStr_lower c,
    octStr_lower d, hdot]

theorem ipv4Canon_head_digit (a b c d : Fin 256) :
    ∃ ch, (ipv4Canon a.val b.val c.val d.val).data.head? = some ch ∧
      isAsciiDigit ch = true := by
  rw [ipv4Canon_data, List.head?_append_of_ne_nil _ (octStr_ne_nil a)]
  have h1 := octStr_head_digit a
  cases hd : (octStr a.val).data with
  | nil => exact absurd hd (octStr_ne_nil a)
  | cons x xs =>
    rw [hd] at h1
    exact ⟨x, rfl, by simpa using h1⟩

theorem ipv4Canon_last_digit (a b c d : Fin 256) :
    ∃ ch, (ipv4Canon a.val b.val c.val d.val).data.getLast? = some ch ∧
      isAsciiDigit ch = true := by
  have hsplit : (ipv4Canon a.val b.val c.val d.val).data =
      ((octStr a.val).data ++ ['.'] ++ (octStr b.val).data ++ ['.'] ++
        (octStr c.val).data ++ ['.']) ++ (octStr d.val).data := by
    rw [ipv4Canon_data]
    simp [List.append_assoc]
  rw [hsplit, List.getLast?_append_of_ne_nil _ (octStr_ne_nil d)]
  have h1 := octStr_last_digit d
  cases hd : (octStr d.val).data.getLast? with
  | none =>
    rw [hd] at h1
    cases hl : (octStr d.val).data with
    | nil => exact absurd hl (octStr_ne_nil d)
    | cons x xs =>
      rw [hl] at hd
      simp [List.getLast?_eq_getLast] at hd
  | some x =>
    rw [hd] at h1
    exact ⟨x, rfl, by simpa using h1⟩

/-- On a canonical dotted quad, the first character is a digit, so any
pattern starting with a non-digit character cannot be a prefix. -/
theorem ipv4Canon_pre_nondigit (a b c d : Fin 256) {p : Char} {ps : List Char}
    (hp : isAsciiDigit p = false) :
    listPre (p :: ps) (ipv4Canon a.val b.val c.val d.val).data = false := by
  obtain ⟨ch, hch, hdig⟩ := ipv4Canon_head_digit a b c d
  refine listPre_head_ne hch fun he => ?_
  rw [he, hdig] at hp
  cases hp


theorem canon_pre_one (a b c d : Fin 256) (s1 : List Char) (h1 : ∀ c ∈ s1, c ≠ '.') :
    (listPre (s1 ++ '.' :: []) (ipv4Canon a.val b.val c.val d.val).data = true) ↔
      s1 = (octStr a.val).data := by
  rw [ipv4Canon_data, dotSplitPre s1 (octStr a.val).data [] _ h1 (octStr_dotfree' a)]
  simp [listPre]

theorem canon_pre_two (a b c d : Fin 256) (s1 s2 : List Char)
    (h1 : ∀ c ∈ s1, c ≠ '.') (h2 : ∀ c ∈ s2, c ≠ '.') :
    (listPre (s1 ++ '.' :: (s2 ++ '.' :: []))
        (ipv4Canon a.val b.val c.val d.val).data = true) ↔
      (s1 = (octStr a.val).data ∧ s2 = (octStr b.val).data) := by
  rw [ipv4Canon_data, dotSplitPre s1 (octStr a.val).data _ _ h1 (octStr_dotfree' a),
    dotSplitPre s2 (octStr b.val).data [] _ h2 (octStr_dotfree' b)]
  simp [listPre]

set_option maxRecDepth 10000 in
theorem octStr_eq_16p : ∀ (b : Fin 256) (i : Fin 16),
    ((octStr b.val).data = (octStr (16 + i.val)).data) ↔ b.val = 16 + i.val := by
  decide

theorem canon_any172 (a b c d : Fin 256) :
    (prange172.any (fun p => jsStartsWith (ipv4Canon a.val b.val c.val d.val) p) = true) ↔
      (a.val = 172 ∧ 16 ≤ b.val ∧ b.val ≤ 31) := by
  rw [List.any_eq_true]
  have hdata : ∀ m : Fin 256, ("172." ++ octStr m.val ++ ".").data =
      ['1','7','2'] ++ '.' :: ((octStr m.val).data ++ '.' :: []) := by
    intro m
    simp only [string_data_append]
    show ['1','7','2','.'] ++ _ = _
    simp
  constructor
  · rintro ⟨p, hp, hpre⟩
    simp only [prange172, List.mem_map, List.mem_range] at hp
    obtain ⟨i, hi, rfl⟩ := hp
    unfold jsStartsWith at hpre
    rw [show (16 + i : Nat) = 16 + (⟨i, hi⟩ : Fin 16).val from rfl] at hpre
    rw [show ((16 : Nat) + (⟨i, hi⟩ : Fin 16).val) = ((⟨16 + i, by omega⟩ : Fin 256).val) from rfl]
      at hpre
    rw [hdata ⟨16 + i, by omega⟩] at hpre
    rw [canon_pre_two a b c d _ _ (by decide)
      (octStr_dotfree' ⟨16 + i, by omega⟩)] at hpre
    obtain ⟨hA, hB⟩ := hpre
    refine ⟨((octStr_val_eq a).2.2.2.2.2.2.2).mp hA.symm, ?_⟩
    have := (octStr_eq_16p b ⟨i, hi⟩).mp hB.symm
    omega
  · rintro ⟨ha, hb16, hb31⟩
    refine ⟨"172." ++ octStr (16 + (b.val - 16)) ++ ".", ?_, ?_⟩
    · simp only [prange172, List.mem_map, List.mem_range]
      exact ⟨b.val - 16, by omega, rfl⟩
    · unfold jsStartsWith
      rw [show ((16 : Nat) + (b.val - 16)) = ((⟨16 + (b.val - 16), by omega⟩ : Fin 256).val)
        from rfl]
      rw [hdata ⟨16 + (b.val - 16), by omega⟩]
      rw [canon_pre_two a b c d _ _ (by decide)
        (octStr_dotfree' ⟨16 + (b.val - 16), by omega⟩)]
      constructor
      · exact (((octStr_val_eq a).2.2.2.2.2.2.2).mpr ha).symm
      · exact ((octStr_eq_16p b ⟨b.val - 16, by omega⟩).mpr
          (by show b.val = 16 + (b.val - 16); omega)).symm


theorem decide_and_eq (p q : Prop) [Decidable p] [Decidable q] :
    decide (p ∧ q) = (decide p && decide q) := by
  by_cases hp : p <;> by_cases hq : q <;> simp [hp, hq]

theorem bool_eq_decide {b : Bool} {p : Prop} [Decidable p] (h : b = true ↔ p) :
    b = decide p := by
  by_cases hp : p
  · rw [decide_eq_true hp, h.mpr hp]
  · rw [decide_eq_false hp]
    cases hb : b with
    | false => rfl
    | true => exact absurd (h.mp hb) hp

theorem string_eq_iff_data (s t : String) : s = t ↔ s.data = t.data := by
  constructor
  · intro h; rw [h]
  · intro h; cases s; cases t; exact congrArg String.mk h

theorem isPrivateIPv4_canon (a b c d : Fin 256) :
    isPrivateIPv4 (ipv4Canon a.val b.val c.val d.val) = privateQuad a.val b.val := by
  have h10 : jsStartsWith (ipv4Canon a.val b.val c.val d.val) "10." =
      decide (a.val = 10) := by
    refine bool_eq_decide ?_
    show listPre (['1','0'] ++ '.' :: []) _ = true ↔ _
    rw [canon_pre_one a b c d _ (by decide)]
    constructor
    · intro h; exact (octStr_val_eq a).1.mp h.symm
    · intro h; exact ((octStr_val_eq a).1.mpr h).symm
  have h127 : jsStartsWith (ipv4Canon a.val b.val c.val d.val) "127." =
      decide (a.val = 127) := by
    refine bool_eq_decide ?_
    show listPre (['1','2','7'] ++ '.' :: []) _ = true ↔ _
    rw [canon_pre_one a b c d _ (by decide)]
    constructor
    · intro h; exact (octStr_val_eq a).2.1.mp h.symm
    · intro h; exact ((octStr_val_eq a).2.1.mpr h).symm
  have h0 : jsStartsWith (ipv4Canon a.val b.val c.val d.val) "0." =
      decide (a.val = 0) := by
    refine bool_eq_decide ?_
    show listPre (['0'] ++ '.' :: []) _ = true ↔ _
    rw [canon_pre_one a b c d _ (by decide)]
    constructor
    · intro h; exact (octStr_val_eq a).2.2.2.2.2.2.1.mp h.symm
    · intro h; exact ((octStr_val_eq a).2.2.2.2.2.2.1.mpr h).symm
  have h192 : jsStartsWith (ipv4Canon a.val b.val c.val d.val) "192.168." =
      decide (a.val = 192 ∧ b.val = 168) := by
    refine bool_eq_decide ?_
    show listPre (['1','9','2'] ++ '.' :: (['1','6','8'] ++ '.' :: [])) _ = true ↔ _
    rw [canon_pre_two a b c d _ _ (by decide) (by decide)]
    constructor
    · rintro ⟨hA, hB⟩
      exact ⟨(octStr_val_eq a).2.2.1.mp hA.symm, (octStr_val_eq b).2.2.2.1.mp hB.symm⟩
    · rintro ⟨hA, hB⟩
      exact ⟨((octStr_val_eq a).2.2.1.mpr hA).symm, ((octStr_val_eq b).2.2.2.1.mpr hB).symm⟩
  have h169 : jsStartsWith (ipv4Canon a.val b.val c.val d.val) "169.254." =
      decide (a.val = 169 ∧ b.val = 254) := by
    refine bool_eq_decide ?_
    show listPre (['1','6','9'] ++ '.' :: (['2','5','4'] ++ '.' :: [])) _ = true ↔ _
    rw [canon_pre_two a b c d _ _ (by decide) (by decide)]
    constructor
    · rintro ⟨hA, hB⟩
      exact ⟨(octStr_val_eq a).2.2.2.2.1.mp hA.symm, (octStr_val_eq b).2.2.2.2.2.1.mp hB.symm⟩
    · rintro ⟨hA, hB⟩
      exact ⟨((octStr_val_eq a).2.2.2.2.1.mpr hA).symm,
        ((octStr_val_eq b).2.2.2.2.2.1.mpr hB).symm⟩
  have h172 : (prange172.any
      (fun p => jsStartsWith (ipv4Canon a.val b.val c.val d.val) p)) =
      decide (a.val = 172 ∧ 16 ≤ b.val ∧ b.val ≤ 31) :=
    bool_eq_decide (canon_any172 a b c d)
  unfold isPrivateIPv4 privateQuad
  rw [h10, h127, h0, h192, h169, h172, decide_and_eq, decide_and_eq, decide_and_eq,
    decide_and_eq]
  simp [Bool.and_assoc]


theorem canon_ne_of_head (a b c d : Fin 256) (t : String)
    (ht : t.data.head?.all (fun ch => !isAsciiDigit ch) = true) :
    (ipv4Canon a.val b.val c.val d.val == t) = false := by
  rw [beq_eq_false_iff_ne]
  intro he
  obtain ⟨ch, hch, hdig⟩ := ipv4Canon_head_digit a b c d
  rw [he] at hch
  rw [hch] at ht
  simp only [Option.all_some] at ht
  rw [hdig] at ht
  cases ht

theorem canon_beq_meta (a b c d : Fin 256) :
    (ipv4Canon a.val b.val c.val d.val == "169.254.169.254") =
      decide (a.val = 169 ∧ b.val = 254 ∧ c.val = 169 ∧ d.val = 254) := by
  refine bool_eq_decide ?_
  rw [beq_iff_eq, string_eq_iff_data, ipv4Canon_data]
  rw [show ("169.254.169.254" : String).data =
    ['1','6','9'] ++ '.' :: (['2','5','4'] ++ '.' :: (['1','6','9'] ++ '.' ::
      ['2','5','4'])) from rfl]
  rw [dotSplitEq _ _ _ _ (octStr_dotfree' a) (by decide),
    dotSplitEq _ _ _ _ (octStr_dotfree' b) (by decide),
    dotSplitEq _ _ _ _ (octStr_dotfree' c) (by decide)]
  constructor
  · rintro ⟨hA, hB, hC, hD⟩
    exact ⟨(octStr_val_eq a).2.2.2.2.1.mp hA, (octStr_val_eq b).2.2.2.2.2.1.mp hB,
      (octStr_val_eq c).2.2.2.2.1.mp hC, (octStr_val_eq d).2.2.2.2.2.1.mp hD⟩
  · rintro ⟨hA, hB, hC, hD⟩
    exact ⟨(octStr_val_eq a).2.2.2.2.1.mpr hA, (octStr_val_eq b).2.2.2.2.2.1.mpr hB,
      (octStr_val_eq c).2.2.2.2.1.mpr hC, (octStr_val_eq d).2.2.2.2.2.1.mpr hD⟩

theorem canon_endsWith_false (a b c d : Fin 256) {p : Char} {ps : List Char}
    (hp : isAsciiDigit p = false) :
    listPre (p :: ps) (ipv4Canon a.val b.val c.val d.val).data.reverse = false := by
  obtain ⟨ch, hch, hdig⟩ := ipv4Canon_last_digit a b c d
  have hrev : (ipv4Canon a.val b.val c.val d.val).data.reverse.head? = some ch := by
    rw [List.head?_reverse]; exact hch
  refine listPre_head_ne hrev fun he => ?_
  rw [he, hdig] at hp
  cases hp

theorem isBlockedHostname_canon (a b c d : Fin 256) :
    isBlockedHostname (ipv4Canon a.val b.val c.val d.val) =
      decide (a.val = 169 ∧ b.val = 254 ∧ c.val = 169 ∧ d.val = 254) := by
  by_cases hquad : a.val = 169 ∧ b.val = 254 ∧ c.val = 169 ∧ d.val = 254
  · obtain ⟨ha, hb, hc, hd⟩ := hquad
    rw [ha, hb, hc, hd]
    decide
  · rw [decide_eq_false hquad]
    have e1 := canon_ne_of_head a b c d "localhost" (by decide)
    have e2 := canon_ne_of_head a b c d "metadata.google.internal" (by decide)
    have e3 := canon_ne_of_head a b c d "metadata.azure.com" (by decide)
    have e4 := canon_ne_of_head a b c d "[::1]" (by decide)
    have e5 : (ipv4Canon a.val b.val c.val d.val == "169.254.169.254") = false := by
      rw [canon_beq_meta, decide_eq_false hquad]
    have w1 : jsEndsWith (ipv4Canon a.val b.val c.val d.val) ".local" = false := by
      unfold jsEndsWith
      rw [show (".local" : String).data.reverse = 'l' :: ['a','c','o','l','.'] from rfl]
      exact canon_endsWith_false a b c d (by decide)
    have w2 : jsEndsWith (ipv4Canon a.val b.val c.val d.val) ".internal" = false := by
      unfold jsEndsWith
      rw [show (".internal" : String).data.reverse =
        'l' :: ['a','n','r','e','t','n','i','.'] from rfl]
      exact canon_endsWith_false a b c d (by decide)
    have w3 : jsEndsWith (ipv4Canon a.val b.val c.val d.val) ".localhost" = false := by
      unfold jsEndsWith
      rw [show (".localhost" : String).data.reverse =
        't' :: ['s','o','h','l','a','c','o','l','.'] from rfl]
      exact canon_endsWith_false a b c d (by decide)
    simp only [isBlockedHostname, ipv4Canon_lower, BLOCKED_HOSTNAMES, List.contains_cons,
      List.contains_nil, w1, w2, w3, e1, e2, e3, e4, e5, Bool.or_false, Bool.false_or]


theorem ipv4Shape_canon (a b c d : Fin 256) :
    ipv4Shape (ipv4Canon a.val b.val c.val d.val) = true := by
  unfold ipv4Shape
  rw [ipv4Canon_data,
    splitDots_append _ _ (octStr_dotfree' a),
    splitDots_append _ _ (octStr_dotfree' b),
    splitDots_append _ _ (octStr_dotfree' c),
    splitDots_dotfree _ (octStr_dotfree' d)]
  simp only [octStr_shape, Bool.and_self]

theorem looksLikeIP_canon (a b c d : Fin 256) :
    looksLikeIP (ipv4Canon a.val b.val c.val d.val) = true := by
  unfold looksLikeIP
  rw [ipv4Shape_canon]
  rfl

theorem isPrivateIPv6_canon (a b c d : Fin 256) :
    isPrivateIPv6 (ipv4Canon a.val b.val c.val d.val) = false := by
  obtain ⟨ch, hch, hdig⟩ := ipv4Canon_head_digit a b c d
  have hne : ∀ (p : Char) (ps : List Char), isAsciiDigit p = false →
      listPre (p :: ps) (ipv4Canon a.val b.val c.val d.val).data = false := by
    intro p ps hp
    refine listPre_head_ne hch fun he => ?_
    rw [he, hdig] at hp
    cases hp
  have e1 := canon_ne_of_head a b c d "::1" (by decide)
  have e2 := canon_ne_of_head a b c d "[::1]" (by decide)
  have s1 : jsStartsWith (ipv4Canon a.val b.val c.val d.val) "fc" = false :=
    hne 'f' ['c'] (by decide)
  have s2 : jsStartsWith (ipv4Canon a.val b.val c.val d.val) "fd" = false :=
    hne 'f' ['d'] (by decide)
  have s3 : jsStartsWith (ipv4Canon a.val b.val c.val d.val) "fe80" = false :=
    hne 'f' ['e','8','0'] (by decide)
  simp only [isPrivateIPv6, ipv4Canon_lower, e1, e2, s1, s2, s3, Bool.or_self,
    Bool.or_false]

theorem stripBrackets_canon (a b c d : Fin 256) :
    stripBrackets (ipv4Canon a.val b.val c.val d.val) =
      ipv4Canon a.val b.val c.val d.val := by
  obtain ⟨ch, hch, hdig⟩ := ipv4Canon_head_digit a b c d
  obtain ⟨lch, hlch, hldig⟩ := ipv4Canon_last_digit a b c d
  unfold stripBrackets
  rw [hch]
  rw [if_neg (show ¬ (some ch = some '[') from fun he => by
    rw [Option.some.injEq] at he
    rw [he] at hdig
    cases hdig)]
  show String.mk (if (ipv4Canon a.val b.val c.val d.val).data.getLast? = some ']' then
    (ipv4Canon a.val b.val c.val d.val).data.dropLast else
    (ipv4Canon a.val b.val c.val d.val).data) = _
  rw [hlch]
  rw [if_neg (show ¬ (some lch = some ']') from fun he => by
    rw [Option.some.injEq] at he
    rw [he] at hldig
    cases hldig)]

theorem ipv4Canon_mk_data (a b c d : Fin 256) :
    String.mk (ipv4Canon a.val b.val c.val d.val).data =
      ipv4Canon a.val b.val c.val d.val := rfl


theorem validateUrlParsed_canon (a b c d : Fin 256) (proto path orig : String) :
    validateUrlParsed ⟨proto, ipv4Canon a.val b.val c.val d.val, path, orig⟩ =
      if proto ≠ "http:" ∧ proto ≠ "https:" then
        vrInvalid INVALID_URL "URL must use HTTP or HTTPS protocol"
      else if a.val = 169 ∧ b.val = 254 ∧ c.val = 169 ∧ d.val = 254 then
        vrInvalid BLOCKED_URL "URL points to a blocked host"
      else if privateQuad a.val b.val = true then
        vrInvalid BLOCKED_URL "URL points to a private IP address"
      else
        ⟨true, none, none,
          some ⟨proto, ipv4Canon a.val b.val c.val d.val, path, orig⟩⟩ := by
  by_cases hp : proto ≠ "http:" ∧ proto ≠ "https:"
  · unfold validateUrlParsed
    rw [if_pos hp, if_pos hp]
  · unfold validateUrlParsed
    rw [if_neg hp, if_neg hp]
    simp only [ipv4Canon_lower, isBlockedHostname_canon, looksLikeIP_canon,
      stripBrackets_canon, isPrivateIPv4_canon, isPrivateIPv6_canon,
      decide_eq_true_eq]
    by_cases hquad : a.val = 169 ∧ b.val = 254 ∧ c.val = 169 ∧ d.val = 254
    · rw [if_pos hquad, if_pos hquad]
    · rw [if_neg hquad, if_neg hquad]
      by_cases hpq : privateQuad a.val b.val = true
      · rw [if_pos hpq, if_pos hpq]
        simp
      · rw [if_neg hpq, if_neg hpq]
        simp

/-- C3 (amended to HTTP(S) URLs, as the protocol gate of `validateUrl`
fires before any hostname check): for every http(s) URL whose hostname
is a canonical literal IPv4 address, `validateUrl` reports `BLOCKED_URL`
exactly when the quad lies in one of the six reserved ranges, and
reports valid otherwise. -/
theorem claim_C3_ipv4_ranges :
    ∀ (a b c d : Fin 256) (proto path orig : String),
      proto = "http:" ∨ proto = "https:" →
      (privateQuad a.val b.val = true →
        (validateUrlParsed ⟨proto, ipv4Canon a.val b.val c.val d.val, path, orig⟩).valid
            = false ∧
        (validateUrlParsed
            ⟨proto, ipv4Canon a.val b.val c.val d.val, path, orig⟩).errorCode
            = some BLOCKED_URL) ∧
      (privateQuad a.val b.val = false →
        (validateUrlParsed ⟨proto, ipv4Canon a.val b.val c.val d.val, path, orig⟩).valid
            = true) := by
  intro a b c d proto path orig hproto
  have hprotne : ¬ (proto ≠ "http:" ∧ proto ≠ "https:") := by
    rcases hproto with h | h <;> rw [h] <;> simp
  rw [validateUrlParsed_canon, if_neg hprotne]
  constructor
  · intro hpriv
    by_cases hquad : a.val = 169 ∧ b.val = 254 ∧ c.val = 169 ∧ d.val = 254
    · rw [if_pos hquad]
      exact ⟨rfl, rfl⟩
    · rw [if_neg hquad, if_pos hpriv]
      exact ⟨rfl, rfl⟩
  · intro hpriv
    have hquad : ¬ (a.val = 169 ∧ b.val = 254 ∧ c.val = 169 ∧ d.val = 254) := by
      rintro ⟨ha, hb, -, -⟩
      rw [ha, hb] at hpriv
      exact absurd hpriv (by decide)
    rw [if_neg hquad, if_neg (by rw [hpriv]; exact Bool.false_ne_true)]

/-- Closed instance of `claim_C3_ipv4_ranges`: `https://10.0.0.1` is
blocked, `https://8.8.8.8` is valid. -/
theorem claim_C3_ipv4_ranges_witness :
    (validateUrlParsed ⟨"https:", ipv4Canon 10 0 0 1, "/", "https://10.0.0.1"⟩).valid
        = false ∧
    (validateUrlParsed
        ⟨"https:", ipv4Canon 10 0 0 1, "/", "https://10.0.0.1"⟩).errorCode
        = some BLOCKED_URL ∧
    (validateUrlParsed ⟨"https:", ipv4Canon 8 8 8 8, "/", "https://8.8.8.8"⟩).valid
        = true := by
  have h1 := (claim_C3_ipv4_ranges 10 0 0 1 "https:" "/" "https://10.0.0.1"
    (Or.inr rfl)).1 (by decide)
  have h2 := (claim_C3_ipv4_ranges 8 8 8 8 "https:" "/" "https://8.8.8.8"
    (Or.inr rfl)).2 (by decide)
  exact ⟨h1.1, h1.2, h2⟩



theorem probePath_sound (po : String → Option (Nat × String)) (origin p : String)
    (f : FeedInfo) (h : (probePath po origin p).1 = some f) :
    f.url = origin ++ p ∧
    ∃ st ct, po f.url = some (st, ct) ∧ respOk st = true ∧ ctMatch ct = true ∧
      (validateUrl f.url).valid = true := by
  unfold probePath at h
  by_cases hv : (validateUrl (origin ++ p)).valid = true
  · rw [if_pos hv] at h
    cases hpo : po (origin ++ p) with
    | none =>
      rw [hpo] at h
      cases h
    | some stct =>
      obtain ⟨st, ct⟩ := stct
      rw [hpo] at h
      replace h : (if (respOk st && ctMatch ct) = true then
          some (⟨origin ++ p, none,
            if jsIncludes ct "atom" = true then "atom" else "rss"⟩ : FeedInfo)
        else none) = some f := h
      by_cases hok : (respOk st && ctMatch ct) = true
      · rw [if_pos hok] at h
        rw [Bool.and_eq_true] at hok
        replace h := Option.some.inj h
        rw [← h]
        exact ⟨rfl, st, ct, hpo, hok.1, hok.2, hv⟩
      · rw [if_neg hok] at h
        cases h
  · rw [if_neg hv] at h
    cases h

theorem probeBatch_sound (po : String → Option (Nat × String)) (origin : String) :
    ∀ (b : List String) (f : FeedInfo),
      f ∈ (probeBatch po origin b).1 →
      ∃ p ∈ b, (probePath po origin p).1 = some f
  | [], f, h => by simp [probeBatch] at h
  | p :: ps, f, h => by
    unfold probeBatch at h
    rw [List.foldr_cons] at h
    rcases List.mem_append.mp h with h1 | h2
    · refine ⟨p, by simp, ?_⟩
      cases hc : (probePath po origin p).1 with
      | none =>
        rw [hc] at h1
        simp at h1
      | some g =>
        rw [hc] at h1
        have hfg : f = g := by simpa using h1
        exact congrArg some hfg.symm
    · obtain ⟨q, hq, hqq⟩ := probeBatch_sound po origin ps f h2
      exact ⟨q, by simp [hq], hqq⟩

theorem probeLoop_sound (po : String → Option (Nat × String)) (origin : String) :
    ∀ (bs : List (List String)) (f : FeedInfo),
      f ∈ (probeLoop po origin bs).1 →
      ∃ b ∈ bs, f ∈ (probeBatch po origin b).1
  | [], f, h => by simp [probeLoop] at h
  | b :: bs, f, h => by
    unfold probeLoop at h
    by_cases hr : (probeBatch po origin b).1 ≠ []
    · rw [if_pos hr] at h
      exact ⟨b, by simp, h⟩
    · rw [if_neg hr] at h
      obtain ⟨b', hb', hf⟩ := probeLoop_sound po origin bs f h
      exact ⟨b', by simp [hb'], hf⟩


theorem chunks3_sublist {α : Type} : ∀ (l : List α) (b : List α),
    b ∈ chunks3 l → ∀ x ∈ b, x ∈ l
  | [], b, hb => by simp [chunks3] at hb
  | [a], b, hb => by
    simp only [chunks3, List.mem_singleton] at hb
    subst hb
    intro x hx
    exact hx
  | [a, a'], b, hb => by
    simp only [chunks3, List.mem_singleton] at hb
    subst hb
    intro x hx
    exact hx
  | a :: a' :: a'' :: rest, b, hb => by
    simp only [chunks3, List.mem_cons] at hb
    rcases hb with hb | hb
    · subst hb
      intro x hx
      simp only [List.mem_cons] at hx ⊢
      tauto
    · intro x hx
      have := chunks3_sublist rest b hb x hx
      simp only [List.mem_cons]
      tauto

/-- C6: feed-path probing processes the ten common paths in the fixed
batches of three; a candidate arises only from a probe whose response
was 2xx with an xml/rss/atom content-type on a URL that passed
`validateUrl`; the first batch with a candidate ends probing (later
batches contribute nothing, probes that error contribute no candidate
and do not abort the batch); and in the concrete scenario where only
`/feed` answers 200 `application/rss+xml`, the result is exactly one
candidate at `/feed` with only the first batch's three paths probed. -/
theorem claim_C6_probing :
    (∀ (po : String → Option (Nat × String)) (origin : String) (f : FeedInfo),
      f ∈ (probeFeedPaths po origin).1 →
      (∃ p ∈ COMMON_FEED_PATHS, f.url = origin ++ p) ∧
      ∃ st ct, po f.url = some (st, ct) ∧ respOk st = true ∧ ctMatch ct = true ∧
        (validateUrl f.url).valid = true) ∧
    (∀ (po : String → Option (Nat × String)) (origin : String),
      ((probeBatch po origin ["/feed", "/rss", "/atom.xml"]).1 ≠ [] →
        probeFeedPaths po origin = probeBatch po origin ["/feed", "/rss", "/atom.xml"]) ∧
      ((probeBatch po origin ["/feed", "/rss", "/atom.xml"]).1 = [] →
       (probeBatch po origin ["/feed.xml", "/rss.xml", "/index.xml"]).1 ≠ [] →
        probeFeedPaths po origin =
          ((probeBatch po origin ["/feed.xml", "/rss.xml", "/index.xml"]).1,
           (probeBatch po origin ["/feed", "/rss", "/atom.xml"]).2.1 ++
             (probeBatch po origin ["/feed.xml", "/rss.xml", "/index.xml"]).2.1,
           (probeBatch po origin ["/feed", "/rss", "/atom.xml"]).2.2 ++
             (probeBatch po origin ["/feed.xml", "/rss.xml", "/index.xml"]).2.2)) ∧
      ((probeBatch po origin ["/feed", "/rss", "/atom.xml"]).1 = [] →
       (probeBatch po origin ["/feed.xml", "/rss.xml", "/index.xml"]).1 = [] →
       (probeBatch po origin ["/feeds/posts/default", "/blog/feed", "/feed/rss"]).1 = [] →
        probeFeedPaths po origin =
          ((probeBatch po origin ["/feed/atom"]).1,
           (probeBatch po origin ["/feed", "/rss", "/atom.xml"]).2.1 ++
             (probeBatch po origin ["/feed.xml", "/rss.xml", "/index.xml"]).2.1 ++
             (probeBatch po origin ["/feeds/posts/default", "/blog/feed", "/feed/rss"]).2.1 ++
             (probeBatch po origin ["/feed/atom"]).2.1,
           (probeBatch po origin ["/feed", "/rss", "/atom.xml"]).2.2 ++
             (probeBatch po origin ["/feed.xml", "/rss.xml", "/index.xml"]).2.2 ++
             (probeBatch po origin ["/feeds/posts/default", "/blog/feed", "/feed/rss"]).2.2 ++
             (probeBatch po origin ["/feed/atom"]).2.2))) ∧
    probeFeedPaths
      (fun u => if u = "https://example.com/feed" then some (200, "application/rss+xml")
                else some (404, "text/html"))
      "https://example.com" =
      ([⟨"https://example.com/feed", none, "rss"⟩],
       ["https://example.com/feed", "https://example.com/rss",
        "https://example.com/atom.xml"],
       ["https://example.com/feed", "https://example.com/rss",
        "https://example.com/atom.xml"]) := by
  refine ⟨?_, ?_, ?_⟩
  · intro po origin f hf
    obtain ⟨b, hb, hfb⟩ := probeLoop_sound po origin (chunks3 COMMON_FEED_PATHS) f hf
    obtain ⟨p, hp, hpf⟩ := probeBatch_sound po origin b f hfb
    have hpc : p ∈ COMMON_FEED_PATHS := chunks3_sublist COMMON_FEED_PATHS b hb p hp
    obtain ⟨hurl, rest⟩ := probePath_sound po origin p f hpf
    exact ⟨⟨p, hpc, hurl⟩, rest⟩
  · intro po origin
    have hch : chunks3 COMMON_FEED_PATHS =
        [["/feed", "/rss", "/atom.xml"], ["/feed.xml", "/rss.xml", "/index.xml"],
         ["/feeds/posts/default", "/blog/feed", "/feed/rss"], ["/feed/atom"]] := rfl
    refine ⟨?_, ?_, ?_⟩
    · intro h1
      unfold probeFeedPaths
      rw [hch]
      unfold probeLoop
      rw [if_pos h1]
    · intro h1 h2
      unfold probeFeedPaths
      rw [hch]
      unfold probeLoop
      rw [if_neg (by simpa using h1)]
      unfold probeLoop
      rw [if_pos h2]
    · intro h1 h2 h3
      unfold probeFeedPaths
      rw [hch]
      unfold probeLoop
      rw [if_neg (by simpa using h1)]
      unfold probeLoop
      rw [if_neg (by simpa using h2)]
      unfold probeLoop
      rw [if_neg (by simpa using h3)]
      unfold probeLoop
      by_cases h4 : (probeBatch po origin ["/feed/atom"]).1 ≠ []
      · rw [if_pos h4]
        simp [List.append_assoc]
      · rw [if_neg h4]
        unfold probeLoop
        simp only [not_not] at h4
        simp [h4, List.append_assoc]
  · decide


/-- Closed instance of `claim_C6_probing`: in the `/feed`-answers
scenario the first batch has a candidate, so probing equals the first
batch's result. -/
theorem claim_C6_probing_witness :
    probeFeedPaths
      (fun u => if u = "https://example.com/feed" then some (200, "application/rss+xml")
                else some (404, "text/html"))
      "https://example.com" =
    probeBatch
      (fun u => if u = "https://example.com/feed" then some (200, "application/rss+xml")
                else some (404, "text/html"))
      "https://example.com" ["/feed", "/rss", "/atom.xml"] := by
  exact (claim_C6_probing.2.1
    (fun u => if u = "https://example.com/feed" then some (200, "application/rss+xml")
              else some (404, "text/html"))
    "https://example.com").1 (by decide)


theorem finishDiscovery_ok200 (env : Env) (inputType homepageUrl : String)
    (feeds : List FeedInfo) (images : Images) (trace validated : List String) :
    ok200 (finishDiscovery env inputType homepageUrl feeds images trace validated) := by
  unfold finishDiscovery
  split
  · exact ⟨rfl, fun h => by cases h⟩
  · split
    · exact ⟨rfl, fun h => by cases h⟩
    · exact ⟨rfl, fun h => by cases h⟩

theorem homepageFlow_ok200 (env : Env) (inputType homepageUrl : String)
    (trace0 validated0 : List String) :
    ok200 (homepageFlow env inputType homepageUrl trace0 validated0) := by
  unfold homepageFlow
  split
  · exact ⟨rfl, fun _ => rfl⟩
  · exact ⟨rfl, fun _ => rfl⟩
  · split
    · exact ⟨rfl, fun _ => rfl⟩
    · split
      · exact ⟨rfl, fun _ => rfl⟩
      · unfold homepageScan
        split
        · split
          · exact ⟨rfl, fun _ => rfl⟩
          · exact finishDiscovery_ok200 env _ _ _ _ _ _
        · exact finishDiscovery_ok200 env _ _ _ _ _ _

theorem feedDirect_ok200 (env : Env) (url : URLRec) (normalized : String)
    (validated0 : List String) :
    ok200 (feedDirect env url normalized validated0) := by
  unfold feedDirect
  split
  · split
    · split
      · exact ⟨rfl, fun h => by cases h⟩
      · exact ⟨rfl, fun h => by cases h⟩
    · exact ⟨rfl, fun h => by cases h⟩
  · exact homepageFlow_ok200 env _ _ _ _


theorem validateUrlParsed_cases (u : URLRec) :
    (validateUrlParsed u).valid = true ∨ (validateUrlParsed u).errorCode.isSome = true := by
  unfold validateUrlParsed
  split
  · right; rfl
  · split
    · right; rfl
    · split
      · split
        · right; rfl
        · split
          · right; rfl
          · left; rfl
      · left; rfl

theorem validateUrl_errorCode (s : String) (hv : ¬ (validateUrl s).valid = true) :
    (validateUrl s).errorCode.isSome = true := by
  unfold validateUrl at hv ⊢
  cases hpu : parseUrlModel s with
  | none => rfl
  | some u =>
    rw [hpu] at hv
    rcases validateUrlParsed_cases u with h | h
    · exact absurd h hv
    · exact h

theorem discoverPost_ok200 (env : Env) (rawUrl : String) :
    ok200 (discoverPost env rawUrl) := by
  unfold discoverPost
  split
  · exact ⟨rfl, fun h => by cases h⟩
  · split
    · rename_i hv
      exact ⟨rfl, fun _ => validateUrl_errorCode _ hv⟩
    · split
      · exact ⟨rfl, fun _ => rfl⟩
      · split
        · exact feedDirect_ok200 env _ _ _
        · exact homepageFlow_ok200 env _ _ _ _

theorem discoverHandler_post (apiKey : Option String) (env : Env) (hdr : Option String)
    (b : BodyState) (hauth : (validateAuth apiKey hdr).authenticated = true) :
    discoverHandler apiKey env ⟨"POST", hdr, b⟩ =
      (match b with
       | .malformed => ⟨mkErrResp 400 INVALID_URL "Invalid request body", [], []⟩
       | .missingUrl => ⟨mkErrResp 400 INVALID_URL "Missing required field: url", [], []⟩
       | .url s =>
         if s = "" then
           ⟨mkErrResp 400 INVALID_URL "Missing required field: url", [], []⟩
         else discoverPost env s) := by
  show (if ¬ (validateAuth apiKey hdr).authenticated = true then
      (⟨{ status := 401, success := false,
          errorMessage := (validateAuth apiKey hdr).error }, [], []⟩ : HandlerRun)
    else match b with
      | .malformed => ⟨mkErrResp 400 INVALID_URL "Invalid request body", [], []⟩
      | .missingUrl => ⟨mkErrResp 400 INVALID_URL "Missing required field: url", [], []⟩
      | .url s =>
        if s = "" then
          ⟨mkErrResp 400 INVALID_URL "Missing required field: url", [], []⟩
        else discoverPost env s) = _
  rw [if_neg (fun h => h hauth)]

/-- C9: for an authenticated POST whose body carries a (non-empty)
string `url`, every outcome — success or semantic failure (blocked URL,
fetch failure, timeout, oversized content, discovery failure) — is
reported with HTTP status 200, failures carrying an error code; a
malformed body or a missing/non-string (or empty, which the `!body.url`
guard treats as missing) `url` is reported with status 400. -/
theorem claim_C9_status_codes :
    ∀ (apiKey : Option String) (env : Env) (hdr : Option String),
      (validateAuth apiKey hdr).authenticated = true →
      (∀ s : String, s ≠ "" →
        (discoverHandler apiKey env ⟨"POST", hdr, .url s⟩).res.status = 200 ∧
        ((discoverHandler apiKey env ⟨"POST", hdr, .url s⟩).res.success = false →
          (discoverHandler apiKey env ⟨"POST", hdr, .url s⟩).res.errorCode.isSome = true)) ∧
      ((discoverHandler apiKey env ⟨"POST", hdr, .malformed⟩).res.status = 400 ∧
       (discoverHandler apiKey env ⟨"POST", hdr, .malformed⟩).res.success = false) ∧
      ((discoverHandler apiKey env ⟨"POST", hdr, .missingUrl⟩).res.status = 400 ∧
       (discoverHandler apiKey env ⟨"POST", hdr, .missingUrl⟩).res.success = false) := by
  intro apiKey env hdr hauth
  refine ⟨?_, ?_, ?_⟩
  · intro s hs
    rw [discoverHandler_post apiKey env hdr (.url s) hauth]
    show ((if s = "" then
      (⟨mkErrResp 400 INVALID_URL "Missing required field: url", [], []⟩ : HandlerRun)
      else discoverPost env s)).res.status = 200 ∧
      (((if s = "" then
        (⟨mkErrResp 400 INVALID_URL "Missing required field: url", [], []⟩ : HandlerRun)
        else discoverPost env s)).res.success = false →
       ((if s = "" then
        (⟨mkErrResp 400 INVALID_URL "Missing required field: url", [], []⟩ : HandlerRun)
        else discoverPost env s)).res.errorCode.isSome = true)
    rw [if_neg hs]
    exact ⟨(discoverPost_ok200 env s).1, (discoverPost_ok200 env s).2⟩
  · rw [discoverHandler_post apiKey env hdr .malformed hauth]
    exact ⟨rfl, rfl⟩
  · rw [discoverHandler_post apiKey env hdr .missingUrl hauth]
    exact ⟨rfl, rfl⟩


/-- Closed instance of `claim_C9_status_codes` in the trivial
environment: a semantic failure (homepage fetch timeout) is reported
with status 200 and the `TIMEOUT` code; a malformed body gets 400. -/
theorem claim_C9_status_codes_witness :
    (discoverHandler none envDemo ⟨"POST", none, .url "https://example.com/"⟩).res.status
        = 200 ∧
    (discoverHandler none envDemo ⟨"POST", none, .malformed⟩).res.status = 400 := by
  have h := claim_C9_status_codes none envDemo none rfl
  exact ⟨(h.1 "https://example.com/" (by decide)).1, h.2.1.1⟩

/-- C1: the claim is right and the code is wrong: the README promises
"All URLs are validated to prevent SSRF" and the spec says
`UrlSafetyValidator` gates every URL before any network call, but in
the feed-direct path the image-discovery fetch (discover.ts lines
625–646) targets `metadata.link` — a value read from the fetched feed —
without any `validateUrl` call.  In the concrete run below the proxy
fetches the AWS/GCP metadata service even though `validateUrl` itself
would have rejected that URL as `BLOCKED_URL`. -/
theorem claim_C1_unvalidated_fetch :
    "http://169.254.169.254/latest/meta-data/" ∈
      (discoverHandler none envFeedSsrf
        ⟨"POST", none, .url "https://example.com/feed.xml"⟩).trace ∧
    "http://169.254.169.254/latest/meta-data/" ∉
      (discoverHandler none envFeedSsrf
        ⟨"POST", none, .url "https://example.com/feed.xml"⟩).validated ∧
    (validateUrl "http://169.254.169.254/latest/meta-data/").valid = false ∧
    (validateUrl "http://169.254.169.254/latest/meta-data/").errorCode
        = some BLOCKED_URL ∧
    (discoverHandler none envFeedSsrf
        ⟨"POST", none, .url "https://example.com/feed.xml"⟩).res.status = 200 := by
  refine ⟨by decide, by decide, by decide, by decide, by decide⟩


-- ============================================================
-- Character-level facts about ASCII lower-casing (towards C2/C5)
-- ============================================================

theorem char_eq_iff_toNat (c d : Char) : c = d ↔ c.toNat = d.toNat := by
  constructor
  · intro h; rw [h]
  · intro h
    apply Char.eq_of_val_eq
    apply UInt32.eq_of_val_eq
    exact Fin.eq_of_val_eq h

theorem char_le_iff_toNat (c d : Char) : c ≤ d ↔ c.toNat ≤ d.toNat := by
  rw [Char.le_def]
  exact ⟨fun h => h, fun h => h⟩

theorem char_beq_eq_decide (c d : Char) : (c == d) = decide (c.toNat = d.toNat) := by
  by_cases h : c = d
  · subst h
    simp
  · rw [decide_eq_false (fun hn => h ((char_eq_iff_toNat c d).mpr hn))]
    exact beq_eq_false_iff_ne.mpr h

theorem decide_le_char (d c : Char) (n : Nat) (hn : d.toNat = n) :
    decide (d ≤ c) = decide (n ≤ c.toNat) :=
  decide_eq_decide.mpr (hn ▸ char_le_iff_toNat d c)

theorem decide_char_le (d c : Char) (n : Nat) (hn : d.toNat = n) :
    decide (c ≤ d) = decide (c.toNat ≤ n) :=
  decide_eq_decide.mpr (hn ▸ char_le_iff_toNat c d)

theorem decide_or_eq (p q : Prop) [Decidable p] [Decidable q] :
    decide (p ∨ q) = (decide p || decide q) := by
  by_cases hp : p <;> by_cases hq : q <;> simp [hp, hq]

theorem isAsciiAlpha_toNat (c : Char) :
    isAsciiAlpha c =
      decide ((97 ≤ c.toNat ∧ c.toNat ≤ 122) ∨ (65 ≤ c.toNat ∧ c.toNat ≤ 90)) := by
  unfold isAsciiAlpha
  rw [decide_or_eq, decide_and_eq, decide_and_eq,
    decide_le_char 'a' c 97 rfl, decide_char_le 'z' c 122 rfl,
    decide_le_char 'A' c 65 rfl, decide_char_le 'Z' c 90 rfl]

theorem isAsciiDigit_toNat (c : Char) :
    isAsciiDigit c = decide (48 ≤ c.toNat ∧ c.toNat ≤ 57) := by
  unfold isAsciiDigit
  rw [decide_and_eq, decide_le_char '0' c 48 rfl, decide_char_le '9' c 57 rfl]

theorem isC0Space_toNat (c : Char) : isC0Space c = decide (c.toNat ≤ 32) := rfl

theorem isTabNL_toNat (c : Char) :
    isTabNL c = decide (c.toNat = 9 ∨ c.toNat = 10 ∨ c.toNat = 13) := by
  unfold isTabNL
  rw [decide_or_eq, decide_or_eq,
    char_beq_eq_decide, char_beq_eq_decide, char_beq_eq_decide]
  simp only [Bool.or_assoc]
  rfl

theorem isJsWs_toNat (c : Char) :
    isJsWs c = decide (c.toNat = 32 ∨ c.toNat = 9 ∨ c.toNat = 10 ∨
      c.toNat = 13 ∨ c.toNat = 11 ∨ c.toNat = 12) := by
  unfold isJsWs
  rw [decide_or_eq, decide_or_eq, decide_or_eq, decide_or_eq, decide_or_eq,
    char_beq_eq_decide, char_beq_eq_decide, char_beq_eq_decide,
    char_beq_eq_decide, char_beq_eq_decide, char_beq_eq_decide]
  simp only [Bool.or_assoc]
  rfl

theorem toNat_asciiLower (c : Char) :
    (asciiLower c).toNat =
      if 65 ≤ c.toNat ∧ c.toNat ≤ 90 then c.toNat + 32 else c.toNat := by
  unfold asciiLower
  by_cases h : 'A' ≤ c ∧ c ≤ 'Z'
  · rw [if_pos h]
    obtain ⟨h1, h2⟩ := h
    rw [char_le_iff_toNat] at h1 h2
    have h1' : (65 : Nat) ≤ c.toNat := h1
    have h2' : c.toNat ≤ (90 : Nat) := h2
    rw [if_pos ⟨h1', h2'⟩, Char.ofNat, dif_pos (Or.inl (by omega))]
    rfl
  · rw [if_neg h, if_neg]
    intro ⟨h1, h2⟩
    exact h ⟨(char_le_iff_toNat _ _).mpr h1, (char_le_iff_toNat _ _).mpr h2⟩

theorem asciiLower_idem (c : Char) : asciiLower (asciiLower c) = asciiLower c := by
  rw [char_eq_iff_toNat, toNat_asciiLower, toNat_asciiLower]
  split_ifs <;> omega

theorem isAsciiAlpha_asciiLower (c : Char) :
    isAsciiAlpha (asciiLower c) = isAsciiAlpha c := by
  rw [isAsciiAlpha_toNat, isAsciiAlpha_toNat, decide_eq_decide, toNat_asciiLower]
  split_ifs <;> omega

theorem isAsciiDigit_asciiLower (c : Char) :
    isAsciiDigit (asciiLower c) = isAsciiDigit c := by
  rw [isAsciiDigit_toNat, isAsciiDigit_toNat, decide_eq_decide, toNat_asciiLower]
  split_ifs <;> omega

theorem isC0Space_asciiLower (c : Char) :
    isC0Space (asciiLower c) = isC0Space c := by
  rw [isC0Space_toNat, isC0Space_toNat, decide_eq_decide, toNat_asciiLower]
  split_ifs <;> omega

theorem isTabNL_asciiLower (c : Char) :
    isTabNL (asciiLower c) = isTabNL c := by
  rw [isTabNL_toNat, isTabNL_toNat, decide_eq_decide, toNat_asciiLower]
  split_ifs <;> omega

theorem isJsWs_asciiLower (c : Char) :
    isJsWs (asciiLower c) = isJsWs c := by
  rw [isJsWs_toNat, isJsWs_toNat, decide_eq_decide, toNat_asciiLower]
  split_ifs <;> omega

/-- `asciiLower` only hits a character that is neither upper- nor
lower-case ASCII at that character itself. -/
theorem asciiLower_eq_fixed (c d : Char)
    (hd : ¬ (65 ≤ d.toNat ∧ d.toNat ≤ 90) ∧ ¬ (97 ≤ d.toNat ∧ d.toNat ≤ 122)) :
    asciiLower c = d ↔ c = d := by
  rw [char_eq_iff_toNat, char_eq_iff_toNat, toNat_asciiLower]
  split_ifs <;> omega

theorem schemeChar_asciiLower (c : Char) :
    schemeChar (asciiLower c) = schemeChar c := by
  unfold schemeChar
  rw [isAsciiAlpha_asciiLower, isAsciiDigit_asciiLower,
    char_beq_eq_decide, char_beq_eq_decide, char_beq_eq_decide,
    char_beq_eq_decide, char_beq_eq_decide, char_beq_eq_decide,
    show ('+' : Char).toNat = 43 from rfl, show ('-' : Char).toNat = 45 from rfl,
    show ('.' : Char).toNat = 46 from rfl]
  have h43 : decide ((asciiLower c).toNat = 43) = decide (c.toNat = 43) := by
    rw [decide_eq_decide, toNat_asciiLower]; split_ifs <;> omega
  have h45 : decide ((asciiLower c).toNat = 45) = decide (c.toNat = 45) := by
    rw [decide_eq_decide, toNat_asciiLower]; split_ifs <;> omega
  have h46 : decide ((asciiLower c).toNat = 46) = decide (c.toNat = 46) := by
    rw [decide_eq_decide, toNat_asciiLower]; split_ifs <;> omega
  rw [h43, h45, h46]

theorem schemeChar_gt32 (c : Char) (h : schemeChar c = true) : 32 < c.toNat := by
  unfold schemeChar at h
  rw [isAsciiAlpha_toNat, isAsciiDigit_toNat,
    char_beq_eq_decide, char_beq_eq_decide, char_beq_eq_decide,
    show ('+' : Char).toNat = 43 from rfl, show ('-' : Char).toNat = 45 from rfl,
    show ('.' : Char).toNat = 46 from rfl] at h
  rcases Bool.or_eq_true_iff.mp h with h' | h'
  · rcases Bool.or_eq_true_iff.mp h' with h'' | h''
    · rcases Bool.or_eq_true_iff.mp h'' with h3 | h3
      · rcases Bool.or_eq_true_iff.mp h3 with h4 | h4
        · rcases decide_eq_true_iff.mp h4 with ⟨h5, _⟩ | ⟨h5, _⟩ <;> omega
        · have := decide_eq_true_iff.mp h4; omega
      · have := decide_eq_true_iff.mp h3; omega
    · have := decide_eq_true_iff.mp h''; omega
  · have := decide_eq_true_iff.mp h'; omega

theorem schemeChar_ne_colon (c : Char) (h : schemeChar c = true) : c ≠ ':' := by
  intro hc
  subst hc
  exact absurd h (by decide)

-- ============================================================
-- WHATWG preprocessing: `urlPre` fixed points
-- ============================================================

theorem isTabNL_imp_isC0Space (c : Char) (h : isTabNL c = true) :
    isC0Space c = true := by
  rw [isTabNL_toNat, decide_eq_true_iff] at h
  rw [isC0Space_toNat, decide_eq_true_iff]
  omega

theorem headNotC0_dropWhile (l : List Char) :
    headNotC0 (l.dropWhile isC0Space) = true := by
  induction l with
  | nil => rfl
  | cons c cs ih =>
    by_cases h : isC0Space c = true
    · rw [List.dropWhile_cons_of_pos h]
      exact ih
    · rw [List.dropWhile_cons_of_neg h]
      show (!isC0Space c) = true
      rw [Bool.eq_false_iff.mpr h]
      rfl

theorem dropWhile_eq_self_of_head (l : List Char)
    (h : headNotC0 l = true) : l.dropWhile isC0Space = l := by
  cases l with
  | nil => rfl
  | cons c cs =>
    replace h : (!isC0Space c) = true := h
    rw [Bool.not_eq_true'] at h
    exact List.dropWhile_cons_of_neg (by rw [h]; exact Bool.false_ne_true)

theorem reverse_dropWhile_prefix (p : Char → Bool) (m : List Char) :
    (m.reverse.dropWhile p).reverse <+: m := by
  have h := List.dropWhile_suffix (l := m.reverse) p
  have h2 := List.reverse_prefix.mpr h
  rwa [List.reverse_reverse] at h2

theorem prefix_head?_eq (x y : List Char) (h : x <+: y) (hne : x ≠ []) :
    x.head? = y.head? := by
  obtain ⟨t, rfl⟩ := h
  cases x with
  | nil => exact absurd rfl hne
  | cons a as => rfl

theorem headNotC0_of_head? (l : List Char)
    (h : ∀ c, l.head? = some c → isC0Space c = false) : headNotC0 l = true := by
  cases l with
  | nil => rfl
  | cons c cs =>
    show (!isC0Space c) = true
    rw [h c rfl]
    rfl

theorem headNotC0_head? (l : List Char) (h : headNotC0 l = true) :
    ∀ c, l.head? = some c → isC0Space c = false := by
  intro c hc
  cases l with
  | nil => cases hc
  | cons a as =>
    replace h : (!isC0Space a) = true := h
    rw [Bool.not_eq_true'] at h
    cases hc
    exact h

theorem headNotC0_filter (t : List Char) (h : headNotC0 t = true) :
    headNotC0 (t.filter (fun c => !isTabNL c)) = true := by
  cases t with
  | nil => rfl
  | cons c cs =>
    have hc : isC0Space c = false := headNotC0_head? _ h c rfl
    have hq : isTabNL c = false := by
      cases hh : isTabNL c
      · rfl
      · rw [isTabNL_imp_isC0Space c hh] at hc
        cases hc
    have hstep : List.filter (fun c => !isTabNL c) (c :: cs) =
        c :: List.filter (fun c => !isTabNL c) cs := by
      simp [List.filter_cons, hq]
    rw [hstep]
    show (!isC0Space c) = true
    rw [hc]
    rfl

theorem urlPre_eq_self (l : List Char) (h : urlReady l = true) : urlPre l = l := by
  unfold urlReady at h
  rw [Bool.and_eq_true, Bool.and_eq_true] at h
  obtain ⟨⟨h1, h2⟩, h3⟩ := h
  unfold urlPre
  rw [dropWhile_eq_self_of_head l h2, dropWhile_eq_self_of_head l.reverse h3,
    List.reverse_reverse]
  exact List.filter_eq_self.mpr (fun c hc => by
    rw [List.all_eq_true] at h1
    exact h1 c hc)

theorem urlReady_urlPre (l : List Char) : urlReady (urlPre l) = true := by
  unfold urlReady urlPre
  rw [Bool.and_eq_true, Bool.and_eq_true]
  refine ⟨⟨?_, ?_⟩, ?_⟩
  · rw [List.all_eq_true]
    intro c hc
    exact (List.mem_filter.mp hc).2
  · apply headNotC0_filter
    have hpre := reverse_dropWhile_prefix isC0Space (l.dropWhile isC0Space)
    by_cases hnil :
        ((l.dropWhile isC0Space).reverse.dropWhile isC0Space).reverse = []
    · rw [hnil]
      rfl
    · apply headNotC0_of_head?
      intro c hc
      rw [prefix_head?_eq _ _ hpre hnil] at hc
      exact headNotC0_head? _ (headNotC0_dropWhile l) c hc
  · unfold lastNotC0
    rw [← List.filter_reverse, List.reverse_reverse]
    exact headNotC0_filter _ (headNotC0_dropWhile _)

theorem mem_urlPre (l : List Char) (c : Char) (h : c ∈ urlPre l) : c ∈ l := by
  unfold urlPre at h
  have h1 := List.mem_of_mem_filter h
  rw [List.mem_reverse] at h1
  have h2 := (List.dropWhile_suffix isC0Space).subset h1
  rw [List.mem_reverse] at h2
  exact (List.dropWhile_suffix isC0Space).subset h2

theorem noTabNL_urlPre (l : List Char) (c : Char) (h : c ∈ urlPre l) :
    isTabNL c = false := by
  unfold urlPre at h
  have := (List.mem_filter.mp h).2
  rwa [Bool.not_eq_true'] at this

-- ============================================================
-- Scheme handling: `lowerUntilColon`, `splitScheme` (towards C5)
-- ============================================================

theorem alpha_imp_schemeChar (c : Char) (h : isAsciiAlpha c = true) :
    schemeChar c = true := by
  unfold schemeChar
  rw [h]
  rfl

theorem asciiLower_ne_colon (c : Char) (hc : ¬ c = ':') : ¬ asciiLower c = ':' :=
  fun h => hc ((asciiLower_eq_fixed c ':' (by decide)).mp h)

theorem lowerUntilColon_ne_nil (c : Char) (cs : List Char) :
    lowerUntilColon (c :: cs) ≠ [] := by
  by_cases hc : c = ':'
  · rw [show lowerUntilColon (c :: cs) = c :: cs from if_pos hc]
    exact List.cons_ne_nil c cs
  · rw [show lowerUntilColon (c :: cs) = asciiLower c :: lowerUntilColon cs from
      if_neg hc]
    exact List.cons_ne_nil _ _

theorem schemeRest_lowerUntilColon (cs : List Char) :
    schemeRest (lowerUntilColon cs) = schemeRest cs := by
  induction cs with
  | nil => rfl
  | cons c cs ih =>
    by_cases hc : c = ':'
    · rw [show lowerUntilColon (c :: cs) = c :: cs from if_pos hc]
    · rw [show lowerUntilColon (c :: cs) = asciiLower c :: lowerUntilColon cs from
        if_neg hc]
      show (if asciiLower c = ':' then true
          else schemeChar (asciiLower c) && schemeRest (lowerUntilColon cs)) =
        (if c = ':' then true else schemeChar c && schemeRest cs)
      rw [if_neg (asciiLower_ne_colon c hc), if_neg hc, schemeChar_asciiLower, ih]

theorem hasScheme_lowerUntilColon (s : List Char) :
    hasScheme (lowerUntilColon s) = hasScheme s := by
  cases s with
  | nil => rfl
  | cons c cs =>
    by_cases hc : c = ':'
    · rw [show lowerUntilColon (c :: cs) = c :: cs from if_pos hc]
    · rw [show lowerUntilColon (c :: cs) = asciiLower c :: lowerUntilColon cs from
        if_neg hc]
      show (isAsciiAlpha (asciiLower c) && schemeRest (lowerUntilColon cs)) =
        (isAsciiAlpha c && schemeRest cs)
      rw [isAsciiAlpha_asciiLower, schemeRest_lowerUntilColon]

theorem lowerUntilColon_idem (s : List Char) :
    lowerUntilColon (lowerUntilColon s) = lowerUntilColon s := by
  induction s with
  | nil => rfl
  | cons c cs ih =>
    by_cases hc : c = ':'
    · have h : lowerUntilColon (c :: cs) = c :: cs := if_pos hc
      rw [h, h]
    · have h : lowerUntilColon (c :: cs) = asciiLower c :: lowerUntilColon cs :=
        if_neg hc
      rw [h]
      have h2 : lowerUntilColon (asciiLower c :: lowerUntilColon cs) =
          asciiLower (asciiLower c) :: lowerUntilColon (lowerUntilColon cs) :=
        if_neg (asciiLower_ne_colon c hc)
      rw [h2, asciiLower_idem, ih]

theorem lowerUntilColon_all (Q : Char → Bool)
    (hal : ∀ c, Q c = true → Q (asciiLower c) = true) :
    ∀ s : List Char, (∀ c ∈ s, Q c = true) →
      ∀ c ∈ lowerUntilColon s, Q c = true := by
  intro s
  induction s with
  | nil => intro _ c hc; cases hc
  | cons a as ih =>
    intro h c hc
    by_cases ha : a = ':'
    · rw [show lowerUntilColon (a :: as) = a :: as from if_pos ha] at hc
      exact h c hc
    · rw [show lowerUntilColon (a :: as) = asciiLower a :: lowerUntilColon as from
        if_neg ha] at hc
      rcases List.mem_cons.mp hc with h1 | h1
      · subst h1
        exact hal a (h a (List.mem_cons_self a as))
      · exact ih (fun c hc => h c (List.mem_cons_of_mem a hc)) c h1

theorem getLast?_cons_of_ne_nil {α : Type} (a : α) (l : List α) (h : l ≠ []) :
    (a :: l).getLast? = l.getLast? := by
  cases l with
  | nil => exact absurd rfl h
  | cons b bs => rfl

theorem getLast?_lowerUntilColon (s : List Char) :
    (lowerUntilColon s).getLast? = s.getLast? ∨
    (lowerUntilColon s).getLast? = s.getLast?.map asciiLower := by
  induction s with
  | nil => exact Or.inl rfl
  | cons a as ih =>
    by_cases ha : a = ':'
    · rw [show lowerUntilColon (a :: as) = a :: as from if_pos ha]
      exact Or.inl rfl
    · rw [show lowerUntilColon (a :: as) = asciiLower a :: lowerUntilColon as from
        if_neg ha]
      cases as with
      | nil => exact Or.inr rfl
      | cons b bs =>
        rw [getLast?_cons_of_ne_nil _ _ (lowerUntilColon_ne_nil b bs),
          getLast?_cons_of_ne_nil a (b :: bs) (List.cons_ne_nil b bs)]
        exact ih

theorem splitScheme_go_eq :
    ∀ (l sch rest : List Char), splitScheme.go l = some (sch, rest) →
      l = sch ++ ':' :: rest ∧ (∀ c ∈ sch, schemeChar c = true) := by
  intro l
  induction l with
  | nil => intro sch rest h; cases h
  | cons c cs ih =>
    intro sch rest h
    by_cases hc : c = ':'
    · rw [show splitScheme.go (c :: cs) = some ([], cs) from if_pos hc] at h
      injection h with h1
      injection h1 with h2 h3
      subst h2
      subst h3
      exact ⟨by rw [List.nil_append, hc], fun x hx => absurd hx (List.not_mem_nil x)⟩
    · by_cases hs : (isAsciiAlpha c || isAsciiDigit c || c == '+' || c == '-' ||
          c == '.') = true
      · have hred : splitScheme.go (c :: cs) =
            (match splitScheme.go cs with
             | some (sch, rest) => some (c :: sch, rest)
             | none => none) := by
          rw [show splitScheme.go (c :: cs) =
            (if isAsciiAlpha c || isAsciiDigit c || c == '+' || c == '-' ||
                c == '.' then
              (match splitScheme.go cs with
               | some (sch, rest) => some (c :: sch, rest)
               | none => none)
            else none) from if_neg hc, if_pos hs]
        rw [hred] at h
        cases hgo : splitScheme.go cs with
        | none => rw [hgo] at h; cases h
        | some pr =>
          obtain ⟨sch1, rest1⟩ := pr
          rw [hgo] at h
          injection h with h1
          injection h1 with h2 h3
          subst h2
          subst h3
          obtain ⟨ih1, ih2⟩ := ih sch1 rest1 hgo
          refine ⟨congrArg (c :: ·) ih1, ?_⟩
          intro x hx
          rcases List.mem_cons.mp hx with h1 | h1
          · subst h1
            exact hs
          · exact ih2 x h1
      · have hnone : splitScheme.go (c :: cs) = none := (if_neg hc).trans (if_neg hs)
        rw [hnone] at h
        cases h

theorem splitScheme_eq (l sch rest : List Char)
    (h : splitScheme l = some (sch, rest)) :
    l = sch ++ ':' :: rest ∧ (∀ c ∈ sch, schemeChar c = true) ∧
    (∃ c0 sch1, sch = c0 :: sch1 ∧ isAsciiAlpha c0 = true) := by
  cases l with
  | nil => cases h
  | cons c cs =>
    by_cases ha : isAsciiAlpha c = true
    · have hred : splitScheme (c :: cs) =
          (match splitScheme.go cs with
           | some (sch, rest) => some (c :: sch, rest)
           | none => none) := if_pos ha
      rw [hred] at h
      cases hgo : splitScheme.go cs with
      | none => rw [hgo] at h; cases h
      | some pr =>
        obtain ⟨sch1, rest1⟩ := pr
        rw [hgo] at h
        injection h with h1
        injection h1 with h2 h3
        subst h2
        subst h3
        obtain ⟨g1, g2⟩ := splitScheme_go_eq cs sch1 rest1 hgo
        refine ⟨congrArg (c :: ·) g1, ?_, ⟨c, sch1, rfl, ha⟩⟩
        intro x hx
        rcases List.mem_cons.mp hx with h1 | h1
        · rw [h1]
          exact alpha_imp_schemeChar c ha
        · exact g2 x h1
    · have hnone : splitScheme (c :: cs) = none := if_neg ha
      rw [hnone] at h
      cases h

theorem schemeRest_append_colon (x r : List Char)
    (hx : ∀ c ∈ x, schemeChar c = true) : schemeRest (x ++ ':' :: r) = true := by
  induction x with
  | nil => exact if_pos rfl
  | cons c xs ih =>
    by_cases hc : c = ':'
    · exact if_pos hc
    · rw [show schemeRest (c :: xs ++ ':' :: r) =
          (schemeChar c && schemeRest (xs ++ ':' :: r)) from if_neg hc,
        hx c (List.mem_cons_self c xs),
        ih (fun c hc => hx c (List.mem_cons_of_mem _ hc))]
      rfl

theorem hasScheme_scheme_out (sch r : List Char)
    (hsh : ∃ c0 sch1, sch = c0 :: sch1 ∧ isAsciiAlpha c0 = true)
    (hchars : ∀ c ∈ sch, schemeChar c = true) :
    hasScheme (sch.map asciiLower ++ ':' :: r) = true := by
  obtain ⟨c0, sch1, rfl, ha⟩ := hsh
  show (isAsciiAlpha (asciiLower c0) &&
    schemeRest (sch1.map asciiLower ++ ':' :: r)) = true
  rw [isAsciiAlpha_asciiLower, ha, schemeRest_append_colon]
  · rfl
  · intro c hc
    obtain ⟨d, hd, rfl⟩ := List.mem_map.mp hc
    rw [schemeChar_asciiLower]
    exact hchars d (List.mem_cons_of_mem _ hd)

theorem lowerUntilColon_append_colon (x r : List Char)
    (hx : ∀ c ∈ x, ¬ c = ':') :
    lowerUntilColon (x ++ ':' :: r) = x.map asciiLower ++ ':' :: r := by
  induction x with
  | nil => exact if_pos rfl
  | cons c xs ih =>
    rw [List.cons_append,
      show lowerUntilColon (c :: (xs ++ ':' :: r)) =
        asciiLower c :: lowerUntilColon (xs ++ ':' :: r) from
        if_neg (hx c (List.mem_cons_self c xs)),
      ih (fun c hc => hx c (List.mem_cons_of_mem _ hc))]
    rfl

theorem map_asciiLower_idem (x : List Char) :
    (x.map asciiLower).map asciiLower = x.map asciiLower := by
  rw [List.map_map]
  exact List.map_congr_left (fun c _ => asciiLower_idem c)

-- ============================================================
-- Base-URL parsing facts (towards C5)
-- ============================================================

theorem hexDigit_toNat (k : Nat) (h : k < 16) :
    (hexDigit k).toNat = if k < 10 then 48 + k else 55 + k := by
  unfold hexDigit
  split_ifs with h2
  · rw [Char.ofNat, dif_pos (Or.inl (by omega))]
    rfl
  · rw [Char.ofNat, dif_pos (Or.inl (by omega))]
    rfl

theorem mem_pctEncC0 (l : List Char) (c : Char) (h : c ∈ pctEncC0 l) :
    (c ∈ l ∧ 32 < c.toNat) ∨ c = '%' ∨ (∃ k, k < 16 ∧ c = hexDigit k) := by
  unfold pctEncC0 at h
  obtain ⟨a, ha, hc⟩ := List.mem_flatMap.mp h
  by_cases h32 : a.toNat ≤ 32
  · rw [if_pos h32] at hc
    rcases List.mem_cons.mp hc with h1 | h1
    · exact Or.inr (Or.inl h1)
    · rcases List.mem_cons.mp h1 with h2 | h2
      · exact Or.inr (Or.inr ⟨a.toNat / 16, by omega, h2⟩)
      · rcases List.mem_cons.mp h2 with h3 | h3
        · exact Or.inr (Or.inr ⟨a.toNat % 16, by omega, h3⟩)
        · cases h3
  · rw [if_neg h32] at hc
    rcases List.mem_cons.mp hc with h1 | h1
    · subst h1
      exact Or.inl ⟨ha, by omega⟩
    · cases h1

theorem pctEncC0_gt32 (l : List Char) (c : Char) (h : c ∈ pctEncC0 l) :
    32 < c.toNat := by
  rcases mem_pctEncC0 l c h with ⟨_, h1⟩ | h1 | ⟨k, hk, h1⟩
  · exact h1
  · rw [h1]
    decide
  · rw [h1, hexDigit_toNat k hk]
    split_ifs <;> omega

theorem pctEncC0_comma_free (l : List Char) (hl : ∀ c ∈ l, ¬ c = ',')
    (c : Char) (h : c ∈ pctEncC0 l) : ¬ c = ',' := by
  rcases mem_pctEncC0 l c h with ⟨h1, _⟩ | h1 | ⟨k, hk, h1⟩
  · exact hl c h1
  · rw [h1]
    decide
  · rw [h1]
    intro he
    rw [char_eq_iff_toNat, hexDigit_toNat k hk,
      show (',' : Char).toNat = 44 from rfl] at he
    revert he
    split_ifs <;> omega

theorem head?_dropWhile_false (p : Char → Bool) :
    ∀ (l : List Char) (c : Char), (l.dropWhile p).head? = some c → p c = false := by
  intro l
  induction l with
  | nil => intro c h; cases h
  | cons a as ih =>
    intro c h
    by_cases pa : p a = true
    · rw [List.dropWhile_cons_of_pos pa] at h
      exact ih c h
    · rw [List.dropWhile_cons_of_neg pa] at h
      injection h with h1
      rw [← h1]
      exact Bool.eq_false_iff.mpr pa

theorem dropUntilSlash_shape (l : List Char) :
    dropUntilSlash l = [] ∨ ∃ t, dropUntilSlash l = '/' :: t := by
  cases hd : dropUntilSlash l with
  | nil => exact Or.inl rfl
  | cons c t =>
    refine Or.inr ⟨t, ?_⟩
    unfold dropUntilSlash at hd
    have hc : (fun c => decide (c ≠ '/')) c = false :=
      head?_dropWhile_false _ l c (by rw [hd]; rfl)
    have hcc : c = '/' := not_not.mp (decide_eq_false_iff_not.mp hc)
    rw [hcc]

theorem dirOf_subset (l : List Char) (c : Char) (h : c ∈ dirOf l) : c ∈ l := by
  unfold dirOf at h
  rw [List.mem_reverse] at h
  have h2 := (List.dropWhile_suffix (fun c => decide (c ≠ '/'))).subset h
  rwa [List.mem_reverse] at h2

theorem dirOf_getLast? (l : List Char) :
    dirOf l = [] ∨ (dirOf l).getLast? = some '/' := by
  cases hd : l.reverse.dropWhile (fun c => decide (c ≠ '/')) with
  | nil =>
    refine Or.inl ?_
    unfold dirOf
    rw [hd]
    rfl
  | cons c t =>
    refine Or.inr ?_
    unfold dirOf
    rw [List.getLast?_reverse, hd]
    have hc : (fun c => decide (c ≠ '/')) c = false :=
      head?_dropWhile_false _ l.reverse c (by rw [hd]; rfl)
    have hcc : c = '/' := not_not.mp (decide_eq_false_iff_not.mp hc)
    rw [hcc]
    rfl

theorem dirOf_ne_nil (l : List Char) (h : '/' ∈ l) : dirOf l ≠ [] := by
  unfold dirOf
  intro hc
  rw [List.reverse_eq_nil_iff, List.dropWhile_eq_nil_iff] at hc
  have := hc '/' (List.mem_reverse.mpr h)
  rw [decide_eq_true_iff] at this
  exact this rfl

theorem parseBaseModel_eq (base : String) (sch auth path : List Char)
    (h : parseBaseModel base = some (sch, auth, path)) :
    ∃ sch0 rest2,
      splitScheme (urlPre base.data) = some (sch0, '/' :: '/' :: rest2) ∧
      sch = sch0.map asciiLower ∧
      auth = takeUntilSlash rest2 ∧ auth ≠ [] ∧ (∀ c ∈ auth, 32 < c.toNat) ∧
      path = (if dropUntilSlash rest2 = [] then ['/']
        else pctEncC0 (dropUntilSlash rest2)) := by
  replace h : (match splitScheme (urlPre base.data) with
    | none => none
    | some (sch0, rest) =>
      match rest with
      | '/' :: '/' :: rest2 =>
        if takeUntilSlash rest2 = [] then none
        else if (takeUntilSlash rest2).any (fun c => c.toNat ≤ 0x20) then none
        else some (sch0.map asciiLower, takeUntilSlash rest2,
          if dropUntilSlash rest2 = [] then ['/']
          else pctEncC0 (dropUntilSlash rest2))
      | _ => none) = some (sch, auth, path) := h
  split at h
  · cases h
  · rename_i sch0 rest heq
    split at h
    · rename_i rest2
      split at h
      · cases h
      · split at h
        · cases h
        · rename_i hnil hany
          injection h with h1
          injection h1 with h2 h3
          injection h3 with h4 h5
          refine ⟨sch0, rest2, heq, h2.symm, h4.symm, ?_, ?_, h5.symm⟩
          · rw [← h4]
            exact hnil
          · intro c hc
            rw [← h4] at hc
            by_contra hgt
            apply hany
            apply List.any_eq_true.mpr
            refine ⟨c, hc, ?_⟩
            rw [decide_eq_true_eq]
            omega
    · cases h

-- ============================================================
-- `urlResolve` output characterization (towards C5)
-- ============================================================

theorem gt32_not_tabNL (c : Char) (h : 32 < c.toNat) : isTabNL c = false := by
  rw [isTabNL_toNat, decide_eq_false_iff_not]
  omega

theorem gt32_not_C0 (c : Char) (h : 32 < c.toNat) : isC0Space c = false := by
  rw [isC0Space_toNat, decide_eq_false_iff_not]
  omega

theorem gt32_not_ws (c : Char) (h : 32 < c.toNat) : isJsWs c = false := by
  rw [isJsWs_toNat, decide_eq_false_iff_not]
  omega

theorem alpha_gt32 (c : Char) (h : isAsciiAlpha c = true) : 32 < c.toNat :=
  schemeChar_gt32 c (alpha_imp_schemeChar c h)

theorem lastNotC0_of_getLast? (l : List Char)
    (h : ∀ c, l.getLast? = some c → isC0Space c = false) : lastNotC0 l = true := by
  unfold lastNotC0
  apply headNotC0_of_head?
  intro c hc
  rw [List.head?_reverse] at hc
  exact h c hc

theorem getLast?_of_lastNotC0 (l : List Char) (h : lastNotC0 l = true) :
    ∀ c, l.getLast? = some c → isC0Space c = false := by
  intro c hc
  unfold lastNotC0 at h
  exact headNotC0_head? _ h c (by rw [List.head?_reverse]; exact hc)

theorem urlReady_mk (l : List Char)
    (h1 : ∀ c ∈ l, isTabNL c = false)
    (h2 : headNotC0 l = true)
    (h3 : ∀ c, l.getLast? = some c → isC0Space c = false) :
    urlReady l = true := by
  unfold urlReady
  rw [Bool.and_eq_true, Bool.and_eq_true]
  refine ⟨⟨?_, h2⟩, lastNotC0_of_getLast? l h3⟩
  rw [List.all_eq_true]
  intro c hc
  rw [h1 c hc]
  rfl

theorem urlReady_parts (l : List Char) (h : urlReady l = true) :
    (∀ c ∈ l, isTabNL c = false) ∧ headNotC0 l = true ∧
      (∀ c, l.getLast? = some c → isC0Space c = false) := by
  unfold urlReady at h
  rw [Bool.and_eq_true, Bool.and_eq_true] at h
  obtain ⟨⟨h1, h2⟩, h3⟩ := h
  refine ⟨?_, h2, getLast?_of_lastNotC0 l h3⟩
  intro c hc
  rw [List.all_eq_true] at h1
  have := h1 c hc
  rwa [Bool.not_eq_true'] at this

theorem mem_pctEncC0_of (l : List Char) (c : Char) (hc : c ∈ l)
    (h32 : 32 < c.toNat) : c ∈ pctEncC0 l := by
  unfold pctEncC0
  apply List.mem_flatMap.mpr
  refine ⟨c, hc, ?_⟩
  rw [if_neg (by omega)]
  exact List.mem_cons_self c []

/-- The common scheme-plus-`://` shape of every base-relative `urlResolve`
output: it is preprocessing-stable, carries a scheme, and is fixed by
scheme lower-casing. -/
theorem resolve_out_form (sch0 X : List Char)
    (hchars : ∀ c ∈ sch0, schemeChar c = true)
    (hsh : ∃ c0 sch1, sch0 = c0 :: sch1 ∧ isAsciiAlpha c0 = true)
    (hXtab : ∀ c ∈ X, isTabNL c = false)
    (hXlast : ∀ c, X.getLast? = some c → isC0Space c = false) :
    urlReady (sch0.map asciiLower ++ ':' :: '/' :: '/' :: X) = true ∧
    hasScheme (sch0.map asciiLower ++ ':' :: '/' :: '/' :: X) = true ∧
    lowerUntilColon (sch0.map asciiLower ++ ':' :: '/' :: '/' :: X) =
      sch0.map asciiLower ++ ':' :: '/' :: '/' :: X := by
  have hmapchars : ∀ c ∈ sch0.map asciiLower, schemeChar c = true := by
    intro c hc
    obtain ⟨d, hd, rfl⟩ := List.mem_map.mp hc
    rw [schemeChar_asciiLower]
    exact hchars d hd
  refine ⟨?_, hasScheme_scheme_out sch0 ('/' :: '/' :: X) hsh hchars, ?_⟩
  · apply urlReady_mk
    · intro c hc
      rcases List.mem_append.mp hc with h1 | h1
      · exact gt32_not_tabNL c (schemeChar_gt32 c (hmapchars c h1))
      · rcases List.mem_cons.mp h1 with h2 | h2
        · rw [h2]; rfl
        · rcases List.mem_cons.mp h2 with h3 | h3
          · rw [h3]; rfl
          · rcases List.mem_cons.mp h3 with h4 | h4
            · rw [h4]; rfl
            · exact hXtab c h4
    · obtain ⟨c0, sch1, rfl, ha⟩ := hsh
      show headNotC0 (asciiLower c0 :: (sch1.map asciiLower ++ ':' :: '/' :: '/' :: X)) = true
      apply headNotC0_of_head?
      intro c hc
      injection hc with hc
      rw [← hc]
      apply gt32_not_C0
      have := alpha_gt32 c0 ha
      rw [toNat_asciiLower]
      split_ifs <;> omega
    · intro c hc
      rw [List.getLast?_append_cons] at hc
      cases hX : X with
      | nil =>
        rw [hX] at hc
        injection hc with hc
        rw [← hc]
        decide
      | cons x xs =>
        rw [hX] at hc
        rw [List.getLast?_cons_cons, List.getLast?_cons_cons,
          List.getLast?_cons_cons] at hc
        apply hXlast c
        rw [hX]
        exact hc
  · rw [lowerUntilColon_append_colon _ _ (fun c hc =>
      schemeChar_ne_colon c (hmapchars c hc)), map_asciiLower_idem]

theorem hasScheme_head_alpha (s : List Char) (h : hasScheme s = true) :
    ∃ c cs, s = c :: cs ∧ isAsciiAlpha c = true := by
  cases s with
  | nil => cases h
  | cons c cs =>
    replace h : (isAsciiAlpha c && schemeRest cs) = true := h
    rw [Bool.and_eq_true] at h
    exact ⟨c, cs, rfl, h.1⟩

theorem urlReady_lowerUntilColon (s : List Char) (hready : urlReady s = true)
    (hs : hasScheme s = true) : urlReady (lowerUntilColon s) = true := by
  obtain ⟨h1, h2, h3⟩ := urlReady_parts s hready
  apply urlReady_mk
  · have hall := lowerUntilColon_all (fun c => !isTabNL c)
      (fun c hc => by
        rw [Bool.not_eq_true'] at hc ⊢
        rw [isTabNL_asciiLower]
        exact hc) s
      (fun c hc => by rw [Bool.not_eq_true', h1 c hc])
    intro c hc
    have := hall c hc
    rwa [Bool.not_eq_true'] at this
  · obtain ⟨c, cs, rfl, halpha⟩ := hasScheme_head_alpha s hs
    have hne : ¬ c = ':' := by
      intro he
      rw [he] at halpha
      exact absurd halpha (by decide)
    rw [show lowerUntilColon (c :: cs) = asciiLower c :: lowerUntilColon cs from
      if_neg hne]
    apply headNotC0_of_head?
    intro d hd
    injection hd with hd
    rw [← hd, isC0Space_asciiLower]
    exact gt32_not_C0 c (alpha_gt32 c halpha)
  · intro c hc
    rcases getLast?_lowerUntilColon s with hgl | hgl
    · rw [hgl] at hc
      exact h3 c hc
    · rw [hgl] at hc
      cases hs0 : s.getLast? with
      | none => rw [hs0] at hc; cases hc
      | some d =>
        rw [hs0] at hc
        injection hc with hc
        rw [← hc, isC0Space_asciiLower]
        exact h3 d hs0

/-- Every output of the modelled `new URL(input, base).href` is stable:
resolving it again (against any base) returns it unchanged. -/
theorem urlResolve_out_eq (input base o : String)
    (h : urlResolve input base = some o) :
    urlReady o.data = true ∧ hasScheme o.data = true ∧
    lowerUntilColon o.data = o.data := by
  replace h : (if hasScheme (urlPre input.data) then
      some (⟨lowerUntilColon (urlPre input.data)⟩ : String)
    else match parseBaseModel base with
      | none => none
      | some (sch, auth, path) =>
        match urlPre input.data with
        | '/' :: '/' :: rest => some ⟨sch ++ ':' :: '/' :: '/' :: rest⟩
        | '/' :: rest => some ⟨sch ++ ':' :: '/' :: '/' :: auth ++ '/' :: rest⟩
        | '#' :: rest => some ⟨sch ++ ':' :: '/' :: '/' :: auth ++ path ++ '#' :: rest⟩
        | '?' :: rest => some ⟨sch ++ ':' :: '/' :: '/' :: auth ++ path ++ '?' :: rest⟩
        | other => some ⟨sch ++ ':' :: '/' :: '/' :: auth ++ dirOf path ++ other⟩) =
      some o := h
  have sparts := urlReady_parts _ (urlReady_urlPre input.data)
  by_cases hsch : hasScheme (urlPre input.data) = true
  · rw [if_pos hsch] at h
    injection h with h1
    have hdata : o.data = lowerUntilColon (urlPre input.data) := by rw [← h1]
    rw [hdata]
    exact ⟨urlReady_lowerUntilColon _ (urlReady_urlPre input.data) hsch,
      by rw [hasScheme_lowerUntilColon]; exact hsch,
      lowerUntilColon_idem _⟩
  · rw [if_neg hsch] at h
    cases hpb : parseBaseModel base with
    | none => rw [hpb] at h; cases h
    | some triple =>
      obtain ⟨sch, auth, path⟩ := triple
      rw [hpb] at h
      obtain ⟨sch0, rest2, hsp, hschm, hauth, hne, hgt, hpath⟩ :=
        parseBaseModel_eq base sch auth path hpb
      obtain ⟨hbeq, hbchars, hbsh⟩ := splitScheme_eq _ _ _ hsp
      have hpath32 : ∀ c ∈ path, 32 < c.toNat := by
        intro c hc
        by_cases hsplit : dropUntilSlash rest2 = []
        · rw [hpath, if_pos hsplit] at hc
          rcases List.mem_cons.mp hc with h1 | h1
          · rw [h1]; decide
          · cases h1
        · rw [hpath, if_neg hsplit] at hc
          exact pctEncC0_gt32 _ c hc
      have hpathslash : '/' ∈ path := by
        by_cases hsplit : dropUntilSlash rest2 = []
        · rw [hpath, if_pos hsplit]
          exact List.mem_cons_self _ _
        · rw [hpath, if_neg hsplit]
          rcases dropUntilSlash_shape rest2 with h1 | ⟨t, h1⟩
          · exact absurd h1 hsplit
          · rw [h1]
            exact mem_pctEncC0_of _ _ (List.mem_cons_self _ _) (by decide)
      replace h : (match urlPre input.data with
        | '/' :: '/' :: rest => some ((⟨sch ++ ':' :: '/' :: '/' :: rest⟩ : String))
        | '/' :: rest => some ⟨sch ++ ':' :: '/' :: '/' :: auth ++ '/' :: rest⟩
        | '#' :: rest => some ⟨sch ++ ':' :: '/' :: '/' :: auth ++ path ++ '#' :: rest⟩
        | '?' :: rest => some ⟨sch ++ ':' :: '/' :: '/' :: auth ++ path ++ '?' :: rest⟩
        | other => some ⟨sch ++ ':' :: '/' :: '/' :: auth ++ dirOf path ++ other⟩) =
        some o := h
      subst hschm
      split at h
      · rename_i rest heq
        injection h with h1
        have hdata : o.data = sch0.map asciiLower ++ ':' :: '/' :: '/' :: rest := by
          rw [← h1]
        rw [hdata]
        apply resolve_out_form sch0 rest hbchars hbsh
        · intro c hc
          apply sparts.1 c
          rw [heq]
          exact List.mem_cons_of_mem _ (List.mem_cons_of_mem _ hc)
        · intro c hc
          cases hrest : rest with
          | nil => rw [hrest] at hc; cases hc
          | cons r rs =>
            apply sparts.2.2 c
            rw [heq, hrest, List.getLast?_cons_cons, List.getLast?_cons_cons,
              ← hrest]
            exact hc
      · rename_i rest hno1 heq
        injection h with h1
        have hdata0 : o.data =
            sch0.map asciiLower ++ ':' :: '/' :: '/' :: auth ++ '/' :: rest := by
          rw [← h1]
        have hdata : o.data =
            sch0.map asciiLower ++ ':' :: '/' :: '/' :: (auth ++ '/' :: rest) := by
          rw [hdata0]
          simp [List.cons_append, List.append_assoc]
        rw [hdata]
        apply resolve_out_form sch0 (auth ++ '/' :: rest) hbchars hbsh
        · intro c hc
          rcases List.mem_append.mp hc with h2 | h2
          · exact gt32_not_tabNL c (hgt c h2)
          · rcases List.mem_cons.mp h2 with h3 | h3
            · rw [h3]; rfl
            · apply sparts.1 c
              rw [heq]
              exact List.mem_cons_of_mem _ h3
        · intro c hc
          rw [List.getLast?_append_cons] at hc
          cases hrest : rest with
          | nil =>
            rw [hrest] at hc
            injection hc with hc
            rw [← hc]
            decide
          | cons r rs =>
            rw [hrest, List.getLast?_cons_cons] at hc
            apply sparts.2.2 c
            rw [heq, hrest, List.getLast?_cons_cons]
            exact hc
      · rename_i rest heq
        injection h with h1
        have hdata0 : o.data =
            sch0.map asciiLower ++ ':' :: '/' :: '/' :: auth ++ path ++ '#' :: rest := by
          rw [← h1]
        have hdata : o.data =
            sch0.map asciiLower ++ ':' :: '/' :: '/' ::
              (auth ++ (path ++ '#' :: rest)) := by
          rw [hdata0]
          simp [List.cons_append, List.append_assoc]
        rw [hdata]
        apply resolve_out_form sch0 (auth ++ (path ++ '#' :: rest)) hbchars hbsh
        · intro c hc
          rcases List.mem_append.mp hc with h2 | h2
          · exact gt32_not_tabNL c (hgt c h2)
          · rcases List.mem_append.mp h2 with h3 | h3
            · exact gt32_not_tabNL c (hpath32 c h3)
            · rcases List.mem_cons.mp h3 with h4 | h4
              · rw [h4]; rfl
              · apply sparts.1 c
                rw [heq]
                exact List.mem_cons_of_mem _ h4
        · intro c hc
          rw [← List.append_assoc, List.getLast?_append_cons] at hc
          cases hrest : rest with
          | nil =>
            rw [hrest] at hc
            injection hc with hc
            rw [← hc]
            decide
          | cons r rs =>
            rw [hrest, List.getLast?_cons_cons] at hc
            apply sparts.2.2 c
            rw [heq, hrest, List.getLast?_cons_cons]
            exact hc
      · rename_i rest heq
        injection h with h1
        have hdata0 : o.data =
            sch0.map asciiLower ++ ':' :: '/' :: '/' :: auth ++ path ++ '?' :: rest := by
          rw [← h1]
        have hdata : o.data =
            sch0.map asciiLower ++ ':' :: '/' :: '/' ::
              (auth ++ (path ++ '?' :: rest)) := by
          rw [hdata0]
          simp [List.cons_append, List.append_assoc]
        rw [hdata]
        apply resolve_out_form sch0 (auth ++ (path ++ '?' :: rest)) hbchars hbsh
        · intro c hc
          rcases List.mem_append.mp hc with h2 | h2
          · exact gt32_not_tabNL c (hgt c h2)
          · rcases List.mem_append.mp h2 with h3 | h3
            · exact gt32_not_tabNL c (hpath32 c h3)
            · rcases List.mem_cons.mp h3 with h4 | h4
              · rw [h4]; rfl
              · apply sparts.1 c
                rw [heq]
                exact List.mem_cons_of_mem _ h4
        · intro c hc
          rw [← List.append_assoc, List.getLast?_append_cons] at hc
          cases hrest : rest with
          | nil =>
            rw [hrest] at hc
            injection hc with hc
            rw [← hc]
            decide
          | cons r rs =>
            rw [hrest, List.getLast?_cons_cons] at hc
            apply sparts.2.2 c
            rw [heq, hrest, List.getLast?_cons_cons]
            exact hc
      · injection h with h1
        have hdata0 : o.data = sch0.map asciiLower ++ ':' :: '/' :: '/' :: auth ++
            dirOf path ++ urlPre input.data := by
          rw [← h1]
        have hdata : o.data = sch0.map asciiLower ++ ':' :: '/' :: '/' ::
            (auth ++ (dirOf path ++ urlPre input.data)) := by
          rw [hdata0]
          simp [List.cons_append, List.append_assoc]
        rw [hdata]
        apply resolve_out_form sch0 (auth ++ (dirOf path ++ urlPre input.data))
          hbchars hbsh
        · intro c hc
          rcases List.mem_append.mp hc with h2 | h2
          · exact gt32_not_tabNL c (hgt c h2)
          · rcases List.mem_append.mp h2 with h3 | h3
            · exact gt32_not_tabNL c (hpath32 c (dirOf_subset path c h3))
            · exact sparts.1 c h3
        · intro c hc
          cases hs0 : urlPre input.data with
          | nil =>
            rw [hs0, List.append_nil] at hc
            rw [List.getLast?_append_of_ne_nil auth
              (dirOf_ne_nil path hpathslash)] at hc
            rcases dirOf_getLast? path with h2 | h2
            · exact absurd h2 (dirOf_ne_nil path hpathslash)
            · rw [h2] at hc
              injection hc with hc
              rw [← hc]
              decide
          | cons x xs =>
            rw [hs0, ← List.append_assoc, List.getLast?_append_cons] at hc
            apply sparts.2.2 c
            rw [hs0]
            exact hc

theorem urlResolve_out (input base o : String)
    (h : urlResolve input base = some o) : urlResolve o base = some o := by
  obtain ⟨hready, hsch, hlow⟩ := urlResolve_out_eq input base o h
  show (if hasScheme (urlPre o.data) then
      some (⟨lowerUntilColon (urlPre o.data)⟩ : String)
    else match parseBaseModel base with
      | none => none
      | some (sch, auth, path) =>
        match urlPre o.data with
        | '/' :: '/' :: rest => some ⟨sch ++ ':' :: '/' :: '/' :: rest⟩
        | '/' :: rest => some ⟨sch ++ ':' :: '/' :: '/' :: auth ++ '/' :: rest⟩
        | '#' :: rest => some ⟨sch ++ ':' :: '/' :: '/' :: auth ++ path ++ '#' :: rest⟩
        | '?' :: rest => some ⟨sch ++ ':' :: '/' :: '/' :: auth ++ path ++ '?' :: rest⟩
        | other => some ⟨sch ++ ':' :: '/' :: '/' :: auth ++ dirOf path ++ other⟩) =
      some o
  rw [urlPre_eq_self o.data hready, if_pos hsch, hlow]

theorem urlResolve_ne_empty (input base o : String)
    (h : urlResolve input base = some o) : o ≠ "" := by
  obtain ⟨_, hsch, _⟩ := urlResolve_out_eq input base o h
  intro he
  rw [he] at hsch
  cases hsch

theorem mem_takeUntilSlash (l : List Char) (c : Char)
    (h : c ∈ takeUntilSlash l) : c ∈ l :=
  (List.takeWhile_prefix _).subset h

theorem mem_dropUntilSlash (l : List Char) (c : Char)
    (h : c ∈ dropUntilSlash l) : c ∈ l :=
  (List.dropWhile_suffix _).subset h

/-- Character-closure of `urlResolve`: every output character either
comes from the input, comes from a non-control character of the base, or
is one of the separators/percent-encoding characters the resolver
inserts. -/
theorem urlResolve_all (Q : Char → Bool)
    (hal : ∀ c, Q c = true → Q (asciiLower c) = true)
    (hsep : Q ':' = true ∧ Q '/' = true ∧ Q '%' = true ∧
      ∀ k, k < 16 → Q (hexDigit k) = true)
    (input base o : String)
    (hin : ∀ c ∈ input.data, Q c = true)
    (hbase : ∀ c ∈ base.data, 32 < c.toNat → Q c = true)
    (h : urlResolve input base = some o) :
    ∀ c ∈ o.data, Q c = true := by
  replace h : (if hasScheme (urlPre input.data) then
      some (⟨lowerUntilColon (urlPre input.data)⟩ : String)
    else match parseBaseModel base with
      | none => none
      | some (sch, auth, path) =>
        match urlPre input.data with
        | '/' :: '/' :: rest => some ⟨sch ++ ':' :: '/' :: '/' :: rest⟩
        | '/' :: rest => some ⟨sch ++ ':' :: '/' :: '/' :: auth ++ '/' :: rest⟩
        | '#' :: rest => some ⟨sch ++ ':' :: '/' :: '/' :: auth ++ path ++ '#' :: rest⟩
        | '?' :: rest => some ⟨sch ++ ':' :: '/' :: '/' :: auth ++ path ++ '?' :: rest⟩
        | other => some ⟨sch ++ ':' :: '/' :: '/' :: auth ++ dirOf path ++ other⟩) =
      some o := h
  have hinpre : ∀ c ∈ urlPre input.data, Q c = true :=
    fun c hc => hin c (mem_urlPre _ c hc)
  by_cases hsch : hasScheme (urlPre input.data) = true
  · rw [if_pos hsch] at h
    injection h with h1
    have hdata : o.data = lowerUntilColon (urlPre input.data) := by rw [← h1]
    rw [hdata]
    exact lowerUntilColon_all Q hal _ hinpre
  · rw [if_neg hsch] at h
    cases hpb : parseBaseModel base with
    | none => rw [hpb] at h; cases h
    | some triple =>
      obtain ⟨sch, auth, path⟩ := triple
      rw [hpb] at h
      obtain ⟨sch0, rest2, hsp, hschm, hauth, hne, hgt, hpath⟩ :=
        parseBaseModel_eq base sch auth path hpb
      obtain ⟨hbeq, hbchars, hbsh⟩ := splitScheme_eq _ _ _ hsp
      have hrest2 : ∀ c ∈ rest2, c ∈ base.data := by
        intro c hc
        apply mem_urlPre
        rw [hbeq]
        exact List.mem_append.mpr (Or.inr (List.mem_cons_of_mem _
          (List.mem_cons_of_mem _ (List.mem_cons_of_mem _ hc))))
      have hschQ : ∀ c ∈ sch, Q c = true := by
        rw [hschm]
        intro c hc
        obtain ⟨d, hd, rfl⟩ := List.mem_map.mp hc
        apply hal
        apply hbase
        · apply mem_urlPre
          rw [hbeq]
          exact List.mem_append.mpr (Or.inl hd)
        · exact schemeChar_gt32 d (hbchars d hd)
      have hauthQ : ∀ c ∈ auth, Q c = true := by
        intro c hc
        apply hbase c _ (hgt c hc)
        rw [hauth] at hc
        exact hrest2 c (mem_takeUntilSlash _ c hc)
      have hpathQ : ∀ c ∈ path, Q c = true := by
        intro c hc
        by_cases hsplit : dropUntilSlash rest2 = []
        · rw [hpath, if_pos hsplit] at hc
          rcases List.mem_cons.mp hc with h1 | h1
          · rw [h1]; exact hsep.2.1
          · cases h1
        · rw [hpath, if_neg hsplit] at hc
          rcases mem_pctEncC0 _ c hc with ⟨h1, h2⟩ | h1 | ⟨k, hk, h1⟩
          · exact hbase c (hrest2 c (mem_dropUntilSlash _ c h1)) h2
          · rw [h1]; exact hsep.2.2.1
          · rw [h1]; exact hsep.2.2.2 k hk
      replace h : (match urlPre input.data with
        | '/' :: '/' :: rest => some ((⟨sch ++ ':' :: '/' :: '/' :: rest⟩ : String))
        | '/' :: rest => some ⟨sch ++ ':' :: '/' :: '/' :: auth ++ '/' :: rest⟩
        | '#' :: rest => some ⟨sch ++ ':' :: '/' :: '/' :: auth ++ path ++ '#' :: rest⟩
        | '?' :: rest => some ⟨sch ++ ':' :: '/' :: '/' :: auth ++ path ++ '?' :: rest⟩
        | other => some ⟨sch ++ ':' :: '/' :: '/' :: auth ++ dirOf path ++ other⟩) =
        some o := h
      split at h
      · rename_i rest heq
        injection h with h1
        have hdata : o.data = sch ++ ':' :: '/' :: '/' :: rest := by rw [← h1]
        rw [hdata]
        intro c hc
        rcases List.mem_append.mp hc with h1 | h1
        · exact hschQ c h1
        · rcases List.mem_cons.mp h1 with h2 | h2
          · rw [h2]; exact hsep.1
          · rcases List.mem_cons.mp h2 with h3 | h3
            · rw [h3]; exact hsep.2.1
            · rcases List.mem_cons.mp h3 with h4 | h4
              · rw [h4]; exact hsep.2.1
              · apply hinpre c
                rw [heq]
                exact List.mem_cons_of_mem _ (List.mem_cons_of_mem _ h4)
      · rename_i rest hno1 heq
        injection h with h1
        have hdata : o.data =
            sch ++ ':' :: '/' :: '/' :: auth ++ '/' :: rest := by rw [← h1]
        rw [hdata]
        intro c hc
        have hc' : c ∈ sch ++ ':' :: '/' :: '/' :: (auth ++ '/' :: rest) := by
          rcases List.mem_append.mp hc with h1 | h1
          · rcases List.mem_append.mp h1 with h2 | h2
            · exact List.mem_append.mpr (Or.inl h2)
            · rcases List.mem_cons.mp h2 with h3 | h3
              · rw [h3]; exact List.mem_append.mpr (Or.inr (List.mem_cons_self _ _))
              · rcases List.mem_cons.mp h3 with h4 | h4
                · rw [h4]
                  exact List.mem_append.mpr (Or.inr (List.mem_cons_of_mem _
                    (List.mem_cons_self _ _)))
                · rcases List.mem_cons.mp h4 with h5 | h5
                  · rw [h5]
                    exact List.mem_append.mpr (Or.inr (List.mem_cons_of_mem _
                      (List.mem_cons_of_mem _ (List.mem_cons_self _ _))))
                  · exact List.mem_append.mpr (Or.inr (List.mem_cons_of_mem _
                      (List.mem_cons_of_mem _ (List.mem_cons_of_mem _
                        (List.mem_append.mpr (Or.inl h5))))))
          · exact List.mem_append.mpr (Or.inr (List.mem_cons_of_mem _
              (List.mem_cons_of_mem _ (List.mem_cons_of_mem _
                (List.mem_append.mpr (Or.inr h1))))))
        rcases List.mem_append.mp hc' with h1 | h1
        · exact hschQ c h1
        · rcases List.mem_cons.mp h1 with h2 | h2
          · rw [h2]; exact hsep.1
          · rcases List.mem_cons.mp h2 with h3 | h3
            · rw [h3]; exact hsep.2.1
            · rcases List.mem_cons.mp h3 with h4 | h4
              · rw [h4]; exact hsep.2.1
              · rcases List.mem_append.mp h4 with h5 | h5
                · exact hauthQ c h5
                · rcases List.mem_cons.mp h5 with h6 | h6
                  · rw [h6]; exact hsep.2.1
                  · apply hinpre c
                    rw [heq]
                    exact List.mem_cons_of_mem _ h6
      · rename_i rest heq
        injection h with h1
        have hdata : o.data =
            sch ++ ':' :: '/' :: '/' :: auth ++ path ++ '#' :: rest := by
          rw [← h1]
        rw [hdata]
        intro c hc
        simp only [List.mem_append, List.mem_cons] at hc
        rcases hc with ((h1 | h1) | h1) | h1
        · exact hschQ c h1
        · rcases h1 with h2 | h2 | h2 | h2
          · rw [h2]; exact hsep.1
          · rw [h2]; exact hsep.2.1
          · rw [h2]; exact hsep.2.1
          · exact hauthQ c h2
        · exact hpathQ c h1
        · rcases h1 with h2 | h2
          · rw [h2]
            apply hinpre
            rw [heq]
            exact List.mem_cons_self _ _
          · apply hinpre c
            rw [heq]
            exact List.mem_cons_of_mem _ h2
      · rename_i rest heq
        injection h with h1
        have hdata : o.data =
            sch ++ ':' :: '/' :: '/' :: auth ++ path ++ '?' :: rest := by
          rw [← h1]
        rw [hdata]
        intro c hc
        simp only [List.mem_append, List.mem_cons] at hc
        rcases hc with ((h1 | h1) | h1) | h1
        · exact hschQ c h1
        · rcases h1 with h2 | h2 | h2 | h2
          · rw [h2]; exact hsep.1
          · rw [h2]; exact hsep.2.1
          · rw [h2]; exact hsep.2.1
          · exact hauthQ c h2
        · exact hpathQ c h1
        · rcases h1 with h2 | h2
          · rw [h2]
            apply hinpre
            rw [heq]
            exact List.mem_cons_self _ _
          · apply hinpre c
            rw [heq]
            exact List.mem_cons_of_mem _ h2
      · injection h with h1
        have hdata : o.data = sch ++ ':' :: '/' :: '/' :: auth ++
            dirOf path ++ urlPre input.data := by
          rw [← h1]
        rw [hdata]
        intro c hc
        simp only [List.mem_append, List.mem_cons] at hc
        rcases hc with ((h1 | h1) | h1) | h1
        · exact hschQ c h1
        · rcases h1 with h2 | h2 | h2 | h2
          · rw [h2]; exact hsep.1
          · rw [h2]; exact hsep.2.1
          · rw [h2]; exact hsep.2.1
          · exact hauthQ c h2
        · exact hpathQ c (dirOf_subset path c h1)
        · exact hinpre c h1

-- ============================================================
-- JS `trim`/`toLowerCase` interaction with prefixes (towards C5)
-- ============================================================

theorem dropWhile_eq_self_head (p : Char → Bool) (l : List Char)
    (h : ∀ c, l.head? = some c → p c = false) : l.dropWhile p = l := by
  cases l with
  | nil => rfl
  | cons c cs =>
    exact List.dropWhile_cons_of_neg (by rw [h c rfl]; exact Bool.false_ne_true)

theorem listPre_head (p : Char) (ps l : List Char)
    (h : listPre (p :: ps) l = true) : ∃ t, l = p :: t := by
  cases l with
  | nil => cases h
  | cons c cs =>
    replace h : (p == c && listPre ps cs) = true := h
    rw [Bool.and_eq_true] at h
    exact ⟨cs, by rw [eq_of_beq h.1]⟩

theorem trim_lower_head (v : String) (c : Char) (hv : v.data.head? = some c)
    (hws : isJsWs (asciiLower c) = false) :
    (jsTrim (jsToLower v)).data.head? = some (asciiLower c) := by
  obtain ⟨t, ht⟩ : ∃ t, v.data = c :: t := by
    cases hd : v.data with
    | nil => rw [hd] at hv; cases hv
    | cons x xs =>
      rw [hd] at hv
      injection hv with hv
      exact ⟨xs, by rw [hv]⟩
  show (((jsToLower v).data.dropWhile isJsWs).reverse.dropWhile
    isJsWs).reverse.head? = some (asciiLower c)
  have hlow : (jsToLower v).data = asciiLower c :: t.map asciiLower := by
    show (v.data.map asciiLower) = _
    rw [ht]
    rfl
  rw [hlow, List.dropWhile_cons_of_neg (by rw [hws]; exact Bool.false_ne_true)]
  have hpre := reverse_dropWhile_prefix isJsWs (asciiLower c :: t.map asciiLower)
  have hne : ((asciiLower c :: t.map asciiLower).reverse.dropWhile
      isJsWs).reverse ≠ [] := by
    intro hnil
    rw [List.reverse_eq_nil_iff, List.dropWhile_eq_nil_iff] at hnil
    have := hnil (asciiLower c) (List.mem_reverse.mpr (List.mem_cons_self _ _))
    rw [hws] at this
    cases this
  rw [prefix_head?_eq _ _ hpre hne]
  rfl

theorem http_head (v : String)
    (h : jsStartsWith v "http://" = true ∨ jsStartsWith v "https://" = true) :
    v.data.head? = some 'h' := by
  rcases h with h | h
  · obtain ⟨t, ht⟩ := listPre_head 'h' _ _ h
    rw [ht]
    rfl
  · obtain ⟨t, ht⟩ := listPre_head 'h' _ _ h
    rw [ht]
    rfl

theorem http_not_forbidden (v : String)
    (h : jsStartsWith v "http://" = true ∨ jsStartsWith v "https://" = true) :
    isForbiddenHref v = false := by
  have hhead : (jsTrim (jsToLower v)).data.head? = some 'h' := by
    have := trim_lower_head v 'h' (http_head v h) (by decide)
    rwa [show asciiLower 'h' = 'h' from by decide] at this
  unfold isForbiddenHref
  show (jsStartsWith (jsTrim (jsToLower v)) "javascript:" ||
    jsStartsWith (jsTrim (jsToLower v)) "data:" ||
    jsStartsWith (jsTrim (jsToLower v)) "vbscript:") = false
  rw [show jsStartsWith (jsTrim (jsToLower v)) "javascript:" =
      listPre ('j' :: "avascript:".data) (jsTrim (jsToLower v)).data from rfl,
    listPre_head_ne hhead (by decide),
    show jsStartsWith (jsTrim (jsToLower v)) "data:" =
      listPre ('d' :: "ata:".data) (jsTrim (jsToLower v)).data from rfl,
    listPre_head_ne hhead (by decide),
    show jsStartsWith (jsTrim (jsToLower v)) "vbscript:" =
      listPre ('v' :: "bscript:".data) (jsTrim (jsToLower v)).data from rfl,
    listPre_head_ne hhead (by decide)]
  rfl

theorem http_not_dataLower (v : String)
    (h : jsStartsWith v "http://" = true ∨ jsStartsWith v "https://" = true) :
    jsStartsWith (jsTrim (jsToLower v)) "data:" = false := by
  have hhead : (jsTrim (jsToLower v)).data.head? = some 'h' := by
    have := trim_lower_head v 'h' (http_head v h) (by decide)
    rwa [show asciiLower 'h' = 'h' from by decide] at this
  rw [show jsStartsWith (jsTrim (jsToLower v)) "data:" =
      listPre ('d' :: "ata:".data) (jsTrim (jsToLower v)).data from rfl,
    listPre_head_ne hhead (by decide)]

-- ============================================================
-- Attribute fix-up stability (towards C5)
-- ============================================================

/-- Re-sanitizing an anchor `href` the sanitizer produced leaves it
unchanged, provided the produced value does not carry a forbidden scheme
(the amended-C5 hypothesis). -/
theorem fixHref_stable (base v w : String) (h : fixHref base v = some w)
    (hforb : isForbiddenHref w = false) : fixHref base w = some w := by
  unfold fixHref at h ⊢
  by_cases h0 : v = ""
  · rw [if_pos h0] at h
    injection h with h1
    subst h1
    rw [if_pos h0]
  · rw [if_neg h0] at h
    by_cases h1 : isForbiddenHref v = true
    · rw [if_pos h1] at h
      cases h
    · rw [if_neg h1] at h
      by_cases h2 : (jsStartsWith v "http://" || jsStartsWith v "https://" ||
          jsStartsWith v "mailto:" || jsStartsWith v "#") = true
      · rw [if_pos h2] at h
        injection h with h3
        subst h3
        rw [if_neg h0, if_neg h1, if_pos h2]
      · rw [if_neg h2] at h
        cases hres : urlResolve v base with
        | some abs =>
          rw [hres] at h
          injection h with h3
          subst h3
          have habs := urlResolve_out v base abs hres
          have hne := urlResolve_ne_empty v base abs hres
          rw [if_neg hne, if_neg (by rw [hforb]; exact Bool.false_ne_true)]
          by_cases h4 : (jsStartsWith abs "http://" || jsStartsWith abs "https://" ||
              jsStartsWith abs "mailto:" || jsStartsWith abs "#") = true
          · rw [if_pos h4]
          · rw [if_neg h4, habs]
        | none =>
          rw [hres] at h
          injection h with h3
          subst h3
          rw [if_neg h0, if_neg h1, if_neg h2, hres]

/-- The sanitizer's `img src` fix-up is idempotent. -/
theorem fixImgSrc_idem (base v : String) :
    fixImgSrc base (fixImgSrc base v) = fixImgSrc base v := by
  by_cases h0 : v = ""
  · have hv : fixImgSrc base v = v := by
      unfold fixImgSrc
      rw [if_pos h0]
    rw [hv, hv]
  · by_cases hdata : jsStartsWith (jsTrim (jsToLower v)) "data:" = true
    · have hv : fixImgSrc base v = v := by
        unfold fixImgSrc
        rw [if_neg h0]
        show (if jsStartsWith (jsTrim (jsToLower v)) "data:" then v
          else if jsStartsWith v "http://" || jsStartsWith v "https://" then v
          else match urlResolve v base with
            | some abs => abs
            | none => v) = v
        rw [if_pos hdata]
      rw [hv, hv]
    · by_cases hhttp : (jsStartsWith v "http://" ||
          jsStartsWith v "https://") = true
      · have hv : fixImgSrc base v = v := by
          unfold fixImgSrc
          rw [if_neg h0]
          show (if jsStartsWith (jsTrim (jsToLower v)) "data:" then v
            else if jsStartsWith v "http://" || jsStartsWith v "https://" then v
            else match urlResolve v base with
              | some abs => abs
              | none => v) = v
          rw [if_neg hdata, if_pos hhttp]
        rw [hv, hv]
      · cases hres : urlResolve v base with
        | some abs =>
          have hv : fixImgSrc base v = abs := by
            unfold fixImgSrc
            rw [if_neg h0]
            show (if jsStartsWith (jsTrim (jsToLower v)) "data:" then v
              else if jsStartsWith v "http://" || jsStartsWith v "https://" then v
              else match urlResolve v base with
                | some abs => abs
                | none => v) = abs
            rw [if_neg hdata, if_neg hhttp, hres]
          rw [hv]
          have habs := urlResolve_out v base abs hres
          have hne := urlResolve_ne_empty v base abs hres
          unfold fixImgSrc
          rw [if_neg hne]
          show (if jsStartsWith (jsTrim (jsToLower abs)) "data:" then abs
            else if jsStartsWith abs "http://" || jsStartsWith abs "https://" then abs
            else match urlResolve abs base with
              | some abs2 => abs2
              | none => abs) = abs
          by_cases hd2 : jsStartsWith (jsTrim (jsToLower abs)) "data:" = true
          · rw [if_pos hd2]
          · rw [if_neg hd2]
            by_cases hh2 : (jsStartsWith abs "http://" ||
                jsStartsWith abs "https://") = true
            · rw [if_pos hh2]
            · rw [if_neg hh2, habs]
        | none =>
          have hv : fixImgSrc base v = v := by
            unfold fixImgSrc
            rw [if_neg h0]
            show (if jsStartsWith (jsTrim (jsToLower v)) "data:" then v
              else if jsStartsWith v "http://" || jsStartsWith v "https://" then v
              else match urlResolve v base with
                | some abs => abs
                | none => v) = v
            rw [if_neg hdata, if_neg hhttp, hres]
          rw [hv, hv]

/-- The sanitizer's `source src`/`video poster` fix-up is idempotent. -/
theorem fixPlainUrl_idem (base v : String) :
    fixPlainUrl base (fixPlainUrl base v) = fixPlainUrl base v := by
  by_cases hg : v ≠ "" ∧ ¬ jsStartsWith v "http://" = true ∧
      ¬ jsStartsWith v "https://" = true ∧ ¬ jsStartsWith v "data:" = true
  · cases hres : urlResolve v base with
    | some abs =>
      have hv : fixPlainUrl base v = abs := by
        unfold fixPlainUrl
        rw [if_pos hg, hres]
      rw [hv]
      have habs := urlResolve_out v base abs hres
      unfold fixPlainUrl
      by_cases hg2 : abs ≠ "" ∧ ¬ jsStartsWith abs "http://" = true ∧
          ¬ jsStartsWith abs "https://" = true ∧ ¬ jsStartsWith abs "data:" = true
      · rw [if_pos hg2, habs]
      · rw [if_neg hg2]
    | none =>
      have hv : fixPlainUrl base v = v := by
        unfold fixPlainUrl
        rw [if_pos hg, hres]
      rw [hv, hv]
  · have hv : fixPlainUrl base v = v := by
      unfold fixPlainUrl
      rw [if_neg hg]
    rw [hv, hv]

-- ============================================================
-- srcset splitting/joining (towards C5)
-- ============================================================

theorem splitP_cons_pos (p : Char → Bool) (c : Char) (cs : List Char)
    (hc : p c = true) : splitP p (c :: cs) = [] :: splitP p cs := by
  conv_lhs => rw [splitP.eq_def]
  exact if_pos hc

theorem splitP_cons_neg (p : Char → Bool) (c : Char) (cs : List Char)
    (hc : ¬ p c = true) : splitP p (c :: cs) =
      (match splitP p cs with
       | [] => [[c]]
       | h :: t => (c :: h) :: t) := by
  conv_lhs => rw [splitP.eq_def]
  exact if_neg hc

theorem splitP_ne_nil (p : Char → Bool) (l : List Char) : splitP p l ≠ [] := by
  cases l with
  | nil => exact List.cons_ne_nil _ _
  | cons c cs =>
    by_cases hc : p c = true
    · rw [splitP_cons_pos p c cs hc]
      exact List.cons_ne_nil _ _
    · rw [splitP_cons_neg p c cs hc]
      cases splitP p cs with
      | nil => exact List.cons_ne_nil _ _
      | cons h t => exact List.cons_ne_nil _ _

theorem splitP_sepfree (p : Char → Bool) (l : List Char)
    (h : ∀ c ∈ l, p c = false) : splitP p l = [l] := by
  induction l with
  | nil => rfl
  | cons c cs ih =>
    have hc : ¬ p c = true := by
      rw [h c (List.mem_cons_self c cs)]
      exact Bool.false_ne_true
    rw [splitP_cons_neg p c cs hc, ih (fun c hc => h c (List.mem_cons_of_mem _ hc))]

theorem splitP_append (p : Char → Bool) (x r : List Char) (c0 : Char)
    (hx : ∀ c ∈ x, p c = false) (hc0 : p c0 = true) :
    splitP p (x ++ c0 :: r) = x :: splitP p r := by
  induction x with
  | nil =>
    rw [List.nil_append]
    exact splitP_cons_pos p c0 r hc0
  | cons c xs ih =>
    have hc : ¬ p c = true := by
      rw [hx c (List.mem_cons_self c xs)]
      exact Bool.false_ne_true
    rw [List.cons_append]
    have hred := splitP_cons_neg p c (xs ++ c0 :: r) hc
    rw [hred, ih (fun c hc => hx c (List.mem_cons_of_mem _ hc))]

theorem mem_splitP (p : Char → Bool) :
    ∀ (l : List Char) (t : List Char), t ∈ splitP p l → ∀ c ∈ t, c ∈ l := by
  intro l
  induction l with
  | nil =>
    intro t ht c hc
    replace ht : t ∈ [([] : List Char)] := ht
    rcases List.mem_cons.mp ht with h1 | h1
    · rw [h1] at hc
      cases hc
    · cases h1
  | cons a as ih =>
    intro t ht c hc
    by_cases ha : p a = true
    · rw [splitP_cons_pos p a as ha] at ht
      rcases List.mem_cons.mp ht with h1 | h1
      · rw [h1] at hc
        cases hc
      · exact List.mem_cons_of_mem _ (ih t h1 c hc)
    · have hred := splitP_cons_neg p a as ha
      rw [hred] at ht
      cases hsp : splitP p as with
      | nil => exact absurd hsp (splitP_ne_nil p as)
      | cons h tl =>
        rw [hsp] at ht
        rcases List.mem_cons.mp ht with h1 | h1
        · rw [h1] at hc
          rcases List.mem_cons.mp hc with h2 | h2
          · rw [h2]
            exact List.mem_cons_self a as
          · exact List.mem_cons_of_mem _
              (ih h (by rw [hsp]; exact List.mem_cons_self h tl) c h2)
        · exact List.mem_cons_of_mem _
            (ih t (by rw [hsp]; exact List.mem_cons_of_mem _ h1) c hc)

theorem splitP_token_not (p : Char → Bool) :
    ∀ (l : List Char) (t : List Char), t ∈ splitP p l → ∀ c ∈ t, p c = false := by
  intro l
  induction l with
  | nil =>
    intro t ht c hc
    replace ht : t ∈ [([] : List Char)] := ht
    rcases List.mem_cons.mp ht with h1 | h1
    · rw [h1] at hc
      cases hc
    · cases h1
  | cons a as ih =>
    intro t ht c hc
    by_cases ha : p a = true
    · rw [splitP_cons_pos p a as ha] at ht
      rcases List.mem_cons.mp ht with h1 | h1
      · rw [h1] at hc
        cases hc
      · exact ih t h1 c hc
    · have hred := splitP_cons_neg p a as ha
      rw [hred] at ht
      cases hsp : splitP p as with
      | nil => exact absurd hsp (splitP_ne_nil p as)
      | cons h tl =>
        rw [hsp] at ht
        rcases List.mem_cons.mp ht with h1 | h1
        · rw [h1] at hc
          rcases List.mem_cons.mp hc with h2 | h2
          · rw [h2]
            exact Bool.eq_false_iff.mpr ha
          · exact ih h (by rw [hsp]; exact List.mem_cons_self h tl) c h2
        · exact ih t (by rw [hsp]; exact List.mem_cons_of_mem _ h1) c hc

theorem mem_joinWith (sep : List Char) :
    ∀ (es : List (List Char)) (c : Char), c ∈ joinWith sep es →
      (∃ e ∈ es, c ∈ e) ∨ c ∈ sep := by
  intro es
  induction es with
  | nil => intro c hc; cases hc
  | cons e es ih =>
    intro c hc
    cases es with
    | nil =>
      replace hc : c ∈ e := hc
      exact Or.inl ⟨e, List.mem_cons_self e [], hc⟩
    | cons f fs =>
      replace hc : c ∈ (e ++ sep) ++ joinWith sep (f :: fs) := hc
      rcases List.mem_append.mp hc with h1 | h1
      · rcases List.mem_append.mp h1 with h2 | h2
        · exact Or.inl ⟨e, List.mem_cons_self e _, h2⟩
        · exact Or.inr h2
      · rcases ih c h1 with ⟨e2, he2, hce2⟩ | h2
        · exact Or.inl ⟨e2, List.mem_cons_of_mem _ he2, hce2⟩
        · exact Or.inr h2

theorem joinWith_ne_nil (sep : List Char) (t : List Char) (ts : List (List Char))
    (ht : t ≠ []) : joinWith sep (t :: ts) ≠ [] := by
  cases ts with
  | nil => exact ht
  | cons u us =>
    show (t ++ sep) ++ joinWith sep (u :: us) ≠ []
    intro hc
    rcases List.append_eq_nil.mp hc with ⟨h1, _⟩
    rcases List.append_eq_nil.mp h1 with ⟨h2, _⟩
    exact ht h2

theorem joinWith_head? (sep : List Char) (t : List Char) (ts : List (List Char))
    (ht : t ≠ []) : (joinWith sep (t :: ts)).head? = t.head? := by
  cases ts with
  | nil => rfl
  | cons u us =>
    show ((t ++ sep) ++ joinWith sep (u :: us)).head? = t.head?
    cases t with
    | nil => exact absurd rfl ht
    | cons a as => rfl

theorem joinWith_getLast? (sep : List Char) :
    ∀ (ts : List (List Char)) (t : List Char), (∀ u ∈ ts, u ≠ []) →
      ts.getLast? = some t → (joinWith sep ts).getLast? = t.getLast? := by
  intro ts
  induction ts with
  | nil => intro t _ hlast; cases hlast
  | cons e es ih =>
    intro t hne hlast
    cases es with
    | nil =>
      replace hlast : some e = some t := hlast
      injection hlast with hlast
      rw [← hlast]
      rfl
    | cons f fs =>
      show ((e ++ sep) ++ joinWith sep (f :: fs)).getLast? = t.getLast?
      rw [List.getLast?_append_of_ne_nil _
        (joinWith_ne_nil sep f fs (hne f (List.mem_cons_of_mem _
          (List.mem_cons_self f fs))))]
      have hlast2 : (f :: fs).getLast? = some t := by
        rw [← hlast]
        exact (getLast?_cons_of_ne_nil e (f :: fs) (List.cons_ne_nil f fs)).symm
      exact ih t (fun u hu => hne u (List.mem_cons_of_mem _ hu)) hlast2

theorem mem_of_head? {α : Type} (l : List α) (c : α) (h : l.head? = some c) :
    c ∈ l := by
  cases l with
  | nil => cases h
  | cons a as =>
    injection h with h
    rw [← h]
    exact List.mem_cons_self a as

theorem mem_of_getLast? {α : Type} (l : List α) (c : α)
    (h : l.getLast? = some c) : c ∈ l := by
  rw [← List.head?_reverse] at h
  exact List.mem_reverse.mp (mem_of_head? l.reverse c h)

theorem cons_getLast?_some {α : Type} :
    ∀ (l : List α) (a : α), ∃ t, (a :: l).getLast? = some t
  | [], a => ⟨a, rfl⟩
  | b :: bs, a => by
    rw [List.getLast?_cons_cons]
    exact cons_getLast?_some bs b

theorem string_ne_empty_data (s : String) (h : s ≠ "") : s.data ≠ [] := by
  intro hd
  apply h
  cases s with
  | mk d =>
    replace hd : d = [] := hd
    rw [hd]

theorem mem_jsTrim (l : List Char) (c : Char) (h : c ∈ (jsTrim ⟨l⟩).data) :
    c ∈ l := by
  replace h : c ∈ ((l.dropWhile isJsWs).reverse.dropWhile isJsWs).reverse := h
  rw [List.mem_reverse] at h
  have h2 := (List.dropWhile_suffix isJsWs).subset h
  rw [List.mem_reverse] at h2
  exact (List.dropWhile_suffix isJsWs).subset h2

theorem jsTrim_eq_self (l : List Char)
    (hh : ∀ c, l.head? = some c → isJsWs c = false)
    (hl : ∀ c, l.getLast? = some c → isJsWs c = false) :
    jsTrim ⟨l⟩ = ⟨l⟩ := by
  have h1 : l.dropWhile isJsWs = l := dropWhile_eq_self_head _ l hh
  have h2 : l.reverse.dropWhile isJsWs = l.reverse :=
    dropWhile_eq_self_head _ l.reverse
      (fun c hc => hl c (by rw [← List.head?_reverse]; exact hc))
  show String.mk (((l.dropWhile isJsWs).reverse.dropWhile isJsWs).reverse) = ⟨l⟩
  rw [h1, h2, List.reverse_reverse]

theorem jsTrim_cons_ws (c : Char) (x : List Char) (hc : isJsWs c = true) :
    jsTrim ⟨c :: x⟩ = jsTrim ⟨x⟩ := by
  show String.mk ((((c :: x).dropWhile isJsWs).reverse.dropWhile isJsWs).reverse) =
    jsTrim ⟨x⟩
  rw [List.dropWhile_cons_of_pos hc]
  rfl

theorem splitP_joinWith_comma :
    ∀ (es : List (List Char)) (e : List Char),
      (∀ x ∈ e :: es, ∀ c ∈ x, ¬ c = ',') →
      splitP (fun c => c = ',') (joinWith [',', ' '] (e :: es)) =
        e :: es.map (fun x => ' ' :: x) := by
  intro es
  induction es with
  | nil =>
    intro e h
    show splitP (fun c => c = ',') e = [e]
    exact splitP_sepfree _ e (fun c hc =>
      decide_eq_false (h e (List.mem_cons_self e []) c hc))
  | cons f fs ih =>
    intro e h
    show splitP (fun c => c = ',')
      ((e ++ [',', ' ']) ++ joinWith [',', ' '] (f :: fs)) = _
    have hassoc : (e ++ [',', ' ']) ++ joinWith [',', ' '] (f :: fs) =
        e ++ ',' :: (' ' :: joinWith [',', ' '] (f :: fs)) := by
      simp [List.cons_append, List.append_assoc]
    rw [hassoc, splitP_append _ e _ ','
      (fun c hc => decide_eq_false (h e (List.mem_cons_self e _) c hc))
      (by decide),
      splitP_cons_neg _ ' ' _ (by decide),
      ih f (fun x hx => h x (List.mem_cons_of_mem _ hx))]
    rfl

theorem splitP_wsjoin :
    ∀ (ts : List (List Char)),
      (∀ t ∈ ts, t ≠ [] ∧ ∀ c ∈ t, isJsWs c = false) → ts ≠ [] →
      (splitP isJsWs (joinWith [' '] ts)).filter (fun t => t ≠ []) = ts := by
  intro ts
  induction ts with
  | nil => intro _ hne; exact absurd rfl hne
  | cons t ts ih =>
    intro h _
    cases ts with
    | nil =>
      show (splitP isJsWs t).filter (fun t => t ≠ []) = [t]
      rw [splitP_sepfree isJsWs t (h t (List.mem_cons_self t [])).2]
      rw [List.filter_cons]
      rw [if_pos (by
        rw [decide_eq_true_eq]
        exact (h t (List.mem_cons_self t [])).1)]
      rfl
    | cons u us =>
      show (splitP isJsWs
        ((t ++ [' ']) ++ joinWith [' '] (u :: us))).filter (fun t => t ≠ []) = _
      have hassoc : (t ++ [' ']) ++ joinWith [' '] (u :: us) =
          t ++ ' ' :: joinWith [' '] (u :: us) := by
        simp [List.cons_append, List.append_assoc]
      rw [hassoc, splitP_append isJsWs t _ ' '
        (h t (List.mem_cons_self t _)).2 (by decide)]
      rw [List.filter_cons]
      rw [if_pos (by
        rw [decide_eq_true_eq]
        exact (h t (List.mem_cons_self t _)).1)]
      rw [ih (fun x hx => h x (List.mem_cons_of_mem _ hx)) (List.cons_ne_nil u us)]

theorem hexDigit_gt32 (k : Nat) (hk : k < 16) : 32 < (hexDigit k).toNat := by
  rw [hexDigit_toNat k hk]
  split_ifs <;> omega

theorem hexDigit_ne_comma (k : Nat) (hk : k < 16) : hexDigit k ≠ ',' := by
  intro he
  rw [char_eq_iff_toNat, hexDigit_toNat k hk,
    show (',' : Char).toNat = 44 from rfl] at he
  revert he
  split_ifs <;> omega

theorem srcsetUrl_ne_nil (base : String) (url : List Char) (hne : url ≠ []) :
    srcsetUrl base url ≠ [] := by
  unfold srcsetUrl
  by_cases hg : url ≠ [] ∧ ¬ listPre "http://".data url = true ∧
      ¬ listPre "https://".data url = true ∧ ¬ listPre "data:".data url = true
  · rw [if_pos hg]
    cases hres : urlResolve ⟨url⟩ base with
    | some abs => exact string_ne_empty_data abs (urlResolve_ne_empty _ _ _ hres)
    | none => exact hne
  · rw [if_neg hg]
    exact hne

theorem srcsetUrl_wsfree (base : String) (url : List Char)
    (hws : ∀ c ∈ url, isJsWs c = false) :
    ∀ c ∈ srcsetUrl base url, isJsWs c = false := by
  unfold srcsetUrl
  by_cases hg : url ≠ [] ∧ ¬ listPre "http://".data url = true ∧
      ¬ listPre "https://".data url = true ∧ ¬ listPre "data:".data url = true
  · rw [if_pos hg]
    cases hres : urlResolve ⟨url⟩ base with
    | some abs =>
      intro c hc
      have := urlResolve_all (fun c => !isJsWs c)
        (fun c h => by
          rw [Bool.not_eq_true'] at h ⊢
          rw [isJsWs_asciiLower]
          exact h)
        ⟨by decide, by decide, by decide, fun k hk => by
          rw [Bool.not_eq_true']
          exact gt32_not_ws _ (hexDigit_gt32 k hk)⟩
        ⟨url⟩ base abs
        (fun c hc => by rw [Bool.not_eq_true']; exact hws c hc)
        (fun c _ h32 => by rw [Bool.not_eq_true']; exact gt32_not_ws c h32)
        hres c hc
      rwa [Bool.not_eq_true'] at this
    | none => exact hws
  · rw [if_neg hg]
    exact hws

theorem srcsetUrl_commafree (base : String) (hbase : commaFree base = true)
    (url : List Char) (hurl : ∀ c ∈ url, ¬ c = ',') :
    ∀ c ∈ srcsetUrl base url, ¬ c = ',' := by
  unfold srcsetUrl
  by_cases hg : url ≠ [] ∧ ¬ listPre "http://".data url = true ∧
      ¬ listPre "https://".data url = true ∧ ¬ listPre "data:".data url = true
  · rw [if_pos hg]
    cases hres : urlResolve ⟨url⟩ base with
    | some abs =>
      intro c hc
      have := urlResolve_all (fun c => decide (¬ c = ','))
        (fun c h => by
          rw [decide_eq_true_eq] at h ⊢
          intro he
          exact h ((asciiLower_eq_fixed c ',' (by decide)).mp he))
        ⟨by decide, by decide, by decide, fun k hk => by
          rw [decide_eq_true_eq]
          exact hexDigit_ne_comma k hk⟩
        ⟨url⟩ base abs
        (fun c hc => by rw [decide_eq_true_eq]; exact hurl c hc)
        (fun c hc _ => by
          unfold commaFree at hbase
          rw [List.all_eq_true] at hbase
          exact hbase c hc)
        hres c hc
      rwa [decide_eq_true_eq] at this
    | none => exact hurl
  · rw [if_neg hg]
    exact hurl

theorem srcsetUrl_stable (base : String) (url : List Char) :
    srcsetUrl base (srcsetUrl base url) = srcsetUrl base url := by
  by_cases hg : url ≠ [] ∧ ¬ listPre "http://".data url = true ∧
      ¬ listPre "https://".data url = true ∧ ¬ listPre "data:".data url = true
  · cases hres : urlResolve ⟨url⟩ base with
    | some abs =>
      have hv : srcsetUrl base url = abs.data := by
        unfold srcsetUrl
        rw [if_pos hg, hres]
      rw [hv]
      have habs : urlResolve ⟨abs.data⟩ base = some abs := by
        rw [show (⟨abs.data⟩ : String) = abs from rfl]
        exact urlResolve_out ⟨url⟩ base abs hres
      unfold srcsetUrl
      by_cases hg2 : abs.data ≠ [] ∧ ¬ listPre "http://".data abs.data = true ∧
          ¬ listPre "https://".data abs.data = true ∧
          ¬ listPre "data:".data abs.data = true
      · rw [if_pos hg2, habs]
      · rw [if_neg hg2]
    | none =>
      have hv : srcsetUrl base url = url := by
        unfold srcsetUrl
        rw [if_pos hg, hres]
      rw [hv, hv]
  · have hv : srcsetUrl base url = url := by
      unfold srcsetUrl
      rw [if_neg hg]
    rw [hv, hv]

theorem srcsetEntry_cons_space (base : String) (e : List Char) (c : Char)
    (hc : isJsWs c = true) : srcsetEntry base (c :: e) = srcsetEntry base e := by
  unfold srcsetEntry
  rw [jsTrim_cons_ws c e hc]

theorem srcsetEntry_comma_free (base : String) (hbase : commaFree base = true)
    (e : List Char) (he : ∀ c ∈ e, ¬ c = ',') :
    ∀ c ∈ srcsetEntry base e, ¬ c = ',' := by
  unfold srcsetEntry
  cases hsp : (splitP isJsWs (jsTrim ⟨e⟩).data).filter (fun t => t ≠ []) with
  | nil =>
    intro c hc
    replace hc : c ∈ ([] : List Char) := hc
    cases hc
  | cons url descs =>
    intro c hc
    replace hc : c ∈ joinWith [' '] (srcsetUrl base url :: descs) := hc
    have htok : ∀ t ∈ url :: descs, ∀ c ∈ t, c ∈ e := by
      intro t ht c hct
      have ht2 : t ∈ splitP isJsWs (jsTrim ⟨e⟩).data := by
        apply List.mem_of_mem_filter
        rw [hsp]
        exact ht
      exact mem_jsTrim e c (mem_splitP isJsWs _ t ht2 c hct)
    rcases mem_joinWith _ _ c hc with ⟨t, ht, hct⟩ | hsep
    · rcases List.mem_cons.mp ht with h1 | h1
      · rw [h1] at hct
        exact srcsetUrl_commafree base hbase url
          (fun c hc => he c (htok url (List.mem_cons_self url descs) c hc)) c hct
      · exact he c (htok t (List.mem_cons_of_mem _ h1) c hct)
    · replace hsep : c ∈ [' '] := hsep
      rcases List.mem_cons.mp hsep with h1 | h1
      · rw [h1]
        decide
      · cases h1

theorem srcsetEntry_stable (base : String) (hbase : commaFree base = true)
    (e : List Char) : srcsetEntry base (srcsetEntry base e) = srcsetEntry base e := by
  cases hsp : (splitP isJsWs (jsTrim ⟨e⟩).data).filter (fun t => t ≠ []) with
  | nil =>
    have h1 : srcsetEntry base e = [] := by
      unfold srcsetEntry
      rw [hsp]
    rw [h1]
    rfl
  | cons url descs =>
    have h1 : srcsetEntry base e = joinWith [' '] (srcsetUrl base url :: descs) := by
      unfold srcsetEntry
      rw [hsp]
    rw [h1]
    have hfacts : ∀ t ∈ url :: descs, t ≠ [] ∧ ∀ c ∈ t, isJsWs c = false := by
      intro t ht
      have ht1 : t ∈ (splitP isJsWs (jsTrim ⟨e⟩).data).filter (fun t => t ≠ []) := by
        rw [hsp]
        exact ht
      constructor
      · have := List.of_mem_filter ht1
        rwa [decide_eq_true_eq] at this
      · exact splitP_token_not isJsWs _ t (List.mem_of_mem_filter ht1)
    have hu_ne : srcsetUrl base url ≠ [] :=
      srcsetUrl_ne_nil base url (hfacts url (List.mem_cons_self url descs)).1
    have hu_ws : ∀ c ∈ srcsetUrl base url, isJsWs c = false :=
      srcsetUrl_wsfree base url (hfacts url (List.mem_cons_self url descs)).2
    have hts : ∀ t ∈ srcsetUrl base url :: descs,
        t ≠ [] ∧ ∀ c ∈ t, isJsWs c = false := by
      intro t ht
      rcases List.mem_cons.mp ht with h2 | h2
      · rw [h2]
        exact ⟨hu_ne, hu_ws⟩
      · exact hfacts t (List.mem_cons_of_mem _ h2)
    have htrim : jsTrim ⟨joinWith [' '] (srcsetUrl base url :: descs)⟩ =
        ⟨joinWith [' '] (srcsetUrl base url :: descs)⟩ := by
      apply jsTrim_eq_self
      · intro c hc
        rw [joinWith_head? [' '] _ descs hu_ne] at hc
        exact hu_ws c (mem_of_head? _ c hc)
      · intro c hc
        obtain ⟨t, hgl⟩ := cons_getLast?_some descs (srcsetUrl base url)
        rw [joinWith_getLast? [' '] _ t (fun u hu => (hts u hu).1) hgl] at hc
        exact (hts t (mem_of_getLast? _ t hgl)).2 c (mem_of_getLast? _ c hc)
    have h2 : (splitP isJsWs
        (jsTrim ⟨joinWith [' '] (srcsetUrl base url :: descs)⟩).data).filter
        (fun t => t ≠ []) = srcsetUrl base url :: descs := by
      rw [htrim]
      exact splitP_wsjoin _ hts (List.cons_ne_nil _ _)
    unfold srcsetEntry
    rw [h2]
    show joinWith [' '] (srcsetUrl base (srcsetUrl base url) :: descs) =
      joinWith [' '] (srcsetUrl base url :: descs)
    rw [srcsetUrl_stable base url]

theorem resolveSrcset_mk (base : String) (l : List Char) :
    resolveSrcset ⟨l⟩ base = ⟨joinWith [',', ' ']
      ((splitP (fun c => c = ',') l).map (srcsetEntry base))⟩ := rfl

/-- The sanitizer's `srcset` rewrite is idempotent whenever the base URL
contains no comma. -/
theorem resolveSrcset_idem (base v : String) (hbase : commaFree base = true) :
    resolveSrcset (resolveSrcset v base) base = resolveSrcset v base := by
  cases hes : splitP (fun c => c = ',') v.data with
  | nil => exact absurd hes (splitP_ne_nil _ _)
  | cons e0 etail =>
    have hout : resolveSrcset v base = ⟨joinWith [',', ' ']
        (srcsetEntry base e0 :: etail.map (srcsetEntry base))⟩ := by
      unfold resolveSrcset
      rw [hes]
      rfl
    have htokfree : ∀ e ∈ e0 :: etail, ∀ c ∈ e, ¬ c = ',' := by
      intro e he c hc
      have := splitP_token_not (fun c => c = ',') v.data e
        (by rw [hes]; exact he) c hc
      rwa [decide_eq_false_iff_not] at this
    have hcf : ∀ x ∈ srcsetEntry base e0 :: etail.map (srcsetEntry base),
        ∀ c ∈ x, ¬ c = ',' := by
      intro x hx c hc
      rcases List.mem_cons.mp hx with h1 | h1
      · rw [h1] at hc
        exact srcsetEntry_comma_free base hbase e0
          (htokfree e0 (List.mem_cons_self e0 etail)) c hc
      · obtain ⟨e, he, rfl⟩ := List.mem_map.mp h1
        exact srcsetEntry_comma_free base hbase e
          (htokfree e (List.mem_cons_of_mem _ he)) c hc
    have hsplit := splitP_joinWith_comma (etail.map (srcsetEntry base))
      (srcsetEntry base e0) hcf
    rw [hout, resolveSrcset_mk, hsplit]
    apply congrArg String.mk
    rw [List.map_cons, srcsetEntry_stable base hbase e0, List.map_map,
      List.map_map]
    exact congrArg (joinWith [',', ' ']) (congrArg (srcsetEntry base e0 :: ·)
      (List.map_congr_left (fun e he => by
      show srcsetEntry base (' ' :: srcsetEntry base e) = srcsetEntry base e
      rw [srcsetEntry_cons_space base (srcsetEntry base e) ' ' (by decide),
        srcsetEntry_stable base hbase e])))

-- ============================================================
-- Attribute-list and tag-level facts (towards C2/C5)
-- ============================================================

theorem fixAttr_name (base tag n v : String) (p : String × String)
    (h : fixAttr base tag n v = some p) : p.1 = n := by
  unfold fixAttr at h
  by_cases h1 : tag = "a" ∧ n = "href"
  · rw [if_pos h1] at h
    cases hf : fixHref base v with
    | none => rw [hf] at h; cases h
    | some u =>
      rw [hf] at h
      injection h with h6
      rw [← h6]
  · rw [if_neg h1] at h
    by_cases h2 : tag = "img" ∧ n = "src"
    · rw [if_pos h2] at h
      injection h with h6
      rw [← h6]
    · rw [if_neg h2] at h
      by_cases h3 : tag = "source" ∧ n = "src"
      · rw [if_pos h3] at h
        injection h with h6
        rw [← h6]
      · rw [if_neg h3] at h
        by_cases h4 : tag = "source" ∧ n = "srcset"
        · rw [if_pos h4] at h
          injection h with h6
          rw [← h6]
        · rw [if_neg h4] at h
          by_cases h5 : tag = "video" ∧ n = "poster"
          · rw [if_pos h5] at h
            injection h with h6
            rw [← h6]
          · rw [if_neg h5] at h
            injection h with h6
            rw [← h6]

theorem fixAttr_shape (base tag n v : String) (p : String × String)
    (h : fixAttr base tag n v = some p) : ∃ w, p = (n, w) := by
  refine ⟨p.2, ?_⟩
  rw [← fixAttr_name base tag n v p h]

theorem fixAttrs_names (base tag : String) (attrs : List (String × String)) :
    ∀ p ∈ fixAttrs base tag attrs, (ALLOWED_ATTRS tag).contains p.1 = true := by
  intro p hp
  unfold fixAttrs at hp
  obtain ⟨a, ha, hfa⟩ := List.mem_filterMap.mp hp
  rw [fixAttr_name base tag a.1 a.2 p hfa]
  exact (List.mem_filter.mp ha).2

theorem filter_allowed_fixAttrs (base tag : String)
    (attrs : List (String × String)) :
    (fixAttrs base tag attrs).filter
      (fun a => (ALLOWED_ATTRS tag).contains a.1) = fixAttrs base tag attrs :=
  List.filter_eq_self.mpr (fun p hp => fixAttrs_names base tag attrs p hp)

theorem filterMap_id_of {α : Type} (f : α → Option α) :
    ∀ (l : List α), (∀ a ∈ l, f a = some a) → l.filterMap f = l := by
  intro l
  induction l with
  | nil => intro _; rfl
  | cons a as ih =>
    intro h
    rw [List.filterMap_cons, h a (List.mem_cons_self a as),
      ih (fun a ha => h a (List.mem_cons_of_mem _ ha))]

theorem fixAttr_stable (base tag n v w : String) (hbase : commaFree base = true)
    (h : fixAttr base tag n v = some (n, w))
    (hforb : tag = "a" → n = "href" → isForbiddenHref w = false) :
    fixAttr base tag n w = some (n, w) := by
  unfold fixAttr at h ⊢
  by_cases h1 : tag = "a" ∧ n = "href"
  · rw [if_pos h1] at h ⊢
    cases hf : fixHref base v with
    | none => rw [hf] at h; cases h
    | some u =>
      rw [hf] at h
      injection h with h2
      injection h2 with h3 h4
      subst h4
      rw [fixHref_stable base v u hf (hforb h1.1 h1.2)]
  · rw [if_neg h1] at h ⊢
    by_cases h2 : tag = "img" ∧ n = "src"
    · rw [if_pos h2] at h ⊢
      injection h with h3
      injection h3 with h4 h5
      rw [← h5, fixImgSrc_idem]
    · rw [if_neg h2] at h ⊢
      by_cases h3 : tag = "source" ∧ n = "src"
      · rw [if_pos h3] at h ⊢
        injection h with h4
        injection h4 with h5 h6
        rw [← h6, fixPlainUrl_idem]
      · rw [if_neg h3] at h ⊢
        by_cases h4 : tag = "source" ∧ n = "srcset"
        · rw [if_pos h4] at h ⊢
          injection h with h5
          injection h5 with h6 h7
          by_cases hw : w = ""
          · rw [if_pos hw]
          · rw [if_neg hw]
            by_cases hv : v = ""
            · rw [if_pos hv] at h7
              rw [h7] at hv
              exact absurd hv hw
            · rw [if_neg hv] at h7
              rw [← h7, resolveSrcset_idem base v hbase]
        · rw [if_neg h4] at h ⊢
          by_cases h5 : tag = "video" ∧ n = "poster"
          · rw [if_pos h5] at h ⊢
            injection h with h6
            injection h6 with h7 h8
            rw [← h8, fixPlainUrl_idem]
          · rw [if_neg h5] at h ⊢

theorem fixAttrs_stable (base tag : String) (hbase : commaFree base = true)
    (attrs : List (String × String))
    (hforb : tag = "a" → ∀ p ∈ fixAttrs base tag attrs, p.1 = "href" →
      isForbiddenHref p.2 = false) :
    fixAttrs base tag (fixAttrs base tag attrs) = fixAttrs base tag attrs := by
  show ((fixAttrs base tag attrs).filter
    (fun a => (ALLOWED_ATTRS tag).contains a.1)).filterMap
      (fun a => fixAttr base tag a.1 a.2) = fixAttrs base tag attrs
  rw [filter_allowed_fixAttrs]
  apply filterMap_id_of
  intro p hp
  have hp2 : p ∈ (attrs.filter
      (fun a => (ALLOWED_ATTRS tag).contains a.1)).filterMap
      (fun a => fixAttr base tag a.1 a.2) := hp
  obtain ⟨a, ha, hfa⟩ := List.mem_filterMap.mp hp2
  obtain ⟨w, rfl⟩ := fixAttr_shape base tag a.1 a.2 p hfa
  exact fixAttr_stable base tag a.1 a.2 w hbase hfa
    (fun ht hn => hforb ht (a.1, w) hp hn)

set_option maxRecDepth 4000 in
theorem allowed_not_dangerous (t : String)
    (h : ALLOWED_TAGS.contains t = true) : DANGEROUS_TAGS.contains t = false := by
  have hmem : t ∈ ALLOWED_TAGS := by
    rw [← List.elem_iff]
    exact h
  have hdisj : ALLOWED_TAGS.all (fun t => !DANGEROUS_TAGS.contains t) = true := by
    decide
  have := List.all_eq_true.mp hdisj t hmem
  rwa [Bool.not_eq_true'] at this

theorem hforest_append_assoc :
    ∀ (a b c : HForest), (a.append b).append c = a.append (b.append c)
  | .nil, _, _ => rfl
  | .cons n f, b, c => by
    show HForest.cons n ((f.append b).append c) = .cons n (f.append (b.append c))
    rw [hforest_append_assoc f b c]

theorem sanitizeForest_append (base : String) :
    ∀ (f g : HForest), sanitizeForest base (f.append g) =
      (sanitizeForest base f).append (sanitizeForest base g)
  | .nil, g => rfl
  | .cons n f, g => by
    show (sanitizeNode base n).append (sanitizeForest base (f.append g)) =
      ((sanitizeNode base n).append (sanitizeForest base f)).append
        (sanitizeForest base g)
    rw [sanitizeForest_append base f g, hforest_append_assoc]

theorem badHrefFreeF_append :
    ∀ (f g : HForest), badHrefFreeF (f.append g) =
      (badHrefFreeF f && badHrefFreeF g)
  | .nil, g => by
    show badHrefFreeF g = (true && badHrefFreeF g)
    rw [Bool.true_and]
  | .cons n f, g => by
    show (badHrefFreeN n && badHrefFreeF (f.append g)) =
      ((badHrefFreeN n && badHrefFreeF f) && badHrefFreeF g)
    rw [badHrefFreeF_append f g, Bool.and_assoc]

-- ============================================================
-- Sanitizer output invariants and idempotence (C2/C5)
-- ============================================================

theorem allowedTagsF_append :
    ∀ (f g : HForest), allowedTagsF (f.append g) =
      (allowedTagsF f && allowedTagsF g)
  | .nil, g => by
    show allowedTagsF g = (true && allowedTagsF g)
    rw [Bool.true_and]
  | .cons n f, g => by
    show (allowedTagsN n && allowedTagsF (f.append g)) =
      ((allowedTagsN n && allowedTagsF f) && allowedTagsF g)
    rw [allowedTagsF_append f g, Bool.and_assoc]

theorem attrsAllowedF_append :
    ∀ (f g : HForest), attrsAllowedF (f.append g) =
      (attrsAllowedF f && attrsAllowedF g)
  | .nil, g => by
    show attrsAllowedF g = (true && attrsAllowedF g)
    rw [Bool.true_and]
  | .cons n f, g => by
    show (attrsAllowedN n && attrsAllowedF (f.append g)) =
      ((attrsAllowedN n && attrsAllowedF f) && attrsAllowedF g)
    rw [attrsAllowedF_append f g, Bool.and_assoc]

/-- The dangerous-tag removal equation of `sanitizeNode`. -/
theorem sanitizeNode_dangerous (base tag : String)
    (attrs : List (String × String)) (cs : HForest)
    (hd : DANGEROUS_TAGS.contains tag = true) :
    sanitizeNode base (.elem tag attrs cs) = .nil := by
  show (if DANGEROUS_TAGS.contains tag then HForest.nil
    else if ¬ ALLOWED_TAGS.contains tag then sanitizeForest base cs
    else .cons (.elem tag (fixAttrs base tag attrs) (sanitizeForest base cs))
      .nil) = .nil
  rw [if_pos hd]

/-- The unwrap equation of `sanitizeNode`: a non-dangerous element whose
tag is outside the allow-list is replaced by its sanitized children, in
place. -/
theorem sanitizeNode_unwrap (base tag : String)
    (attrs : List (String × String)) (cs : HForest)
    (hd : ¬ DANGEROUS_TAGS.contains tag = true)
    (ha : ¬ ALLOWED_TAGS.contains tag = true) :
    sanitizeNode base (.elem tag attrs cs) = sanitizeForest base cs := by
  show (if DANGEROUS_TAGS.contains tag then HForest.nil
    else if ¬ ALLOWED_TAGS.contains tag then sanitizeForest base cs
    else .cons (.elem tag (fixAttrs base tag attrs) (sanitizeForest base cs))
      .nil) = sanitizeForest base cs
  rw [if_neg hd, if_pos ha]

/-- The keep equation of `sanitizeNode`: an allow-listed element keeps its
tag, with fixed attributes and sanitized children. -/
theorem sanitizeNode_keep (base tag : String)
    (attrs : List (String × String)) (cs : HForest)
    (hd : ¬ DANGEROUS_TAGS.contains tag = true)
    (ha : ALLOWED_TAGS.contains tag = true) :
    sanitizeNode base (.elem tag attrs cs) =
      .cons (.elem tag (fixAttrs base tag attrs) (sanitizeForest base cs))
        .nil := by
  show (if DANGEROUS_TAGS.contains tag then HForest.nil
    else if ¬ ALLOWED_TAGS.contains tag then sanitizeForest base cs
    else .cons (.elem tag (fixAttrs base tag attrs) (sanitizeForest base cs))
      .nil) = _
  rw [if_neg hd, if_neg (fun hh => hh ha)]

mutual
theorem allowedTags_sanitizeNode (base : String) :
    ∀ (n : HNode), allowedTagsF (sanitizeNode base n) = true
  | .text s => rfl
  | .elem tag attrs cs => by
    by_cases hd : DANGEROUS_TAGS.contains tag = true
    · rw [sanitizeNode_dangerous base tag attrs cs hd]
      rfl
    · by_cases ha : ALLOWED_TAGS.contains tag = true
      · rw [sanitizeNode_keep base tag attrs cs hd ha]
        show ((ALLOWED_TAGS.contains tag &&
          allowedTagsF (sanitizeForest base cs)) && true) = true
        rw [ha, allowedTags_sanitizeForest base cs]
        rfl
      · rw [sanitizeNode_unwrap base tag attrs cs hd ha]
        exact allowedTags_sanitizeForest base cs

theorem allowedTags_sanitizeForest (base : String) :
    ∀ (f : HForest), allowedTagsF (sanitizeForest base f) = true
  | .nil => rfl
  | .cons n f => by
    show allowedTagsF ((sanitizeNode base n).append (sanitizeForest base f)) =
      true
    rw [allowedTagsF_append, allowedTags_sanitizeNode base n,
      allowedTags_sanitizeForest base f]
    rfl
end

mutual
theorem attrsAllowed_sanitizeNode (base : String) :
    ∀ (n : HNode), attrsAllowedF (sanitizeNode base n) = true
  | .text s => rfl
  | .elem tag attrs cs => by
    by_cases hd : DANGEROUS_TAGS.contains tag = true
    · rw [sanitizeNode_dangerous base tag attrs cs hd]
      rfl
    · by_cases ha : ALLOWED_TAGS.contains tag = true
      · rw [sanitizeNode_keep base tag attrs cs hd ha]
        show (((fixAttrs base tag attrs).all
            (fun a => (ALLOWED_ATTRS tag).contains a.1) &&
          attrsAllowedF (sanitizeForest base cs)) && true) = true
        rw [List.all_eq_true.mpr (fixAttrs_names base tag attrs),
          attrsAllowed_sanitizeForest base cs]
        rfl
      · rw [sanitizeNode_unwrap base tag attrs cs hd ha]
        exact attrsAllowed_sanitizeForest base cs

theorem attrsAllowed_sanitizeForest (base : String) :
    ∀ (f : HForest), attrsAllowedF (sanitizeForest base f) = true
  | .nil => rfl
  | .cons n f => by
    show attrsAllowedF ((sanitizeNode base n).append (sanitizeForest base f)) =
      true
    rw [attrsAllowedF_append, attrsAllowed_sanitizeNode base n,
      attrsAllowed_sanitizeForest base f]
    rfl
end

mutual
/-- Idempotence of the sanitizer on single nodes, under the amended-C5
hypotheses: the first pass's output carries no forbidden anchor `href`,
and the base URL contains no comma. -/
theorem sanitizeNode_idem (base : String) :
    ∀ (n : HNode), badHrefFreeF (sanitizeNode base n) = true →
      commaFree base = true →
      sanitizeForest base (sanitizeNode base n) = sanitizeNode base n
  | .text s => fun _ _ => rfl
  | .elem tag attrs cs => fun hbad hbase => by
    by_cases hd : DANGEROUS_TAGS.contains tag = true
    · rw [sanitizeNode_dangerous base tag attrs cs hd]
      rfl
    · by_cases ha : ALLOWED_TAGS.contains tag = true
      · rw [sanitizeNode_keep base tag attrs cs hd ha] at hbad ⊢
        replace hbad : (((decide (tag ≠ "a") ||
            (fixAttrs base tag attrs).all
              (fun a => decide (a.1 ≠ "href") || !isForbiddenHref a.2)) &&
            badHrefFreeF (sanitizeForest base cs)) && true) = true := hbad
        rw [Bool.and_true, Bool.and_eq_true] at hbad
        obtain ⟨hX, hK⟩ := hbad
        have hforb : tag = "a" → ∀ p ∈ fixAttrs base tag attrs,
            p.1 = "href" → isForbiddenHref p.2 = false := by
          intro ht p hp hn
          subst ht
          rw [show (decide (("a" : String) ≠ "a")) = false from by decide,
            Bool.false_or] at hX
          have := List.all_eq_true.mp hX p hp
          rw [hn] at this
          rw [show (decide (("href" : String) ≠ "href")) = false from by decide,
            Bool.false_or, Bool.not_eq_true'] at this
          exact this
        show (sanitizeNode base (.elem tag (fixAttrs base tag attrs)
            (sanitizeForest base cs))).append (sanitizeForest base .nil) =
          .cons (.elem tag (fixAttrs base tag attrs) (sanitizeForest base cs))
            .nil
        rw [sanitizeNode_keep base tag (fixAttrs base tag attrs)
          (sanitizeForest base cs) hd ha]
        rw [fixAttrs_stable base tag hbase attrs hforb,
          sanitizeForest_idem base cs hK hbase]
        rfl
      · rw [sanitizeNode_unwrap base tag attrs cs hd ha] at hbad ⊢
        exact sanitizeForest_idem base cs hbad hbase

theorem sanitizeForest_idem (base : String) :
    ∀ (f : HForest), badHrefFreeF (sanitizeForest base f) = true →
      commaFree base = true →
      sanitizeForest base (sanitizeForest base f) = sanitizeForest base f
  | .nil => fun _ _ => rfl
  | .cons n f => fun hbad hbase => by
    replace hbad : badHrefFreeF ((sanitizeNode base n).append
        (sanitizeForest base f)) = true := hbad
    rw [badHrefFreeF_append, Bool.and_eq_true] at hbad
    show sanitizeForest base ((sanitizeNode base n).append
        (sanitizeForest base f)) =
      (sanitizeNode base n).append (sanitizeForest base f)
    rw [sanitizeForest_append, sanitizeNode_idem base n hbad.1 hbase,
      sanitizeForest_idem base f hbad.2 hbase]
end

/-- C2: the structural sanitizer invariants hold — every element of the
output carries an allow-listed tag, a non-dangerous element outside the
allow-list is replaced in place by its (sanitized) children, every
surviving element carries only attributes of its tag's allow-list, and
the claim's concrete example behaves as stated (an anchor with
`href="javascript:alert(1)"` loses the attribute but keeps element and
text) — BUT the claim's no-forbidden-scheme guarantee fails: sanitizing
`<a href="java\nscript:alert(1)">` (a newline inside the scheme) keeps
the href, and URL resolution normalises it to `javascript:alert(1)`,
which the sanitizer's own scheme test rejects.  The scheme check runs on
the raw value before `new URL` strips tabs/newlines, so the output
anchor carries a forbidden `javascript:` href. -/
theorem claim_C2_sanitizer :
    (∀ (base : String) (f : HForest),
      allowedTagsF (sanitizeForest base f) = true) ∧
    (∀ (base tag : String) (attrs : List (String × String)) (cs : HForest),
      DANGEROUS_TAGS.contains tag = false → ALLOWED_TAGS.contains tag = false →
      sanitizeNode base (.elem tag attrs cs) = sanitizeForest base cs) ∧
    (∀ (base : String) (f : HForest),
      attrsAllowedF (sanitizeForest base f) = true) ∧
    (sanitizeForest "https://example.com/"
      (.cons (.elem "a" [("href", "javascript:alert(1)")]
        (.cons (.text "click") .nil)) .nil) =
      .cons (.elem "a" [] (.cons (.text "click") .nil)) .nil) ∧
    (attrsOfF (sanitizeForest "https://example.com/"
      (.cons (.elem "a" [("href", "java\nscript:alert(1)")]
        (.cons (.text "click") .nil)) .nil)) =
      [("href", "javascript:alert(1)")] ∧
     isForbiddenHref "javascript:alert(1)" = true) := by
  refine ⟨allowedTags_sanitizeForest, ?_, attrsAllowed_sanitizeForest,
    rfl, rfl, rfl⟩
  intro base tag attrs cs hd ha
  exact sanitizeNode_unwrap base tag attrs cs
    (by rw [hd]; exact Bool.false_ne_true)
    (by rw [ha]; exact Bool.false_ne_true)

theorem claim_C2_sanitizer_witness :
    DANGEROUS_TAGS.contains "center" = false ∧
    ALLOWED_TAGS.contains "center" = false ∧
    sanitizeNode "https://example.com/"
      (.elem "center" [] (.cons (.text "x") .nil)) =
      sanitizeForest "https://example.com/" (.cons (.text "x") .nil) :=
  ⟨by decide, by decide,
    claim_C2_sanitizer.2.1 "https://example.com/" "center" []
      (.cons (.text "x") .nil) (by decide) (by decide)⟩

/-- C5, counterexamples: sanitizeHtml is NOT idempotent.  (a) The
newline-scheme anchor: pass one keeps the href and resolution rewrites
it to `javascript:alert(1)`; pass two removes the now-recognisable
forbidden href, so the two passes differ.  (b) A srcset under a base URL
whose path contains a comma: pass one's absolute URL contains that
comma, and pass two's `split(',')` cuts through it, mangling the
value. -/
theorem claim_C5_counterexample :
    (sanitizeForest "https://example.com/" (sanitizeForest "https://example.com/"
      (.cons (.elem "a" [("href", "java\nscript:alert(1)")]
        (.cons (.text "click") .nil)) .nil)) ≠
     sanitizeForest "https://example.com/"
      (.cons (.elem "a" [("href", "java\nscript:alert(1)")]
        (.cons (.text "click") .nil)) .nil)) ∧
    (sanitizeForest "https://h/a,b/c" (sanitizeForest "https://h/a,b/c"
      (.cons (.elem "source" [("srcset", "i.png 1x")] .nil) .nil)) ≠
     sanitizeForest "https://h/a,b/c"
      (.cons (.elem "source" [("srcset", "i.png 1x")] .nil) .nil)) :=
  ⟨fun h => absurd (congrArg attrsOfF h) (by decide),
   fun h => absurd (congrArg attrsOfF h) (by decide)⟩

/-- C5 (amended): sanitizeHtml is idempotent on every fragment whose
first-pass output contains no anchor `href` the sanitizer's scheme test
rejects, provided the base URL contains no comma.  The two hypotheses
exclude exactly the two failure modes of the counterexamples: a
first-pass href that resolution turned into a forbidden-scheme value
(removed by the second pass), and a base URL whose comma ends up inside
resolved srcset URLs (re-split differently by the second pass). -/
theorem claim_C5_idempotent (base : String) (x : HForest)
    (h1 : badHrefFreeF (sanitizeForest base x) = true)
    (h2 : commaFree base = true) :
    sanitizeForest base (sanitizeForest base x) = sanitizeForest base x :=
  sanitizeForest_idem base x h1 h2

theorem claim_C5_idempotent_witness :
    badHrefFreeF (sanitizeForest "https://example.com/"
      (.cons (.elem "a" [("href", "/p")] (.cons (.text "t") .nil)) .nil)) =
        true ∧
    commaFree "https://example.com/" = true ∧
    sanitizeForest "https://example.com/" (sanitizeForest "https://example.com/"
      (.cons (.elem "a" [("href", "/p")] (.cons (.text "t") .nil)) .nil)) =
      sanitizeForest "https://example.com/"
        (.cons (.elem "a" [("href", "/p")] (.cons (.text "t") .nil)) .nil) :=
  ⟨by decide, by decide,
    claim_C5_idempotent "https://example.com/"
      (.cons (.elem "a" [("href", "/p")] (.cons (.text "t") .nil)) .nil)
      (by decide) (by decide)⟩

end Proxy
